import Mathlib

/-!
# mudtelnet: frame parser, serializer and option negotiation

A shallow embedding of `src/src/mudtelnet.cpp` and `src/include/mudtelnet/mudtelnet.h`.
Strings (`std::string`) are lists of bytes, the session object is an explicit state record,
and the handler methods, which reach the session through the `conn` back pointer, take the
session and the handler and give both back. Plain `char` is a signed 8-bit type, as on
x86-64; this matters in one place, the uncast comparison inside `std::find` of line 94.
-/

namespace mudtelnet

/-- A `char8_t`, kept as a natural number: the code compares bytes and upper-cases them, and
does no other arithmetic on them. -/
abbrev Byte := Nat

namespace codes

abbrev NUL : Byte := 0
abbrev BEL : Byte := 7
abbrev CR : Byte := 13
abbrev LF : Byte := 10
abbrev SGA : Byte := 3
abbrev TELOPT_EOR : Byte := 25
abbrev NAWS : Byte := 31
abbrev LINEMODE : Byte := 34
abbrev EOR : Byte := 239
abbrev SE : Byte := 240
abbrev NOP : Byte := 241
abbrev GA : Byte := 249
abbrev SB : Byte := 250
abbrev WILL : Byte := 251
abbrev WONT : Byte := 252
abbrev DO : Byte := 253
abbrev DONT : Byte := 254
abbrev IAC : Byte := 255
abbrev MNES : Byte := 39
abbrev MXP : Byte := 91
abbrev MSSP : Byte := 70
abbrev MCCP2 : Byte := 86
abbrev MCCP3 : Byte := 87
abbrev GMCP : Byte := 201
abbrev MSDP : Byte := 69
abbrev MTTS : Byte := 24

end codes

/-- The enum `TelnetMsgType`. -/
inductive TelnetMsgType where
  | AppData
  | Command
  | Negotiation
  | Subnegotiation
deriving DecidableEq

/-- The struct `TelnetMessage`; `codes` is the two-element array, `codes.1` being `codes[0]`
and `codes.2` being `codes[1]`. -/
structure TelnetMessage where
  msg_type : TelnetMsgType
  data : List Byte
  codes : Byte × Byte
deriving DecidableEq

/-- The `while(b != end)` loop of `TelnetMessage::parse` (lines 57-81), on the iterator position
`b` (an index into `buf`) and the flag `escaped`. The result is the position of `b` at the
`return` of line 71, after the `b--` of line 69, or `none` when the loop runs to `end`. -/
def parseSubLoop (buf : List Byte) (b : Nat) (escaped : Bool) : Option Nat :=
  if h : b < buf.length then
    if escaped then
      parseSubLoop buf (b + 1) false
    else if buf[b] = codes.IAC then
      if h1 : b + 1 < buf.length then
        if buf[b + 1] = codes.SE then some b
        else parseSubLoop buf b true
      else parseSubLoop buf b true
    else parseSubLoop buf (b + 1) false
  else none
termination_by 2 * (buf.length - b) + (if escaped then 0 else 1)
decreasing_by
  all_goals simp_wf
  all_goals simp_all
  all_goals omega

/-- The value of a byte of a `std::string` read as plain `char` and promoted to `int`. Plain
`char` is signed here, as on x86-64: the bytes from 128 up read as negative values. -/
def charValue (c : Byte) : Int :=
  if c % 256 < 128 then ((c % 256 : Nat) : Int) else ((c % 256 : Nat) : Int) - 256

/-- The call `std::find(first, last, value)` of line 94, on a `std::string` and a `char8_t`
value: the offset of the first element that compares equal to `value`, the length when there
is none. The test `*it == value` compares a plain `char` with a `char8_t`, both promoted to
`int`; it has no cast to `char8_t`, unlike the tests of lines 26, 37 and 63. -/
def find (buf : List Byte) (value : Byte) : Nat :=
  match buf with
  | [] => 0
  | c :: rest => if charValue c = (value : Int) then 0 else 1 + find rest value

/-- The method `TelnetMessage::parse`: the bytes consumed and the message afterwards. The
result is `none` where the code reads the buffer past its end: the `*(++b)` of line 87 on a
buffer of two bytes. -/
def TelnetMessage.parse (m : TelnetMessage) (buf : List Byte) : Option (Nat × TelnetMessage) :=
  match buf with
  | [] => some (0, m)
  | c0 :: rest =>
    if c0 = codes.IAC then
      match rest with
      | [] => some (0, m)
      | c1 :: rest2 =>
        if c1 = codes.WILL ∨ c1 = codes.WONT ∨ c1 = codes.DO ∨ c1 = codes.DONT then
          match rest2 with
          | [] => some (0, m)
          | c2 :: _ =>
            some (3, { m with msg_type := TelnetMsgType.Negotiation, codes := (c1, c2) })
        else if c1 = codes.SB then
          match rest2 with
          | [] => some (0, m)
          | option :: _ =>
            if buf.length < 5 then some (0, m)
            else
              match parseSubLoop buf 3 false with
              | some b =>
                let data := m.data ++ (buf.drop 3).take (b - 3)
                some (5 + data.length,
                  { msg_type := TelnetMsgType.Subnegotiation, data := data,
                    codes := (option, m.codes.2) })
              | none => some (0, m)
        else
          match rest2 with
          | [] => none
          | c2 :: _ =>
            some (2, { m with msg_type := TelnetMsgType.Command, codes := (c2, m.codes.2) })
    else
      let check := find buf codes.IAC
      let data := m.data ++ buf.take check
      some (data.length, { m with msg_type := TelnetMsgType.AppData, data := data })

/-- The method `TelnetMessage::toString`. -/
def TelnetMessage.toString (m : TelnetMessage) : List Byte :=
  match m.msg_type with
  | TelnetMsgType.AppData => m.data
  | TelnetMsgType.Command => [codes.IAC, m.codes.1]
  | TelnetMsgType.Negotiation => [codes.IAC, m.codes.1, m.codes.2]
  | TelnetMsgType.Subnegotiation =>
    [codes.IAC, codes.SB, m.codes.1] ++ m.data ++ [codes.IAC, codes.SE]

/-- The offset of the first adjacent pair `IAC SE` in a byte list, if there is one. -/
def firstIacSe : List Byte → Option Nat
  | [] => none
  | [_] => none
  | a :: b :: tl =>
    if a = codes.IAC ∧ b = codes.SE then some 0
    else (firstIacSe (b :: tl)).map (fun i => i + 1)

/-- The struct `TelnetOptionPerspective`. -/
structure TelnetOptionPerspective where
  enabled : Bool := false
  negotiating : Bool := false
  answered : Bool := false
deriving DecidableEq

/-- The enum `GameMessageType`. -/
inductive GameMessageType where
  | TextCommand
  | JSON
deriving DecidableEq

/-- The struct `GameMessage`. The member `gameMessageType` has no initializer, and
`handleAppData` never assigns it: `none` stands for that indeterminate value. -/
structure GameMessage where
  gameMessageType : Option GameMessageType
  data : List Byte
deriving DecidableEq

/-- The enum `ColorType`. -/
inductive ColorType where
  | NoColor
  | StandardColor
  | XtermColor
  | TrueColor
deriving DecidableEq

/-- The underlying `uint8_t` value of a `ColorType`. -/
def ColorType.toNat : ColorType → Nat
  | ColorType.NoColor => 0
  | ColorType.StandardColor => 1
  | ColorType.XtermColor => 2
  | ColorType.TrueColor => 3

/-- The call `std::max(a, b)` on two `ColorType` values: `(a < b) ? b : a`. -/
def ColorType.max (a b : ColorType) : ColorType :=
  if a.toNat < b.toNat then b else a

/-- The bytes of a string literal. -/
def bytes (s : String) : List Byte := s.toList.map Char.toNat

/-- The struct `TelnetCapabilities`, with its default member initializers. -/
structure TelnetCapabilities where
  colorType : ColorType := ColorType.NoColor
  clientName : List Byte := bytes "UNKNOWN"
  clientVersion : List Byte := bytes "UNKNOWN"
  hostIp : List Byte := bytes "UNKNOWN"
  hostName : List Byte := bytes "UNKNOWN"
  width : Int := 78
  height : Int := 24
  utf8 : Bool := false
  screen_reader : Bool := false
  proxy : Bool := false
  osc_color_palette : Bool := false
  vt100 : Bool := false
  mouse_tracking : Bool := false
  naws : Bool := false
  msdp : Bool := false
  gmcp : Bool := false
  mccp2 : Bool := false
  mccp2_active : Bool := false
  mccp3 : Bool := false
  mccp3_active : Bool := false
  telopt_eor : Bool := false
  mtts : Bool := false
  ttype : Bool := false
  mnes : Bool := false
  suppress_ga : Bool := false
  mslp : Bool := false
  force_endline : Bool := false
  linemode : Bool := false
  mssp : Bool := false
  mxp : Bool := false
  mxp_active : Bool := false
deriving DecidableEq

/-- The class `TelnetOption` without its `conn` back pointer. The counter `mtts_count` is an
`int` that only ever grows by one per handled response; it is kept unbounded. -/
structure TelnetOption where
  «local» : TelnetOptionPerspective := {}
  remote : TelnetOptionPerspective := {}
  code : Byte
  mtts_count : Nat := 0
deriving DecidableEq

/-- The class `MudTelnet`. The record that `capabilities` points to is part of the state, and
`handlers` (an `unordered_map`) is an association list with distinct keys. -/
structure MudTelnet where
  appDataBuffer : List Byte
  pendingGameMessages : List GameMessage
  outDataBuffer : List Byte
  capabilities : TelnetCapabilities
  mttsLast : List Byte
  handlers : List (Byte × TelnetOption)
deriving DecidableEq

/-- The call `handlers.at(k)`, with `none` where `handlers.count(k)` is zero. -/
def handlerAt (hs : List (Byte × TelnetOption)) (k : Byte) : Option TelnetOption :=
  hs.lookup k

/-- Writing a handler back through the reference that `handlers.at(k)` gave. -/
def handlerStore (hs : List (Byte × TelnetOption)) (k : Byte) (h : TelnetOption) :
    List (Byte × TelnetOption) :=
  hs.map (fun e => if e.1 = k then (e.1, h) else e)

/-- The constructor `TelnetOption::TelnetOption`. -/
def TelnetOption.new (code : Byte) : TelnetOption := { code := code }

/-- The method `TelnetOption::opCode`. -/
def TelnetOption.opCode (h : TelnetOption) : Byte := h.code

/-- The method `TelnetOption::startDo`. -/
def TelnetOption.startDo (h : TelnetOption) : Bool :=
  if h.code = codes.NAWS ∨ h.code = codes.MTTS then true else false

/-- The method `TelnetOption::supportLocal`. -/
def TelnetOption.supportLocal (h : TelnetOption) : Bool :=
  if h.code = codes.MSSP ∨ h.code = codes.SGA ∨ h.code = codes.MSDP ∨ h.code = codes.GMCP
  then true else false

/-- The method `TelnetOption::supportRemote`. -/
def TelnetOption.supportRemote (h : TelnetOption) : Bool :=
  if h.code = codes.NAWS ∨ h.code = codes.MTTS then true else false

/-- The method `TelnetOption::startWill`. -/
def TelnetOption.startWill (h : TelnetOption) : Bool :=
  if h.code = codes.MSSP ∨ h.code = codes.SGA ∨ h.code = codes.MSDP ∨ h.code = codes.GMCP
  then true else false

/-- The method `MudTelnet::sendMessage`. -/
def MudTelnet.sendMessage (conn : MudTelnet) (data : TelnetMessage) : MudTelnet :=
  { conn with outDataBuffer := conn.outDataBuffer ++ data.toString }

/-- The method `MudTelnet::sendSub`. -/
def MudTelnet.sendSub (conn : MudTelnet) (op : Byte) (data : List Byte) : MudTelnet :=
  conn.sendMessage { msg_type := TelnetMsgType.Subnegotiation, data := data, codes := (op, 0) }

/-- The method `MudTelnet::sendNegotiate`. -/
def MudTelnet.sendNegotiate (conn : MudTelnet) (command option : Byte) : MudTelnet :=
  conn.sendMessage
    { msg_type := TelnetMsgType.Negotiation, data := [], codes := (command, option) }

/-- The method `TelnetOption::enableLocal`, an empty hook. -/
def TelnetOption.enableLocal (_h : TelnetOption) (conn : MudTelnet) : MudTelnet := conn

/-- The method `TelnetOption::enableRemote`. -/
def TelnetOption.enableRemote (h : TelnetOption) (conn : MudTelnet) : MudTelnet :=
  if h.code = codes.MTTS then
    MudTelnet.sendSub { conn with capabilities := { conn.capabilities with mtts := true } }
      h.code [1]
  else conn

/-- The method `TelnetOption::disableLocal`, an empty hook. -/
def TelnetOption.disableLocal (_h : TelnetOption) (conn : MudTelnet) : MudTelnet := conn

/-- The method `TelnetOption::disableRemote`, an empty hook. -/
def TelnetOption.disableRemote (_h : TelnetOption) (conn : MudTelnet) : MudTelnet := conn

/-- The method `TelnetOption::receiveNegotiate`: the session and the handler afterwards. -/
def TelnetOption.receiveNegotiate (h : TelnetOption) (conn : MudTelnet) (command : Byte) :
    MudTelnet × TelnetOption :=
  if command = codes.WILL then
    if h.supportRemote then
      if h.remote.negotiating then
        let h1 := { h with remote := { h.remote with negotiating := false } }
        if !h1.remote.enabled then
          let h2 := { h1 with remote := { h1.remote with enabled := true } }
          let conn1 := h2.enableRemote conn
          (conn1, { h2 with remote := { h2.remote with answered := true } })
        else (conn, h1)
      else
        let h1 := { h with remote := { h.remote with enabled := true } }
        let conn1 := conn.sendNegotiate codes.DO h1.opCode
        let conn2 := h1.enableRemote conn1
        (conn2, { h1 with remote := { h1.remote with answered := true } })
    else (conn.sendNegotiate codes.DONT h.opCode, h)
  else if command = codes.DO then
    if h.supportLocal then
      if h.local.negotiating then
        let h1 := { h with «local» := { h.local with negotiating := false } }
        if !h1.local.enabled then
          let h2 := { h1 with «local» := { h1.local with enabled := true } }
          let conn1 := h2.enableLocal conn
          (conn1, { h2 with «local» := { h2.local with answered := true } })
        else (conn, h1)
      else
        let h1 := { h with «local» := { h.local with enabled := true } }
        let conn1 := conn.sendNegotiate codes.WILL h1.opCode
        let conn2 := h1.enableLocal conn1
        (conn2, { h1 with «local» := { h1.local with answered := true } })
    else (conn.sendNegotiate codes.WONT h.opCode, h)
  else if command = codes.WONT then
    let conn1 := if h.remote.enabled then h.disableRemote conn else conn
    if h.remote.negotiating then
      (conn1, { h with remote := { h.remote with negotiating := false, answered := true } })
    else (conn1, h)
  else if command = codes.DONT then
    let conn1 := if h.local.enabled then h.disableLocal conn else conn
    if h.local.negotiating then
      (conn1, { h with «local» := { h.local with negotiating := false, answered := true } })
    else (conn1, h)
  else (conn, h)

/-- The call `std::toupper` in the classic locale, which `to_upper_copy` applies to each
byte. -/
def to_upper (c : Byte) : Byte := if 97 ≤ c ∧ c ≤ 122 then c - 32 else c

/-- The call `boost::algorithm::to_upper_copy`. -/
def to_upper_copy (s : List Byte) : List Byte := s.map to_upper

/-- The predicate `boost::algorithm::is_space()` in the classic locale: space, tab, line
feed, vertical tab, form feed, carriage return. -/
def is_space (c : Byte) : Bool := if c = 32 ∨ (9 ≤ c ∧ c ≤ 13) then true else false

/-- The call `boost::algorithm::split` with the default `token_compress_off`: one token
between each two separators, empty tokens included, and one token for an empty input. -/
def split (p : Byte → Bool) : List Byte → List (List Byte)
  | [] => [[]]
  | c :: cs =>
    if p c then [] :: split p cs
    else
      match split p cs with
      | [] => [[c]]
      | t :: ts => (c :: t) :: ts

/-- The digits that `atoi` reads, accumulated in base ten; reading stops at the first byte that
is not a digit. -/
def atoiDigits : List Byte → Nat → Nat
  | [], acc => acc
  | c :: cs, acc => if 48 ≤ c ∧ c ≤ 57 then atoiDigits cs (acc * 10 + (c - 48)) else acc

/-- The call `atoi`: leading white space, an optional sign, then digits. The value is the
mathematical one; C leaves the result undefined when it does not fit an `int`. -/
def atoi (s : List Byte) : Int :=
  match s.dropWhile is_space with
  | 43 :: r => (atoiDigits r 0 : Int)
  | 45 :: r => - (atoiDigits r 0 : Int)
  | r => (atoiDigits r 0 : Int)

/-- The test `v & mask` on an `int`, through its 32-bit two-complement pattern. -/
def intAnd (v : Int) (mask : Nat) : Bool :=
  if Nat.land (v.emod 4294967296).toNat mask = 0 then false else true

/-- The method `TelnetOption::subMTTS_0`. -/
def TelnetOption.subMTTS_0 (_h : TelnetOption) (conn : MudTelnet) (mtts : List Byte) :
    MudTelnet :=
  let namecheck := split is_space (to_upper_copy mtts)
  let caps := conn.capabilities
  let caps1 :=
    match namecheck with
    | [n0, n1] => { caps with clientVersion := n1, clientName := n0 }
    | [n0] => { caps with clientName := n0 }
    | _ => caps
  let name := caps1.clientName
  let caps2 :=
    if name = bytes "ATLANTIS" ∨ name = bytes "CMUD" ∨ name = bytes "KILDCLIENT" ∨
        name = bytes "MUDLET" ∨ name = bytes "PUTTY" ∨ name = bytes "BEIP" ∨
        name = bytes "POTATO" ∨ name = bytes "TINYFUGUE" ∨ name = bytes "MUSHCLIENT" then
      { caps1 with colorType := ColorType.max caps1.colorType ColorType.XtermColor }
    else caps1
  { conn with capabilities :=
      { caps2 with colorType := ColorType.max caps2.colorType ColorType.StandardColor } }

/-- The `case 1` arm of the switch in `TelnetOption::subMTTS_1`, on the first token. -/
def subMTTS_1_case1 (caps : TelnetCapabilities) (s0 : List Byte) : TelnetCapabilities :=
  if s0 = bytes "ANSI" then
    { caps with colorType := ColorType.max caps.colorType ColorType.StandardColor }
  else if s0 = bytes "VT100" then
    { caps with colorType := ColorType.max caps.colorType ColorType.StandardColor,
                vt100 := true }
  else if s0 = bytes "XTERM" then
    { caps with colorType := ColorType.max caps.colorType ColorType.XtermColor,
                vt100 := true }
  else caps

/-- The method `TelnetOption::subMTTS_1`; the `case 2` arm falls through to `case 1`. -/
def TelnetOption.subMTTS_1 (_h : TelnetOption) (conn : MudTelnet) (mtts : List Byte) :
    MudTelnet :=
  let splitcheck := split (fun c => if c = 45 then true else false) (to_upper_copy mtts)
  let caps := conn.capabilities
  match splitcheck with
  | [s0, s1] =>
    let caps1 :=
      if s1 = bytes "256COLOR" then
        { caps with colorType := ColorType.max caps.colorType ColorType.XtermColor }
      else if s1 = bytes "TRUECOLOR" then
        { caps with colorType := ColorType.max caps.colorType ColorType.TrueColor }
      else caps
    { conn with capabilities := subMTTS_1_case1 caps1 s0 }
  | [s0] => { conn with capabilities := subMTTS_1_case1 caps s0 }
  | _ => conn

/-- The method `TelnetOption::subMTTS_2`. -/
def TelnetOption.subMTTS_2 (_h : TelnetOption) (conn : MudTelnet) (mtts : List Byte) :
    MudTelnet :=
  let splitcheck := split is_space (to_upper_copy mtts)
  match splitcheck with
  | s0 :: s1 :: _ =>
    if s0 ≠ bytes "MTTS" then conn
    else
      let v := atoi s1
      let d := conn.capabilities
      let d := if intAnd v 1 then
        { d with colorType := ColorType.max d.colorType ColorType.StandardColor } else d
      let d := if intAnd v 2 then { d with vt100 := true } else d
      let d := if intAnd v 4 then { d with utf8 := true } else d
      let d := if intAnd v 8 then
        { d with colorType := ColorType.max d.colorType ColorType.XtermColor } else d
      let d := if intAnd v 16 then { d with mouse_tracking := true } else d
      let d := if intAnd v 32 then { d with osc_color_palette := true } else d
      let d := if intAnd v 64 then { d with screen_reader := true } else d
      let d := if intAnd v 128 then { d with proxy := true } else d
      let d := if intAnd v 256 then
        { d with colorType := ColorType.max d.colorType ColorType.TrueColor } else d
      let d := if intAnd v 512 then { d with mnes := true } else d
      let d := if intAnd v 1024 then { d with mslp := true } else d
      { conn with capabilities := d }
  | _ => conn

/-- The method `TelnetOption::subMTTS`: the session and the handler afterwards. -/
def TelnetOption.subMTTS (h : TelnetOption) (conn : MudTelnet) (msg : TelnetMessage) :
    MudTelnet × TelnetOption :=
  match msg.data with
  | [] => (conn, h)
  | d0 :: rest =>
    if d0 ≠ 0 then (conn, h)
    else if msg.data.length < 2 then (conn, h)
    else
      let mtts := to_upper_copy rest
      if mtts = conn.mttsLast then (conn, h)
      else
        let conn1 :=
          if h.mtts_count = 0 then h.subMTTS_0 conn mtts
          else if h.mtts_count = 1 then h.subMTTS_1 conn mtts
          else if h.mtts_count = 2 then h.subMTTS_2 conn mtts
          else conn
        let h1 := { h with mtts_count := h.mtts_count + 1 }
        let conn2 := { conn1 with mttsLast := mtts }
        if h1.mtts_count ≥ 2 then (conn2, h1)
        else (conn2.sendSub h1.code [1], h1)

/-- The method `TelnetOption::subNegotiate`. -/
def TelnetOption.subNegotiate (h : TelnetOption) (conn : MudTelnet) (msg : TelnetMessage) :
    MudTelnet × TelnetOption :=
  if h.code = codes.MTTS then h.subMTTS conn msg else (conn, h)

/-- One pass of the constructor loop of `MudTelnet::MudTelnet` (lines 450-463), for one
option code. -/
def MudTelnet.constructStep (conn : MudTelnet) (code : Byte) : MudTelnet :=
  match handlerAt conn.handlers code with
  | some _ => conn
  | none =>
    let h := TelnetOption.new code
    let conn0 := { conn with handlers := conn.handlers ++ [(code, h)] }
    let r1 : MudTelnet × TelnetOption :=
      if h.startWill then
        (conn0.sendNegotiate codes.WILL code,
          { h with «local» := { h.local with negotiating := true } })
      else (conn0, h)
    let r2 : MudTelnet × TelnetOption :=
      if r1.2.startDo then
        (r1.1.sendNegotiate codes.DO code,
          { r1.2 with remote := { r1.2.remote with negotiating := true } })
      else r1
    { r2.1 with handlers := handlerStore r2.1.handlers code r2.2 }

/-- The constructor `MudTelnet::MudTelnet`, on the capabilities record it is given. -/
def MudTelnet.construct (cap : TelnetCapabilities) : MudTelnet :=
  [codes.MSSP, codes.SGA, codes.MSDP, codes.GMCP, codes.NAWS, codes.MTTS].foldl
    MudTelnet.constructStep
    { appDataBuffer := [], pendingGameMessages := [], outDataBuffer := [],
      capabilities := cap, mttsLast := [], handlers := [] }

/-- One pass of the loop of `MudTelnet::handleAppData`, for one byte. -/
def MudTelnet.handleAppDataStep (conn : MudTelnet) (c : Byte) : MudTelnet :=
  if c = codes.LF then
    { conn with
      pendingGameMessages :=
        conn.pendingGameMessages ++ [{ gameMessageType := none, data := conn.appDataBuffer }],
      appDataBuffer := [] }
  else if c = codes.CR then conn
  else { conn with appDataBuffer := conn.appDataBuffer ++ [c] }

/-- The method `MudTelnet::handleAppData`. -/
def MudTelnet.handleAppData (conn : MudTelnet) (msg : TelnetMessage) : MudTelnet :=
  msg.data.foldl MudTelnet.handleAppDataStep conn

/-- The method `MudTelnet::handleCommand`, which is empty. -/
def MudTelnet.handleCommand (conn : MudTelnet) (_msg : TelnetMessage) : MudTelnet := conn

/-- The method `MudTelnet::handleNegotiate`. -/
def MudTelnet.handleNegotiate (conn : MudTelnet) (msg : TelnetMessage) : MudTelnet :=
  match handlerAt conn.handlers msg.codes.2 with
  | none =>
    if msg.codes.1 = codes.WILL then conn.sendNegotiate codes.DONT msg.codes.2
    else if msg.codes.1 = codes.DO then conn.sendNegotiate codes.WONT msg.codes.2
    else conn
  | some hand =>
    let r := hand.receiveNegotiate conn msg.codes.1
    { r.1 with handlers := handlerStore r.1.handlers msg.codes.2 r.2 }

/-- The method `MudTelnet::handleSubnegotiate`. -/
def MudTelnet.handleSubnegotiate (conn : MudTelnet) (msg : TelnetMessage) : MudTelnet :=
  match handlerAt conn.handlers msg.codes.1 with
  | none => conn
  | some hand =>
    let r := hand.subNegotiate conn msg
    { r.1 with handlers := handlerStore r.1.handlers msg.codes.1 r.2 }

/-- The method `MudTelnet::handleMessage`. -/
def MudTelnet.handleMessage (conn : MudTelnet) (msg : TelnetMessage) : MudTelnet :=
  match msg.msg_type with
  | TelnetMsgType.AppData => conn.handleAppData msg
  | TelnetMsgType.Command => conn.handleCommand msg
  | TelnetMsgType.Negotiation => conn.handleNegotiate msg
  | TelnetMsgType.Subnegotiation => conn.handleSubnegotiate msg

/-- A default-initialized `TelnetMessage`: `data` is empty and `codes` is `{0, 0}`; the member
`msg_type` has no initializer, so it is whatever `t` it happens to be. -/
def TelnetMessage.fresh (t : TelnetMsgType) : TelnetMessage :=
  { msg_type := t, data := [], codes := (0, 0) }

/-- The bytes of a list that come before its first adjacent pair `IAC SE`; the whole list
when it has no such pair. -/
def rawPayload : List Byte → List Byte
  | [] => []
  | [a] => [a]
  | a :: b :: tl =>
    if a = codes.IAC ∧ b = codes.SE then [] else a :: rawPayload (b :: tl)

/-- A wire payload made of plain bytes other than `IAC` and of escape pairs `IAC b` with
`b ≠ SE`, read from the left. -/
def wellEscaped : List Byte → Bool
  | [] => true
  | [a] => if a = codes.IAC then false else true
  | a :: b :: tl =>
    if a = codes.IAC then (if b = codes.SE then false else wellEscaped tl)
    else wellEscaped (b :: tl)

/-- The invariant of the `handlers` map: the keys are distinct, as in any `unordered_map`, and
each handler sits under its own option code, as the constructor puts it. -/
def MudTelnet.WellFormed (conn : MudTelnet) : Prop :=
  (conn.handlers.map Prod.fst).Nodup ∧ ∀ e ∈ conn.handlers, e.2.code = e.1

/-- A parsed `Negotiation` message `IAC command option`. -/
def negotiation (command option : Byte) (data : List Byte) : TelnetMessage :=
  { msg_type := TelnetMsgType.Negotiation, data := data, codes := (command, option) }

/-- The method `MudTelnet::sendText`. -/
def MudTelnet.sendText (conn : MudTelnet) (txt : List Byte) : MudTelnet :=
  conn.sendMessage { msg_type := TelnetMsgType.AppData, data := txt, codes := (0, 0) }

/-- The method `MudTelnet::sendGMCP`. -/
def MudTelnet.sendGMCP (conn : MudTelnet) (txt : List Byte) : MudTelnet :=
  conn.sendSub codes.GMCP txt

/-- The static `std::string prompt(prompt_codes)` of line 486. The array `prompt_codes` holds
the two bytes `IAC GA` and no terminating NUL, so the constructor reads on past the array, up
to the first NUL byte it meets; `past` stands for the bytes it picks up there, which the
source does not determine. -/
def prompt (past : List Byte) : List Byte := [codes.IAC, codes.GA] ++ past

/-- The call `boost::algorithm::ends_with`. -/
def ends_with (input test : List Byte) : Bool := if test <:+ input then true else false

/-- The method `MudTelnet::sendPrompt`, on the bytes `past` that `prompt` picked up. -/
def MudTelnet.sendPrompt (conn : MudTelnet) (past : List Byte) (txt : List Byte) : MudTelnet :=
  if ends_with txt (prompt past) then conn.sendText txt
  else conn.sendText (txt ++ prompt past)

/-- The method `MudTelnet::sendLine`. -/
def MudTelnet.sendLine (conn : MudTelnet) (txt : List Byte) : MudTelnet :=
  if ends_with txt [codes.CR, codes.LF] then conn.sendText txt
  else conn.sendText (txt ++ [codes.CR, codes.LF])

/-- The method `MudTelnet::sendMSSP`. -/
def MudTelnet.sendMSSP (conn : MudTelnet) (data : List (List Byte × List Byte)) : MudTelnet :=
  conn.sendSub codes.MSSP
    (List.intercalate [codes.CR, codes.LF] (data.map (fun p => p.1 ++ p.2)))

/-- A parsed `Subnegotiation` message `IAC SB option data IAC SE`. -/
def subnegotiation (option : Byte) (data : List Byte) : TelnetMessage :=
  { msg_type := TelnetMsgType.Subnegotiation, data := data, codes := (option, 0) }

/-- The MTTS stage counter of a session: the member `mtts_count` of the MTTS handler. -/
def MudTelnet.mttsCount (conn : MudTelnet) : Nat :=
  match handlerAt conn.handlers codes.MTTS with
  | some h => h.mtts_count
  | none => 0

/-- The decimal text of a natural number: its digits in base ten, most significant first,
without leading zeros, and `"0"` for zero. -/
def decimal (v : Nat) : List Byte :=
  if v = 0 then [48] else (Nat.digits 10 v).reverse.map (fun d => d + 48)

/-- The order in which capabilities grow: the color depth does not go down, and no boolean
flag goes from true to false. -/
def TelnetCapabilities.le (a b : TelnetCapabilities) : Prop :=
  a.colorType.toNat ≤ b.colorType.toNat
  ∧ (a.utf8 = true → b.utf8 = true)
  ∧ (a.screen_reader = true → b.screen_reader = true)
  ∧ (a.proxy = true → b.proxy = true)
  ∧ (a.osc_color_palette = true → b.osc_color_palette = true)
  ∧ (a.vt100 = true → b.vt100 = true)
  ∧ (a.mouse_tracking = true → b.mouse_tracking = true)
  ∧ (a.naws = true → b.naws = true)
  ∧ (a.msdp = true → b.msdp = true)
  ∧ (a.gmcp = true → b.gmcp = true)
  ∧ (a.mccp2 = true → b.mccp2 = true)
  ∧ (a.mccp2_active = true → b.mccp2_active = true)
  ∧ (a.mccp3 = true → b.mccp3 = true)
  ∧ (a.mccp3_active = true → b.mccp3_active = true)
  ∧ (a.telopt_eor = true → b.telopt_eor = true)
  ∧ (a.mtts = true → b.mtts = true)
  ∧ (a.ttype = true → b.ttype = true)
  ∧ (a.mnes = true → b.mnes = true)
  ∧ (a.suppress_ga = true → b.suppress_ga = true)
  ∧ (a.mslp = true → b.mslp = true)
  ∧ (a.force_endline = true → b.force_endline = true)
  ∧ (a.linemode = true → b.linemode = true)
  ∧ (a.mssp = true → b.mssp = true)
  ∧ (a.mxp = true → b.mxp = true)
  ∧ (a.mxp_active = true → b.mxp_active = true)

/-- Raising a color depth to at least `level` when `b` holds, as the decoders do with
`std::max`. -/
def ColorType.raise (b : Bool) (level c : ColorType) : ColorType :=
  if b then ColorType.max c level else c

/-- One guarded assignment of the decoders: `if (b) { d = f(d); }`. -/
def updateIf (b : Bool) (f : TelnetCapabilities → TelnetCapabilities)
    (d : TelnetCapabilities) : TelnetCapabilities :=
  if b then f d else d

/-- A session whose MTTS handler has handled at least one response. -/
def MudTelnet.MttsStarted (conn : MudTelnet) : Prop :=
  ∃ h, handlerAt conn.handlers codes.MTTS = some h ∧ h.code = codes.MTTS ∧ 1 ≤ h.mtts_count

/-- A session with an MTTS handler in which, as long as no response has been handled,
`mttsLast` is still empty. -/
def MudTelnet.MttsFresh (conn : MudTelnet) : Prop :=
  ∃ h, handlerAt conn.handlers codes.MTTS = some h ∧ h.code = codes.MTTS
    ∧ (h.mtts_count = 0 → conn.mttsLast = [])

/-! ## The frame parser -/

/-- With `escaped` set, one pass of the loop clears the flag and steps over the byte. -/
theorem parseSubLoop_true (buf : List Byte) (b : Nat) (h : b < buf.length) :
    parseSubLoop buf b true = parseSubLoop buf (b + 1) false := by
  rw [parseSubLoop]; simp [h]

/-- From any position, the loop finds the first adjacent `IAC SE` of what is left. -/
theorem parseSubLoop_append (pre suf : List Byte) :
    parseSubLoop (pre ++ suf) pre.length false
      = (firstIacSe suf).map (fun i => i + pre.length) := by
  induction suf generalizing pre with
  | nil => rw [parseSubLoop]; simp [firstIacSe]
  | cons x tl ih =>
    have ih2 := ih (pre ++ [x])
    simp only [List.append_assoc, List.singleton_append, List.length_append,
      List.length_singleton] at ih2
    have hlt : pre.length < (pre ++ x :: tl).length := by simp
    have hx : (pre ++ x :: tl)[pre.length] = x := by
      rw [List.getElem_append_right (le_refl _)]; simp
    rw [parseSubLoop]
    simp only [hlt, dite_true, hx, Bool.false_eq_true, if_false]
    by_cases hxi : x = codes.IAC
    · simp only [hxi, if_true]
      cases tl with
      | nil =>
        have : ¬ (pre.length + 1 < (pre ++ [codes.IAC]).length) := by simp
        simp only [this, dite_false]
        rw [parseSubLoop_true _ _ (by simp)]
        rw [parseSubLoop]; simp [firstIacSe]
      | cons y tl2 =>
        have h1 : pre.length + 1 < (pre ++ codes.IAC :: y :: tl2).length := by simp
        have hy : (pre ++ codes.IAC :: y :: tl2)[pre.length + 1] = y := by
          rw [List.getElem_append_right (by omega)]; simp
        simp only [h1, dite_true, hy]
        by_cases hys : y = codes.SE
        · simp [hys, firstIacSe]
        · simp only [hys, if_false]
          rw [parseSubLoop_true _ _ (by simp)]
          rw [hxi] at ih2
          rw [ih2]
          simp only [firstIacSe, hys, and_false, if_false, Option.map_map]
          congr 1; funext i; simp only [Function.comp]; omega
    · simp only [hxi, if_false]
      rw [ih2]
      cases tl with
      | nil => simp [firstIacSe]
      | cons y tl2 =>
        simp only [firstIacSe, hxi, false_and, if_false, Option.map_map]
        congr 1; funext i; simp only [Function.comp]; omega

/-- The loop started at the fourth byte finds the first adjacent `IAC SE` of the body. -/
theorem parseSubLoop_body (a b c : Byte) (body : List Byte) :
    parseSubLoop (a :: b :: c :: body) 3 false
      = (firstIacSe body).map (fun i => i + 3) := by
  have h := parseSubLoop_append [a, b, c] body
  simpa using h

/-- The subnegotiation arm of `parse`, on the first adjacent `IAC SE` of the body. -/
theorem parse_SB (m : TelnetMessage) (op : Byte) (body : List Byte) :
    m.parse (codes.IAC :: codes.SB :: op :: body)
      = if body.length < 2 then some (0, m)
        else match firstIacSe body with
          | some i =>
            some (5 + (m.data ++ body.take i).length,
              { msg_type := TelnetMsgType.Subnegotiation, data := m.data ++ body.take i,
                codes := (op, m.codes.2) })
          | none => some (0, m) := by
  simp only [TelnetMessage.parse, parseSubLoop_body]
  have hl : ((codes.IAC :: codes.SB :: op :: body).length < 5) ↔ body.length < 2 := by
    simp only [List.length_cons]; omega
  simp only [hl]
  by_cases h2 : body.length < 2
  · simp [h2]
  · simp only [h2, if_false]
    cases firstIacSe body <;> simp

/-- No adjacent `IAC SE` is found exactly when the pair is not a contiguous part of the list. -/
theorem firstIacSe_eq_none_iff (l : List Byte) :
    firstIacSe l = none ↔ ¬ [codes.IAC, codes.SE] <:+: l := by
  induction l using firstIacSe.induct with
  | case1 => simp [firstIacSe]
  | case2 a =>
    simp only [firstIacSe, true_iff]
    intro h
    have := h.length_le
    simp at this
  | case3 a b tl h =>
    obtain ⟨ha, hb⟩ := h
    subst ha; subst hb
    simp only [firstIacSe, and_self, if_true]
    simp only [false_iff, not_not, reduceCtorEq]
    exact ⟨[], tl, by simp⟩
  | case4 a b tl h ih =>
    simp only [firstIacSe, h, if_false, Option.map_eq_none', ih]
    rw [List.infix_cons_iff (a := a)]
    have hp : ¬ [codes.IAC, codes.SE] <+: a :: b :: tl := by
      intro hpre
      rw [List.cons_prefix_cons, List.cons_prefix_cons] at hpre
      exact h ⟨hpre.1.symm, hpre.2.1.symm⟩
    simp [hp]

/-- What `firstIacSe` finds in a prefix, it finds in the whole list. -/
theorem firstIacSe_append_none (q r : List Byte) (h : firstIacSe (q ++ r) = none) :
    firstIacSe q = none := by
  rw [firstIacSe_eq_none_iff] at h ⊢
  intro hq
  exact h (hq.trans (List.prefix_append q r).isInfix)

/-- A list without the pair `IAC SE` still has none after one more `IAC`. -/
theorem firstIacSe_concat_IAC (p : List Byte) (h : firstIacSe p = none) :
    firstIacSe (p ++ [codes.IAC]) = none := by
  induction p using firstIacSe.induct with
  | case1 => simp [firstIacSe]
  | case2 a => simp [firstIacSe]
  | case3 a b tl hab => simp [firstIacSe, hab] at h
  | case4 a b tl hab ih =>
    simp only [firstIacSe, hab, if_false, Option.map_eq_none'] at h
    have := ih h
    simp only [List.cons_append] at this ⊢
    simp only [firstIacSe, hab, if_false, Option.map_eq_none']
    exact this

/-- The terminator `IAC SE` appended to a wire payload is found right after the raw payload. -/
theorem firstIacSe_terminated (l : List Byte) :
    firstIacSe (l ++ [codes.IAC, codes.SE]) = some (rawPayload l).length := by
  induction l using rawPayload.induct with
  | case1 => simp [firstIacSe, rawPayload]
  | case2 a => simp [firstIacSe, rawPayload]
  | case3 a b tl hab => simp [firstIacSe, rawPayload, hab]
  | case4 a b tl hab ih =>
    simp only [List.cons_append] at ih ⊢
    simp only [firstIacSe, rawPayload, hab, if_false, ih, Option.map_some', List.length_cons]

/-- The raw payload is an initial part of the wire payload. -/
theorem rawPayload_take (l r : List Byte) :
    (l ++ r).take (rawPayload l).length = rawPayload l := by
  induction l using rawPayload.induct with
  | case1 => simp [rawPayload]
  | case2 a => simp [rawPayload]
  | case3 a b tl hab => simp [rawPayload, hab]
  | case4 a b tl hab ih =>
    simp only [List.cons_append] at ih ⊢
    simp only [rawPayload, hab, if_false, List.length_cons, List.take_succ_cons, ih]

/-- A wire payload without the pair `IAC SE` is its own raw payload. -/
theorem rawPayload_eq_self (l : List Byte) (h : firstIacSe l = none) : rawPayload l = l := by
  induction l using rawPayload.induct with
  | case1 => simp [rawPayload]
  | case2 a => simp [rawPayload]
  | case3 a b tl hab => simp [firstIacSe, hab] at h
  | case4 a b tl hab ih =>
    simp only [firstIacSe, hab, if_false, Option.map_eq_none'] at h
    simp only [rawPayload, hab, if_false, ih h]

/-- Where `firstIacSe` finds the pair, the list is the bytes before it, the pair, and a rest. -/
theorem firstIacSe_some (l : List Byte) (i : Nat) (h : firstIacSe l = some i) :
    ∃ r, l = l.take i ++ codes.IAC :: codes.SE :: r ∧ (l.take i).length = i := by
  induction l using firstIacSe.induct generalizing i with
  | case1 => simp [firstIacSe] at h
  | case2 a => simp [firstIacSe] at h
  | case3 a b tl hab =>
    simp only [firstIacSe, hab, and_self, if_true, Option.some.injEq] at h
    subst h
    exact ⟨tl, by simp [hab.1, hab.2], by simp⟩
  | case4 a b tl hab ih =>
    simp only [firstIacSe, hab, if_false, Option.map_eq_some'] at h
    obtain ⟨j, hj, hji⟩ := h
    subst hji
    obtain ⟨r, hr, hlen⟩ := ih j hj
    refine ⟨r, ?_, ?_⟩
    · simp only [List.take_succ_cons, List.cons_append]
      rw [← hr]
    · simp only [List.take_succ_cons, List.length_cons, hlen]

/-- The command arm of `parse`, lines 84-88: with a third byte in the buffer, `codes[0]` is
that third byte; without one, the read of line 87 is past the end of the buffer. -/
theorem parse_command (m : TelnetMessage) (c : Byte) (rest : List Byte)
    (hc : c ≠ codes.WILL ∧ c ≠ codes.WONT ∧ c ≠ codes.DO ∧ c ≠ codes.DONT ∧ c ≠ codes.SB) :
    m.parse (codes.IAC :: c :: rest)
      = match rest with
        | [] => none
        | x :: _ =>
          some (2, { m with msg_type := TelnetMsgType.Command, codes := (x, m.codes.2) }) := by
  obtain ⟨h1, h2, h3, h4, h5⟩ := hc
  simp only [TelnetMessage.parse, if_true, h1, h2, h3, h4, h5, or_self, if_false]

/-- C1 (the code at the failing input): on the buffer `IAC NOP 'A'` parse returns 2 and kind
Command, and `codes[0]` is the third byte `'A'` (65), not the command byte `NOP` (241) that
follows `IAC`. -/
theorem parse_command_IAC_NOP_A :
    (TelnetMessage.fresh TelnetMsgType.AppData).parse [codes.IAC, codes.NOP, 65]
        = some (2, { msg_type := TelnetMsgType.Command, data := [], codes := (65, 0) })
      ∧ (65 : Byte) ≠ codes.NOP := by
  decide

/-- C2 (counterexample): the buffer `IAC SB GMCP 0xFF 0xFF 'x' IAC SE` parses to option GMCP
with the three-byte payload `0xFF 0xFF 'x'`, not the two-byte un-escaped `0xFF 'x'`. -/
theorem parse_subnegotiation_not_unescaped :
    (TelnetMessage.fresh TelnetMsgType.AppData).parse
        [codes.IAC, codes.SB, codes.GMCP, 255, 255, 120, codes.IAC, codes.SE]
        = some (8, { msg_type := TelnetMsgType.Subnegotiation, data := [255, 255, 120],
                     codes := (codes.GMCP, 0) })
      ∧ ([255, 255, 120] : List Byte) ≠ [255, 120] := by
  refine ⟨?_, by decide⟩
  rw [parse_SB]
  decide

/-- Whatever the wire payload, parse into a fresh message takes the first adjacent `IAC SE`
from the fourth byte on as the terminator and copies the bytes before it as they are. -/
theorem parse_subnegotiation_first_pair (t : TelnetMsgType) (op : Byte) (wire : List Byte) :
    (TelnetMessage.fresh t).parse
        (codes.IAC :: codes.SB :: op :: (wire ++ [codes.IAC, codes.SE]))
        = some (5 + (rawPayload wire).length,
            { msg_type := TelnetMsgType.Subnegotiation, data := rawPayload wire,
              codes := (op, 0) })
      ∧ rawPayload wire <+: wire := by
  refine ⟨?_, ?_⟩
  · rw [parse_SB]
    have hlen : ¬ (wire ++ [codes.IAC, codes.SE]).length < 2 := by simp
    simp only [hlen, if_false, firstIacSe_terminated, rawPayload_take, TelnetMessage.fresh,
      List.nil_append]
  · have h := rawPayload_take wire []
    rw [List.append_nil] at h
    rw [← h]
    exact List.take_prefix _ _

/-- C2 (amended): for every buffer `IAC SB op wire IAC SE` whose wire payload is made of plain
bytes other than `IAC` and escape pairs `IAC b` with `b ≠ SE`, and holds no adjacent
`IAC SE`, parse into a fresh message consumes the whole buffer and yields a Subnegotiation
with `codes[0] = op` whose payload is the wire payload as it is, not un-escaped: every escape
pair contributes both of its bytes. -/
theorem parse_subnegotiation_raw (t : TelnetMsgType) (op : Byte) (wire : List Byte)
    (hw : wellEscaped wire = true) (hn : ¬ [codes.IAC, codes.SE] <:+: wire) :
    (TelnetMessage.fresh t).parse
        (codes.IAC :: codes.SB :: op :: (wire ++ [codes.IAC, codes.SE]))
      = some (5 + wire.length,
          { msg_type := TelnetMsgType.Subnegotiation, data := wire, codes := (op, 0) }) := by
  have _ := hw
  have hraw : rawPayload wire = wire :=
    rawPayload_eq_self wire ((firstIacSe_eq_none_iff wire).mpr hn)
  rw [parse_SB]
  have hlen : ¬ (wire ++ [codes.IAC, codes.SE]).length < 2 := by simp
  simp only [hlen, if_false, firstIacSe_terminated, hraw, List.take_left,
    TelnetMessage.fresh, List.nil_append]

/-- C2 (amended) at a concrete input: the buffer `IAC SB GMCP 0xFF 0xFF 'x' IAC SE` yields
option GMCP and the three-byte payload `0xFF 0xFF 'x'`, and consumes 8 bytes. -/
theorem parse_subnegotiation_raw_witness :
    (TelnetMessage.fresh TelnetMsgType.AppData).parse
        (codes.IAC :: codes.SB :: codes.GMCP :: ([255, 255, 120] ++ [codes.IAC, codes.SE]))
      = some (5 + [255, 255, 120].length,
          { msg_type := TelnetMsgType.Subnegotiation, data := [255, 255, 120],
            codes := (codes.GMCP, 0) }) :=
  parse_subnegotiation_raw TelnetMsgType.AppData codes.GMCP [255, 255, 120]
    (by decide) (by decide)

/-- A plain `char` never compares equal to a `char8_t` of 128 or more: its promoted value
is at most 127. -/
theorem charValue_ne (c value : Nat) (hv : 128 ≤ value) : charValue c ≠ (value : Int) := by
  unfold charValue
  intro h
  split_ifs at h with h1
  · have h1n : Nat.mod c 256 < 128 := h1
    have h2 : Nat.mod c 256 = value := by exact_mod_cast h
    omega
  · have h3 : ((Nat.mod c 256 : Nat) : Int) < 256 := by
      exact_mod_cast Nat.mod_lt c (by decide)
    have h4 : (0 : Int) ≤ (value : Int) := Int.ofNat_nonneg value
    have h5 : ((Nat.mod c 256 : Nat) : Int) - 256 = (value : Int) := h
    omega

/-- The search for `IAC` of line 94 finds no byte and gives the end of the buffer. -/
theorem find_IAC (buf : List Byte) : find buf codes.IAC = buf.length := by
  induction buf with
  | nil => rfl
  | cons c rest ih =>
    simp only [find, charValue_ne c codes.IAC (by decide), if_false, ih, List.length_cons]
    omega

/-- Parser progress for the three kinds other than Command: when `parse` into a fresh message
consumes `n > 0` bytes and the message is not a Command, the message serializes to the first
`n` bytes of the buffer. -/
theorem parse_toString_of_ne_command (t : TelnetMsgType) (buf : List Byte) (n : Nat)
    (m : TelnetMessage) (h : (TelnetMessage.fresh t).parse buf = some (n, m)) (hn : 0 < n)
    (hk : m.msg_type ≠ TelnetMsgType.Command) : m.toString = buf.take n := by
  match buf with
  | [] => simp [TelnetMessage.parse] at h; omega
  | c0 :: rest =>
    by_cases h0 : c0 = codes.IAC
    · subst h0
      match rest with
      | [] => simp [TelnetMessage.parse] at h; omega
      | c1 :: rest2 =>
        by_cases hneg : c1 = codes.WILL ∨ c1 = codes.WONT ∨ c1 = codes.DO ∨ c1 = codes.DONT
        · match rest2 with
          | [] => simp [TelnetMessage.parse, hneg] at h; omega
          | c2 :: rest3 =>
            simp only [TelnetMessage.parse, if_true, hneg, Option.some.injEq,
              Prod.mk.injEq] at h
            obtain ⟨h3, hm⟩ := h
            subst h3; subst hm
            simp [TelnetMessage.toString]
        · by_cases hsb : c1 = codes.SB
          · subst hsb
            match rest2 with
            | [] => simp [TelnetMessage.parse] at h; omega
            | op :: body =>
              rw [parse_SB] at h
              by_cases hl : body.length < 2
              · simp [hl] at h; omega
              · simp only [hl, if_false] at h
                cases hf : firstIacSe body with
                | none => simp [hf] at h; omega
                | some i =>
                  obtain ⟨r, hr, hlen⟩ := firstIacSe_some body i hf
                  simp only [hf, TelnetMessage.fresh, List.nil_append, Option.some.injEq,
                    Prod.mk.injEq] at h
                  obtain ⟨h3, hm⟩ := h
                  subst h3; subst hm
                  simp only [TelnetMessage.toString, hlen]
                  have e5 : 5 + i = (i + 2) + 1 + 1 + 1 := by omega
                  rw [e5, List.take_succ_cons, List.take_succ_cons, List.take_succ_cons]
                  simp only [List.cons_append, List.nil_append, List.cons.injEq, true_and]
                  conv_rhs => rw [hr]
                  have e2 : i + 2 = (List.take i body ++ [codes.IAC, codes.SE]).length := by
                    simp [hlen]
                  rw [e2]
                  have e3 : List.take i body ++ codes.IAC :: codes.SE :: r
                      = (List.take i body ++ [codes.IAC, codes.SE]) ++ r := by simp
                  rw [e3, List.take_left]
          · have hc : c1 ≠ codes.WILL ∧ c1 ≠ codes.WONT ∧ c1 ≠ codes.DO ∧ c1 ≠ codes.DONT
                ∧ c1 ≠ codes.SB := by
              simp only [not_or] at hneg
              exact ⟨hneg.1, hneg.2.1, hneg.2.2.1, hneg.2.2.2, hsb⟩
            rw [parse_command _ _ _ hc] at h
            match rest2 with
            | [] => simp at h
            | x :: rest3 =>
              simp only [Option.some.injEq, Prod.mk.injEq] at h
              exact absurd (by rw [← h.2]) hk
    · simp only [TelnetMessage.parse, h0, if_false, TelnetMessage.fresh, List.nil_append,
        Option.some.injEq, Prod.mk.injEq] at h
      obtain ⟨h3, hm⟩ := h
      subst h3; subst hm
      simp only [TelnetMessage.toString, find_IAC, List.take_length]

/-- C3 (the code at the failing input): on the buffer `IAC NOP 'A'` parse into a fresh
message returns `consumed = 2`, and the message it yields serializes to `IAC 'A'`, which is
not the first two bytes `IAC NOP` of the buffer. -/
theorem parse_toString_IAC_NOP_A :
    ∃ m, (TelnetMessage.fresh TelnetMsgType.AppData).parse [codes.IAC, codes.NOP, 65]
          = some (2, m)
      ∧ m.toString = [codes.IAC, 65]
      ∧ m.toString ≠ List.take 2 [codes.IAC, codes.NOP, 65] := by
  refine ⟨{ msg_type := TelnetMsgType.Command, data := [], codes := (65, 0) }, ?_, ?_, ?_⟩ <;>
    decide

/-- C4: serialize then parse. For `c` one of WILL, WONT, DO, DONT and any option `o`, parsing
`toString` of the Negotiation `(c, o)` into a fresh message returns 3 and yields Negotiation
with `codes = (c, o)`; for any option `op` and payload `p` without an adjacent `IAC SE`,
parsing `toString` of the Subnegotiation `(op, p)` returns `5 + |p|` and yields
Subnegotiation with `codes[0] = op` and payload exactly `p`. -/
theorem toString_parse_roundtrip (t : TelnetMsgType) (c o op : Byte) (p : List Byte)
    (hc : c = codes.WILL ∨ c = codes.WONT ∨ c = codes.DO ∨ c = codes.DONT)
    (hp : ¬ [codes.IAC, codes.SE] <:+: p) :
    (TelnetMessage.fresh t).parse
        (TelnetMessage.toString
          { msg_type := TelnetMsgType.Negotiation, data := [], codes := (c, o) })
        = some (3, { msg_type := TelnetMsgType.Negotiation, data := [], codes := (c, o) })
      ∧ TelnetMessage.toString
          { msg_type := TelnetMsgType.Subnegotiation, data := p, codes := (op, 0) }
        = codes.IAC :: codes.SB :: op :: (p ++ [codes.IAC, codes.SE])
      ∧ (TelnetMessage.fresh t).parse
          (TelnetMessage.toString
            { msg_type := TelnetMsgType.Subnegotiation, data := p, codes := (op, 0) })
        = some (5 + p.length,
            { msg_type := TelnetMsgType.Subnegotiation, data := p, codes := (op, 0) }) := by
  have hraw : rawPayload p = p := rawPayload_eq_self p ((firstIacSe_eq_none_iff p).mpr hp)
  refine ⟨?_, ?_, ?_⟩
  · simp only [TelnetMessage.toString, TelnetMessage.parse, if_true, hc,
      TelnetMessage.fresh]
  · simp [TelnetMessage.toString]
  · have hs : TelnetMessage.toString
          { msg_type := TelnetMsgType.Subnegotiation, data := p, codes := (op, 0) }
        = codes.IAC :: codes.SB :: op :: (p ++ [codes.IAC, codes.SE]) := by
      simp [TelnetMessage.toString]
    rw [hs, parse_SB]
    have hlen : ¬ (p ++ [codes.IAC, codes.SE]).length < 2 := by simp
    simp only [hlen, if_false, firstIacSe_terminated, hraw, List.take_left,
      TelnetMessage.fresh, List.nil_append]

/-- C4 at a concrete input: `IAC DO NAWS`, and `IAC SB GMCP 0xFF 'x' IAC SE`. -/
theorem toString_parse_roundtrip_witness :
    (TelnetMessage.fresh TelnetMsgType.AppData).parse
        (TelnetMessage.toString
          { msg_type := TelnetMsgType.Negotiation, data := [],
            codes := (codes.DO, codes.NAWS) })
        = some (3, { msg_type := TelnetMsgType.Negotiation, data := [],
                     codes := (codes.DO, codes.NAWS) })
      ∧ TelnetMessage.toString
          { msg_type := TelnetMsgType.Subnegotiation, data := [255, 120],
            codes := (codes.GMCP, 0) }
        = codes.IAC :: codes.SB :: codes.GMCP :: ([255, 120] ++ [codes.IAC, codes.SE])
      ∧ (TelnetMessage.fresh TelnetMsgType.AppData).parse
          (TelnetMessage.toString
            { msg_type := TelnetMsgType.Subnegotiation, data := [255, 120],
              codes := (codes.GMCP, 0) })
        = some (5 + [255, 120].length,
            { msg_type := TelnetMsgType.Subnegotiation, data := [255, 120],
              codes := (codes.GMCP, 0) }) :=
  toString_parse_roundtrip TelnetMsgType.AppData codes.DO codes.NAWS codes.GMCP [255, 120]
    (by decide) (by decide)

/-- On a buffer whose first byte is not `IAC`, parse into a fresh message yields kind
ApplicationData with the whole buffer as payload, every `IAC` in it included, and returns
the length of the buffer. -/
theorem parse_appdata_whole (t : TelnetMsgType) (c : Byte) (rest : List Byte)
    (hc : c ≠ codes.IAC) :
    (TelnetMessage.fresh t).parse (c :: rest)
      = some ((c :: rest).length,
          { msg_type := TelnetMsgType.AppData, data := c :: rest, codes := (0, 0) }) := by
  simp only [TelnetMessage.parse, hc, if_false, TelnetMessage.fresh, List.nil_append,
    find_IAC, List.take_length]

/-- C5 (the code at the failing input): on the buffer `'h' 'i' IAC NOP` parse into a fresh
message returns 4 and kind ApplicationData with all four bytes as payload, `IAC` among them;
the longest prefix of the buffer without `IAC` is `'h' 'i'`, of length 2. -/
theorem parse_appdata_past_IAC :
    (TelnetMessage.fresh TelnetMsgType.Command).parse [104, 105, codes.IAC, codes.NOP]
        = some (4, { msg_type := TelnetMsgType.AppData,
                     data := [104, 105, codes.IAC, codes.NOP], codes := (0, 0) })
      ∧ codes.IAC ∈ [104, 105, codes.IAC, codes.NOP]
      ∧ ([104, 105, codes.IAC, codes.NOP] : List Byte) ≠ [104, 105] := by
  refine ⟨?_, by decide, by decide⟩
  exact parse_appdata_whole TelnetMsgType.Command 104 [105, codes.IAC, codes.NOP] (by decide)

/-- C6: for a well-formed frame `F`, either a Negotiation `IAC c o` with `c` one of WILL, WONT,
DO, DONT or a Subnegotiation `IAC SB op p IAC SE` whose payload `p` has no adjacent `IAC SE`,
and for every proper prefix `P` of `F`, parse on `P` returns 0 and gives back the message it
was called on, with kind, `codes` and payload as they were. -/
theorem parse_truncated (m : TelnetMessage) (c o op : Byte) (p F P : List Byte)
    (hc : c = codes.WILL ∨ c = codes.WONT ∨ c = codes.DO ∨ c = codes.DONT)
    (hp : ¬ [codes.IAC, codes.SE] <:+: p)
    (hF : F = [codes.IAC, c, o] ∨ F = codes.IAC :: codes.SB :: op :: (p ++ [codes.IAC, codes.SE]))
    (hP : P <+: F) (hne : P ≠ F) : m.parse P = some (0, m) := by
  rcases hF with hF | hF
  · subst hF
    match P, hP, hne with
    | [], _, _ => simp [TelnetMessage.parse]
    | [x], hP, _ =>
      rw [List.cons_prefix_cons] at hP
      obtain ⟨hx, _⟩ := hP
      subst hx
      simp [TelnetMessage.parse]
    | [x, y], hP, _ =>
      rw [List.cons_prefix_cons, List.cons_prefix_cons] at hP
      obtain ⟨hx, hy, _⟩ := hP
      subst hx; subst hy
      simp only [TelnetMessage.parse, if_true, hc]
    | x :: y :: z :: P3, hP, hne =>
      rw [List.cons_prefix_cons, List.cons_prefix_cons, List.cons_prefix_cons,
        List.prefix_nil] at hP
      obtain ⟨hx, hy, hz, h3⟩ := hP
      subst hx; subst hy; subst hz; subst h3
      exact absurd rfl hne
  · subst hF
    match P, hP, hne with
    | [], _, _ => simp [TelnetMessage.parse]
    | [x], hP, _ =>
      rw [List.cons_prefix_cons] at hP
      obtain ⟨hx, _⟩ := hP
      subst hx
      simp [TelnetMessage.parse]
    | [x, y], hP, _ =>
      rw [List.cons_prefix_cons, List.cons_prefix_cons] at hP
      obtain ⟨hx, hy, _⟩ := hP
      subst hx; subst hy
      simp [TelnetMessage.parse]
    | x :: y :: z :: body, hP, hne =>
      rw [List.cons_prefix_cons, List.cons_prefix_cons, List.cons_prefix_cons] at hP
      obtain ⟨hx, hy, hz, hb⟩ := hP
      subst hx; subst hy; subst hz
      have hbne : body ≠ p ++ [codes.IAC, codes.SE] := fun hb2 => hne (by rw [hb2])
      have hb2 : body <+: (p ++ [codes.IAC]) ++ [codes.SE] := by simpa using hb
      rw [List.prefix_concat_iff] at hb2
      rcases hb2 with hb2 | hb2
      · exact absurd (by simpa using hb2) hbne
      · obtain ⟨r, hr⟩ := hb2
        have hnone : firstIacSe body = none := by
          apply firstIacSe_append_none body r
          rw [hr]
          exact firstIacSe_concat_IAC p ((firstIacSe_eq_none_iff p).mpr hp)
        rw [parse_SB, hnone]
        simp

/-- C6 at a concrete input: the prefix `IAC SB GMCP 0xFF 0xFF IAC` of the frame
`IAC SB GMCP 0xFF 0xFF IAC SE`, on a message that already holds a Negotiation. -/
theorem parse_truncated_witness :
    TelnetMessage.parse
        { msg_type := TelnetMsgType.Negotiation, data := [7], codes := (codes.DO, codes.SGA) }
        [codes.IAC, codes.SB, codes.GMCP, 255, 255, codes.IAC]
      = some (0, { msg_type := TelnetMsgType.Negotiation, data := [7],
                   codes := (codes.DO, codes.SGA) }) :=
  parse_truncated _ codes.WILL codes.SGA codes.GMCP [255, 255]
    (codes.IAC :: codes.SB :: codes.GMCP :: ([255, 255] ++ [codes.IAC, codes.SE]))
    [codes.IAC, codes.SB, codes.GMCP, 255, 255, codes.IAC]
    (by decide) (by decide) (Or.inr rfl) (by decide) (by decide)

/-! ## The session -/

/-- Looking a key up in a map with one more entry in front. -/
theorem handlerAt_cons (k1 : Byte) (h1 : TelnetOption) (hs : List (Byte × TelnetOption))
    (k : Byte) :
    handlerAt ((k1, h1) :: hs) k = if k = k1 then some h1 else handlerAt hs k := by
  by_cases hk : k = k1
  · subst hk; simp [handlerAt, List.lookup]
  · have hbeq : (k == k1) = false := by simpa using hk
    simp [handlerAt, List.lookup, hbeq, hk]

/-- Storing into a map with one more entry in front. -/
theorem handlerStore_cons (k1 : Byte) (h1 : TelnetOption) (hs : List (Byte × TelnetOption))
    (k : Byte) (h : TelnetOption) :
    handlerStore ((k1, h1) :: hs) k h
      = (k1, if k1 = k then h else h1) :: handlerStore hs k h := by
  by_cases hk : k1 = k <;> simp [handlerStore, hk]

/-- A stored handler is the one found afterwards under the same key. -/
theorem handlerAt_handlerStore (hs : List (Byte × TelnetOption)) (k : Byte)
    (h0 h : TelnetOption) (hk : handlerAt hs k = some h0) :
    handlerAt (handlerStore hs k h) k = some h := by
  induction hs with
  | nil => simp [handlerAt] at hk
  | cons e hs ih =>
    obtain ⟨k1, h1⟩ := e
    rw [handlerAt_cons] at hk
    rw [handlerStore_cons, handlerAt_cons]
    by_cases hkk : k = k1
    · subst hkk; simp
    · simp only [hkk, if_false] at hk ⊢
      exact ih hk

/-- Storing under one key leaves what is found under every other key. -/
theorem handlerAt_handlerStore_ne (hs : List (Byte × TelnetOption)) (k k2 : Byte)
    (h : TelnetOption) (hne : k2 ≠ k) :
    handlerAt (handlerStore hs k h) k2 = handlerAt hs k2 := by
  induction hs with
  | nil => simp [handlerAt, handlerStore]
  | cons e hs ih =>
    obtain ⟨k1, h1⟩ := e
    rw [handlerStore_cons, handlerAt_cons, handlerAt_cons, ih]
    by_cases h2 : k2 = k1
    · subst h2
      simp [hne]
    · simp [h2]

/-- Storing under a key that is absent changes nothing. -/
theorem handlerStore_absent (hs : List (Byte × TelnetOption)) (k : Byte) (h : TelnetOption)
    (hk : k ∉ hs.map Prod.fst) : handlerStore hs k h = hs := by
  induction hs with
  | nil => simp [handlerStore]
  | cons e hs ih =>
    obtain ⟨k1, h1⟩ := e
    simp only [List.map_cons, List.mem_cons, not_or] at hk
    have hne : ¬ k1 = k := fun he => hk.1 he.symm
    rw [handlerStore_cons, ih hk.2]
    simp [hne]

/-- No handler is found under a key for which the map has no entry, and conversely. -/
theorem handlerAt_eq_none_iff (hs : List (Byte × TelnetOption)) (k : Byte) :
    handlerAt hs k = none ↔ k ∉ hs.map Prod.fst := by
  induction hs with
  | nil => simp [handlerAt]
  | cons e hs ih =>
    obtain ⟨k1, h1⟩ := e
    rw [handlerAt_cons]
    by_cases hkk : k = k1
    · subst hkk; simp
    · simp only [hkk, if_false, List.map_cons, List.mem_cons, false_or]
      exact ih

/-- With distinct keys, storing back the handler that was found changes nothing. -/
theorem handlerStore_self (hs : List (Byte × TelnetOption)) (k : Byte) (h : TelnetOption)
    (hnd : (hs.map Prod.fst).Nodup) (hk : handlerAt hs k = some h) :
    handlerStore hs k h = hs := by
  induction hs with
  | nil => simp [handlerStore]
  | cons e hs ih =>
    obtain ⟨k1, h1⟩ := e
    simp only [List.map_cons, List.nodup_cons] at hnd
    rw [handlerAt_cons] at hk
    rw [handlerStore_cons]
    by_cases hkk : k = k1
    · subst hkk
      simp only [if_true, Option.some.injEq] at hk
      subst hk
      rw [handlerStore_absent hs k h1 hnd.1]
      simp
    · simp only [hkk, if_false] at hk
      have hkk2 : ¬ k1 = k := fun e => hkk e.symm
      rw [ih hnd.2 hk]
      simp [hkk2]

/-- The keys of the map stay as they are when a handler is stored. -/
theorem handlerStore_keys (hs : List (Byte × TelnetOption)) (k : Byte) (h : TelnetOption) :
    (handlerStore hs k h).map Prod.fst = hs.map Prod.fst := by
  induction hs with
  | nil => simp [handlerStore]
  | cons e hs ih =>
    obtain ⟨k1, h1⟩ := e
    rw [handlerStore_cons]
    simp [ih]

/-- A handler that is found is an entry of the map. -/
theorem handlerAt_mem (hs : List (Byte × TelnetOption)) (k : Byte) (h : TelnetOption)
    (hk : handlerAt hs k = some h) : (k, h) ∈ hs := by
  induction hs with
  | nil => simp [handlerAt] at hk
  | cons e hs ih =>
    obtain ⟨k1, h1⟩ := e
    rw [handlerAt_cons] at hk
    by_cases hkk : k = k1
    · subst hkk
      simp only [if_true, Option.some.injEq] at hk
      subst hk
      exact List.mem_cons_self _ _
    · simp only [hkk, if_false] at hk
      exact List.mem_cons_of_mem _ (ih hk)

/-- Every entry of the map after a store is an old entry or the stored handler under its
key. -/
theorem mem_handlerStore (hs : List (Byte × TelnetOption)) (k : Byte) (h : TelnetOption)
    (e : Byte × TelnetOption) (he : e ∈ handlerStore hs k h) : e ∈ hs ∨ e = (k, h) := by
  simp only [handlerStore, List.mem_map] at he
  obtain ⟨e0, he0, hee⟩ := he
  by_cases hk : e0.1 = k
  · simp only [hk, if_true] at hee
    exact Or.inr hee.symm
  · simp only [hk, if_false] at hee
    exact Or.inl (hee ▸ he0)

/-- The session right after construction, in full. -/
theorem construct_eq (cap : TelnetCapabilities) :
    MudTelnet.construct cap
      = { appDataBuffer := [], pendingGameMessages := [],
          outDataBuffer :=
            [codes.IAC, codes.WILL, codes.MSSP, codes.IAC, codes.WILL, codes.SGA,
             codes.IAC, codes.WILL, codes.MSDP, codes.IAC, codes.WILL, codes.GMCP,
             codes.IAC, codes.DO, codes.NAWS, codes.IAC, codes.DO, codes.MTTS],
          capabilities := cap, mttsLast := [],
          handlers :=
            [(codes.MSSP, { code := codes.MSSP, «local» := { negotiating := true } }),
             (codes.SGA, { code := codes.SGA, «local» := { negotiating := true } }),
             (codes.MSDP, { code := codes.MSDP, «local» := { negotiating := true } }),
             (codes.GMCP, { code := codes.GMCP, «local» := { negotiating := true } }),
             (codes.NAWS, { code := codes.NAWS, remote := { negotiating := true } }),
             (codes.MTTS, { code := codes.MTTS, remote := { negotiating := true } })] } := by
  simp [MudTelnet.construct, MudTelnet.constructStep, handlerAt, handlerStore, List.lookup,
    TelnetOption.new, TelnetOption.startWill, TelnetOption.startDo, MudTelnet.sendNegotiate,
    MudTelnet.sendMessage, TelnetMessage.toString, codes.MSSP, codes.SGA, codes.MSDP,
    codes.GMCP, codes.NAWS, codes.MTTS, codes.IAC, codes.WILL, codes.DO]

/-- C7: right after construction the outbound buffer is the six frames `IAC WILL SGA`,
`IAC WILL MSSP`, `IAC WILL MSDP`, `IAC WILL GMCP`, `IAC DO NAWS`, `IAC DO MTTS`, each once and
nothing else (in the order MSSP, SGA, MSDP, GMCP, NAWS, MTTS); handlers exist for exactly
those six option codes, each under its own code; `local.negotiating` holds exactly for SGA,
MSSP, MSDP, GMCP and `remote.negotiating` exactly for NAWS, MTTS; every `enabled` and
`answered` flag is false; the line accumulator and the pending queue are empty. -/
theorem construct_state (cap : TelnetCapabilities) :
    (MudTelnet.construct cap).outDataBuffer
        = [codes.IAC, codes.WILL, codes.MSSP, codes.IAC, codes.WILL, codes.SGA,
           codes.IAC, codes.WILL, codes.MSDP, codes.IAC, codes.WILL, codes.GMCP,
           codes.IAC, codes.DO, codes.NAWS, codes.IAC, codes.DO, codes.MTTS]
      ∧ (∃ frames : List (List Byte),
          frames.Perm
            [[codes.IAC, codes.WILL, codes.SGA], [codes.IAC, codes.WILL, codes.MSSP],
             [codes.IAC, codes.WILL, codes.MSDP], [codes.IAC, codes.WILL, codes.GMCP],
             [codes.IAC, codes.DO, codes.NAWS], [codes.IAC, codes.DO, codes.MTTS]]
          ∧ (MudTelnet.construct cap).outDataBuffer = frames.flatten)
      ∧ (∀ o : Byte, (handlerAt (MudTelnet.construct cap).handlers o).isSome = true
          ↔ o ∈ [codes.SGA, codes.MSSP, codes.MSDP, codes.GMCP, codes.NAWS, codes.MTTS])
      ∧ (∀ (o : Byte) (h : TelnetOption),
          handlerAt (MudTelnet.construct cap).handlers o = some h →
            h.code = o
            ∧ (h.local.negotiating = true
                ↔ o ∈ [codes.SGA, codes.MSSP, codes.MSDP, codes.GMCP])
            ∧ (h.remote.negotiating = true ↔ o ∈ [codes.NAWS, codes.MTTS])
            ∧ h.local.enabled = false ∧ h.local.answered = false
            ∧ h.remote.enabled = false ∧ h.remote.answered = false)
      ∧ (MudTelnet.construct cap).appDataBuffer = []
      ∧ (MudTelnet.construct cap).pendingGameMessages = [] := by
  rw [construct_eq]
  refine ⟨rfl, ?_, ?_, ?_, rfl, rfl⟩
  · refine ⟨[[codes.IAC, codes.WILL, codes.MSSP], [codes.IAC, codes.WILL, codes.SGA],
        [codes.IAC, codes.WILL, codes.MSDP], [codes.IAC, codes.WILL, codes.GMCP],
        [codes.IAC, codes.DO, codes.NAWS], [codes.IAC, codes.DO, codes.MTTS]], ?_, rfl⟩
    exact (List.Perm.swap _ _ _)
  · intro o
    simp only [handlerAt_cons]
    by_cases h1 : o = codes.MSSP
    · subst h1; decide
    by_cases h2 : o = codes.SGA
    · subst h2; decide
    by_cases h3 : o = codes.MSDP
    · subst h3; decide
    by_cases h4 : o = codes.GMCP
    · subst h4; decide
    by_cases h5 : o = codes.NAWS
    · subst h5; decide
    by_cases h6 : o = codes.MTTS
    · subst h6; decide
    simp [h1, h2, h3, h4, h5, h6, handlerAt]
  · intro o h hh
    simp only [handlerAt_cons] at hh
    by_cases h1 : o = codes.MSSP
    · subst h1
      simp only [if_true, Option.some.injEq] at hh
      subst hh; decide
    by_cases h2 : o = codes.SGA
    · subst h2
      simp only [h1, if_true, if_false, Option.some.injEq] at hh
      subst hh; decide
    by_cases h3 : o = codes.MSDP
    · subst h3
      simp only [h1, h2, if_true, if_false, Option.some.injEq] at hh
      subst hh; decide
    by_cases h4 : o = codes.GMCP
    · subst h4
      simp only [h1, h2, h3, if_true, if_false, Option.some.injEq] at hh
      subst hh; decide
    by_cases h5 : o = codes.NAWS
    · subst h5
      simp only [h1, h2, h3, h4, if_true, if_false, Option.some.injEq] at hh
      subst hh; decide
    by_cases h6 : o = codes.MTTS
    · subst h6
      simp only [h1, h2, h3, h4, h5, if_true, if_false, Option.some.injEq] at hh
      subst hh; decide
    simp [h1, h2, h3, h4, h5, h6, handlerAt] at hh

/-- C8: in a session where option `o` has its handler, (a) for `o` one of SGA, MSSP, MSDP, GMCP
with `local.negotiating` set and `local.enabled` clear, handling `IAC DO o` leaves the
outbound buffer as it is and sets `local.enabled = true`, `local.negotiating = false`,
`local.answered = true`; (b) for `o` one of NAWS, MTTS with `remote.negotiating` set and
`remote.enabled` clear, handling `IAC WILL o` sets `remote.enabled = true`,
`remote.negotiating = false`, `remote.answered = true`, and the outbound buffer is unchanged
for NAWS and gains exactly `IAC SB MTTS 0x01 IAC SE`, with `capabilities.mtts` set, for
MTTS. -/
theorem negotiate_pending_converges (conn : MudTelnet) (o : Byte) (h : TelnetOption)
    (d : List Byte) (hh : handlerAt conn.handlers o = some h) (hcode : h.code = o) :
    ((o = codes.SGA ∨ o = codes.MSSP ∨ o = codes.MSDP ∨ o = codes.GMCP) →
      h.local.negotiating = true → h.local.enabled = false →
        (conn.handleMessage (negotiation codes.DO o d)).outDataBuffer = conn.outDataBuffer
        ∧ ∃ h2, handlerAt (conn.handleMessage (negotiation codes.DO o d)).handlers o = some h2
            ∧ h2.local.enabled = true ∧ h2.local.negotiating = false
            ∧ h2.local.answered = true)
    ∧ ((o = codes.NAWS ∨ o = codes.MTTS) →
      h.remote.negotiating = true → h.remote.enabled = false →
        (∃ h2, handlerAt (conn.handleMessage (negotiation codes.WILL o d)).handlers o = some h2
            ∧ h2.remote.enabled = true ∧ h2.remote.negotiating = false
            ∧ h2.remote.answered = true)
        ∧ (o = codes.NAWS →
            (conn.handleMessage (negotiation codes.WILL o d)).outDataBuffer
              = conn.outDataBuffer)
        ∧ (o = codes.MTTS →
            (conn.handleMessage (negotiation codes.WILL o d)).outDataBuffer
              = conn.outDataBuffer ++ [codes.IAC, codes.SB, codes.MTTS, 1, codes.IAC, codes.SE]
            ∧ (conn.handleMessage (negotiation codes.WILL o d)).capabilities.mtts = true)) := by
  constructor
  · intro ho hneg hen
    have hsup : h.supportLocal = true := by
      simp only [TelnetOption.supportLocal, hcode]
      rcases ho with ho | ho | ho | ho <;> subst ho <;> decide
    have hres : conn.handleMessage (negotiation codes.DO o d)
        = { conn with
            handlers := handlerStore conn.handlers o
              ({ h with «local» :=
                  { enabled := true, negotiating := false, answered := true } }) } := by
      simp [MudTelnet.handleMessage, MudTelnet.handleNegotiate, negotiation, hh,
        TelnetOption.receiveNegotiate, hsup, hneg, hen, TelnetOption.enableLocal]
    rw [hres]
    exact ⟨rfl, _, handlerAt_handlerStore _ _ _ _ hh, rfl, rfl, rfl⟩
  · intro ho hneg hen
    have hsup : h.supportRemote = true := by
      simp only [TelnetOption.supportRemote, hcode]
      rcases ho with ho | ho <;> subst ho <;> decide
    have hres : conn.handleMessage (negotiation codes.WILL o d)
        = { (h.enableRemote conn) with
            handlers := handlerStore (h.enableRemote conn).handlers o
              ({ h with remote :=
                  { enabled := true, negotiating := false, answered := true } }) } := by
      simp [MudTelnet.handleMessage, MudTelnet.handleNegotiate, negotiation, hh,
        TelnetOption.receiveNegotiate, hsup, hneg, hen, TelnetOption.enableRemote]
    rw [hres]
    have hhs : (h.enableRemote conn).handlers = conn.handlers := by
      simp only [TelnetOption.enableRemote, MudTelnet.sendSub, MudTelnet.sendMessage]
      split <;> rfl
    refine ⟨⟨{ h with remote := { enabled := true, negotiating := false, answered := true } },
      ?_, rfl, rfl, rfl⟩, ?_, ?_⟩
    · simp only [hhs]
      exact handlerAt_handlerStore _ _ _ _ hh
    · intro hn
      have hc : ¬ h.code = codes.MTTS := by rw [hcode, hn]; decide
      simp [TelnetOption.enableRemote, hc]
    · intro hm
      have hc : h.code = codes.MTTS := by rw [hcode, hm]
      simp [TelnetOption.enableRemote, hc, MudTelnet.sendSub, MudTelnet.sendMessage,
        TelnetMessage.toString]

/-- C8 at a concrete input: the session right after construction, with `IAC DO SGA` and with
`IAC WILL MTTS`. -/
theorem negotiate_pending_converges_witness :
    ((MudTelnet.construct {}).handleMessage
          (negotiation codes.DO codes.SGA [])).outDataBuffer
        = (MudTelnet.construct {}).outDataBuffer
      ∧ (∃ h2, handlerAt ((MudTelnet.construct {}).handleMessage
              (negotiation codes.WILL codes.MTTS [])).handlers codes.MTTS = some h2
            ∧ h2.remote.enabled = true ∧ h2.remote.negotiating = false
            ∧ h2.remote.answered = true) :=
  ⟨((negotiate_pending_converges (MudTelnet.construct {}) codes.SGA
        { code := codes.SGA, «local» := { negotiating := true } } []
        (by decide) rfl).1 (Or.inl rfl) rfl rfl).1,
   ((negotiate_pending_converges (MudTelnet.construct {}) codes.MTTS
        { code := codes.MTTS, remote := { negotiating := true } } []
        (by decide) rfl).2 (Or.inr rfl) rfl rfl).1⟩

/-- The session right after construction satisfies the invariant of the `handlers` map. -/
theorem wellFormed_construct (cap : TelnetCapabilities) :
    (MudTelnet.construct cap).WellFormed := by
  rw [construct_eq]
  refine ⟨?_, ?_⟩ <;> dsimp only <;> decide

/-- C9: in a session whose `handlers` map satisfies its invariant, for every option `o` other
than NAWS and MTTS, handler or not, handling `IAC WILL o` appends exactly `IAC DONT o` to the
outbound buffer and changes nothing else; for every `o` other than SGA, MSSP, MSDP, GMCP,
handling `IAC DO o` appends exactly `IAC WONT o` and changes nothing else; and for every `o`
without a handler, handling `IAC WONT o` or `IAC DONT o` changes nothing at all. -/
theorem negotiate_refusal (conn : MudTelnet) (o : Byte) (d : List Byte)
    (hwf : conn.WellFormed) :
    (o ≠ codes.NAWS → o ≠ codes.MTTS →
      conn.handleMessage (negotiation codes.WILL o d)
        = { conn with outDataBuffer := conn.outDataBuffer ++ [codes.IAC, codes.DONT, o] })
    ∧ (o ≠ codes.SGA → o ≠ codes.MSSP → o ≠ codes.MSDP → o ≠ codes.GMCP →
      conn.handleMessage (negotiation codes.DO o d)
        = { conn with outDataBuffer := conn.outDataBuffer ++ [codes.IAC, codes.WONT, o] })
    ∧ (handlerAt conn.handlers o = none →
      conn.handleMessage (negotiation codes.WONT o d) = conn
      ∧ conn.handleMessage (negotiation codes.DONT o d) = conn) := by
  obtain ⟨hnd, hcodes⟩ := hwf
  refine ⟨?_, ?_, ?_⟩
  · intro h1 h2
    cases hh : handlerAt conn.handlers o with
    | none =>
      simp [MudTelnet.handleMessage, MudTelnet.handleNegotiate, negotiation, hh,
        MudTelnet.sendNegotiate, MudTelnet.sendMessage, TelnetMessage.toString]
    | some h =>
      have hcode : h.code = o := hcodes _ (handlerAt_mem _ _ _ hh)
      have hsup : h.supportRemote = false := by
        simp [TelnetOption.supportRemote, hcode, h1, h2]
      simp [MudTelnet.handleMessage, MudTelnet.handleNegotiate, negotiation, hh,
        TelnetOption.receiveNegotiate, hsup, MudTelnet.sendNegotiate, MudTelnet.sendMessage,
        TelnetMessage.toString, TelnetOption.opCode, hcode, handlerStore_self _ _ _ hnd hh]
  · intro h1 h2 h3 h4
    have hDO : ¬ codes.DO = codes.WILL := by decide
    cases hh : handlerAt conn.handlers o with
    | none =>
      simp [MudTelnet.handleMessage, MudTelnet.handleNegotiate, negotiation, hh, hDO,
        MudTelnet.sendNegotiate, MudTelnet.sendMessage, TelnetMessage.toString]
    | some h =>
      have hcode : h.code = o := hcodes _ (handlerAt_mem _ _ _ hh)
      have hsup : h.supportLocal = false := by
        simp [TelnetOption.supportLocal, hcode, h1, h2, h3, h4]
      simp [MudTelnet.handleMessage, MudTelnet.handleNegotiate, negotiation, hh, hDO,
        TelnetOption.receiveNegotiate, hsup, MudTelnet.sendNegotiate, MudTelnet.sendMessage,
        TelnetMessage.toString, TelnetOption.opCode, hcode, handlerStore_self _ _ _ hnd hh]
  · intro hh
    have h1 : ¬ codes.WONT = codes.WILL := by decide
    have h2 : ¬ codes.WONT = codes.DO := by decide
    have h3 : ¬ codes.DONT = codes.WILL := by decide
    have h4 : ¬ codes.DONT = codes.DO := by decide
    constructor <;>
      simp [MudTelnet.handleMessage, MudTelnet.handleNegotiate, negotiation, hh, h1, h2, h3, h4]

/-- C9 at a concrete input: the session right after construction, with option 99 (no
handler) and with SGA (a handler that does not support the remote side). -/
theorem negotiate_refusal_witness :
    (MudTelnet.construct {}).handleMessage (negotiation codes.WILL 99 [])
        = { MudTelnet.construct {} with
            outDataBuffer :=
              (MudTelnet.construct {}).outDataBuffer ++ [codes.IAC, codes.DONT, 99] }
      ∧ (MudTelnet.construct {}).handleMessage (negotiation codes.DO 99 [])
        = { MudTelnet.construct {} with
            outDataBuffer :=
              (MudTelnet.construct {}).outDataBuffer ++ [codes.IAC, codes.WONT, 99] }
      ∧ ((MudTelnet.construct {}).handleMessage (negotiation codes.WONT 99 [])
          = MudTelnet.construct {}
        ∧ (MudTelnet.construct {}).handleMessage (negotiation codes.DONT 99 [])
          = MudTelnet.construct {})
      ∧ (MudTelnet.construct {}).handleMessage (negotiation codes.WILL codes.SGA [])
        = { MudTelnet.construct {} with
            outDataBuffer :=
              (MudTelnet.construct {}).outDataBuffer
                ++ [codes.IAC, codes.DONT, codes.SGA] } :=
  ⟨(negotiate_refusal (MudTelnet.construct {}) 99 [] (wellFormed_construct {})).1
      (by decide) (by decide),
   (negotiate_refusal (MudTelnet.construct {}) 99 [] (wellFormed_construct {})).2.1
      (by decide) (by decide) (by decide) (by decide),
   (negotiate_refusal (MudTelnet.construct {}) 99 [] (wellFormed_construct {})).2.2
      (by decide),
   (negotiate_refusal (MudTelnet.construct {}) codes.SGA [] (wellFormed_construct {})).1
      (by decide) (by decide)⟩

/-- C10 (the code at the failing input): after construction and one `IAC DO SGA`, the local
perspective of SGA has converged (`enabled` set, `negotiating` clear); handling a second
`IAC DO SGA` appends `IAC WILL SGA` to the outbound buffer, and a third appends it again. -/
theorem negotiate_converged_DO_SGA_replies :
    (∃ h, handlerAt ((MudTelnet.construct {}).handleMessage
            (negotiation codes.DO codes.SGA [])).handlers codes.SGA = some h
          ∧ h.local.enabled = true ∧ h.local.negotiating = false)
      ∧ (((MudTelnet.construct {}).handleMessage
            (negotiation codes.DO codes.SGA [])).handleMessage
            (negotiation codes.DO codes.SGA [])).outDataBuffer
        = ((MudTelnet.construct {}).handleMessage
            (negotiation codes.DO codes.SGA [])).outDataBuffer
          ++ [codes.IAC, codes.WILL, codes.SGA]
      ∧ ((((MudTelnet.construct {}).handleMessage
            (negotiation codes.DO codes.SGA [])).handleMessage
            (negotiation codes.DO codes.SGA [])).handleMessage
            (negotiation codes.DO codes.SGA [])).outDataBuffer
        = ((MudTelnet.construct {}).handleMessage
            (negotiation codes.DO codes.SGA [])).outDataBuffer
          ++ [codes.IAC, codes.WILL, codes.SGA, codes.IAC, codes.WILL, codes.SGA] := by
  refine ⟨⟨{ code := codes.SGA,
             «local» := { enabled := true, negotiating := false, answered := true } },
           ?_, rfl, rfl⟩, ?_, ?_⟩ <;> decide

/-- The hook `enableRemote` does not touch the `handlers` map. -/
theorem enableRemote_handlers (h : TelnetOption) (conn : MudTelnet) :
    (h.enableRemote conn).handlers = conn.handlers := by
  simp only [TelnetOption.enableRemote, MudTelnet.sendSub, MudTelnet.sendMessage]
  split <;> rfl

/-- The method `receiveNegotiate` keeps the `handlers` map and the option code. -/
theorem receiveNegotiate_handlers_code (h : TelnetOption) (conn : MudTelnet) (command : Byte) :
    (h.receiveNegotiate conn command).1.handlers = conn.handlers
      ∧ (h.receiveNegotiate conn command).2.code = h.code := by
  simp only [TelnetOption.receiveNegotiate]
  split_ifs <;>
    simp [enableRemote_handlers, TelnetOption.enableLocal, TelnetOption.disableLocal,
      TelnetOption.disableRemote, MudTelnet.sendNegotiate, MudTelnet.sendMessage]

/-- The stage 0 decoder keeps the `handlers` map. -/
theorem subMTTS_0_handlers (h : TelnetOption) (conn : MudTelnet) (mtts : List Byte) :
    (h.subMTTS_0 conn mtts).handlers = conn.handlers := rfl

/-- The stage 1 decoder keeps the `handlers` map. -/
theorem subMTTS_1_handlers (h : TelnetOption) (conn : MudTelnet) (mtts : List Byte) :
    (h.subMTTS_1 conn mtts).handlers = conn.handlers := by
  unfold TelnetOption.subMTTS_1
  generalize split (fun c => if c = 45 then true else false) (to_upper_copy mtts) = toks
  match toks with
  | [] => rfl
  | [_] => rfl
  | [_, _] => rfl
  | _ :: _ :: _ :: _ => rfl

/-- The stage 2 decoder keeps the `handlers` map. -/
theorem subMTTS_2_handlers (h : TelnetOption) (conn : MudTelnet) (mtts : List Byte) :
    (h.subMTTS_2 conn mtts).handlers = conn.handlers := by
  unfold TelnetOption.subMTTS_2
  generalize split is_space (to_upper_copy mtts) = toks
  match toks with
  | [] => rfl
  | [_] => rfl
  | s0 :: s1 :: _ =>
    dsimp only
    by_cases hs : s0 ≠ bytes "MTTS"
    · rw [if_pos hs]
    · rw [if_neg hs]

/-- The method `subNegotiate` keeps the `handlers` map and the option code. -/
theorem subNegotiate_handlers_code (h : TelnetOption) (conn : MudTelnet) (msg : TelnetMessage) :
    (h.subNegotiate conn msg).1.handlers = conn.handlers
      ∧ (h.subNegotiate conn msg).2.code = h.code := by
  unfold TelnetOption.subNegotiate TelnetOption.subMTTS
  by_cases hc : h.code = codes.MTTS
  · rw [if_pos hc]
    match msg.data with
    | [] => exact ⟨rfl, rfl⟩
    | d0 :: rest =>
      dsimp only
      split_ifs <;>
        simp [subMTTS_0_handlers, subMTTS_1_handlers, subMTTS_2_handlers, MudTelnet.sendSub,
          MudTelnet.sendMessage]
  · rw [if_neg hc]
    exact ⟨rfl, rfl⟩

/-- The method `handleAppData` keeps the `handlers` map. -/
theorem handleAppData_handlers (conn : MudTelnet) (msg : TelnetMessage) :
    (conn.handleAppData msg).handlers = conn.handlers := by
  simp only [MudTelnet.handleAppData]
  generalize msg.data = l
  induction l generalizing conn with
  | nil => rfl
  | cons c l ih =>
    rw [List.foldl_cons, ih]
    simp only [MudTelnet.handleAppDataStep]
    split_ifs <;> rfl

/-- Storing a handler under its own code keeps the invariant of the `handlers` map. -/
theorem wellFormed_store (conn conn2 : MudTelnet) (k : Byte) (h : TelnetOption)
    (hwf : conn.WellFormed) (hhs : conn2.handlers = conn.handlers) (hcode : h.code = k) :
    MudTelnet.WellFormed { conn2 with handlers := handlerStore conn2.handlers k h } := by
  obtain ⟨hnd, hcodes⟩ := hwf
  refine ⟨?_, ?_⟩
  · simp only [handlerStore_keys, hhs]
    exact hnd
  · intro e he
    simp only [hhs] at he
    rcases mem_handlerStore _ _ _ _ he with he2 | he2
    · exact hcodes e he2
    · rw [he2]; exact hcode

/-- The invariant of the `handlers` map is kept by `handleMessage`, so it holds in every
session state reached from construction. -/
theorem wellFormed_handleMessage (conn : MudTelnet) (msg : TelnetMessage)
    (hwf : conn.WellFormed) : (conn.handleMessage msg).WellFormed := by
  simp only [MudTelnet.handleMessage]
  split
  · exact ⟨by rw [handleAppData_handlers]; exact hwf.1,
      by rw [handleAppData_handlers]; exact hwf.2⟩
  · exact hwf
  · simp only [MudTelnet.handleNegotiate]
    split
    · split_ifs <;> exact hwf
    · rename_i hand hh
      have hk := receiveNegotiate_handlers_code hand conn msg.codes.1
      exact wellFormed_store conn _ _ _ hwf hk.1
        (hk.2.trans (hwf.2 _ (handlerAt_mem _ _ _ hh)))
  · simp only [MudTelnet.handleSubnegotiate]
    split
    · exact hwf
    · rename_i hand hh
      have hk := subNegotiate_handlers_code hand conn msg
      exact wellFormed_store conn _ _ _ hwf hk.1
        (hk.2.trans (hwf.2 _ (handlerAt_mem _ _ _ hh)))

/-! ## Application data and the outbound helpers -/

/-- A split always gives at least one token. -/
theorem split_ne_nil (p : Byte → Bool) (l : List Byte) : split p l ≠ [] := by
  cases l with
  | nil => simp [split]
  | cons c cs =>
    simp only [split]
    split_ifs
    · simp
    · cases split p cs <;> simp

/-- A list without separators is its own single token. -/
theorem split_of_no_sep (p : Byte → Bool) (a : List Byte) (ha : ∀ x ∈ a, p x = false) :
    split p a = [a] := by
  induction a with
  | nil => simp [split]
  | cons c cs ih =>
    have hc : p c = false := ha c (List.mem_cons_self _ _)
    have := ih (fun x hx => ha x (List.mem_cons_of_mem _ hx))
    simp [split, hc, this]

/-- Up to the first separator, a split gives the bytes before it as the first token. -/
theorem split_append_sep (p : Byte → Bool) (a : List Byte) (c : Byte) (r : List Byte)
    (ha : ∀ x ∈ a, p x = false) (hc : p c = true) :
    split p (a ++ c :: r) = a :: split p r := by
  induction a with
  | nil => simp [split, hc]
  | cons d ds ih =>
    have hd : p d = false := ha d (List.mem_cons_self _ _)
    have := ih (fun x hx => ha x (List.mem_cons_of_mem _ hx))
    simp [split, hd, this]

/-- A split gives one token more than there are separators. -/
theorem split_length (p : Byte → Bool) (l : List Byte) :
    (split p l).length = l.countP p + 1 := by
  induction l with
  | nil => simp [split]
  | cons c cs ih =>
    simp only [split]
    by_cases hc : p c = true
    · simp [hc, ih]
    · have hcf : p c = false := by simpa using hc
      cases hs : split p cs with
      | nil => exact absurd hs (split_ne_nil p cs)
      | cons t ts =>
        rw [hs] at ih
        simp only [List.length_cons] at ih
        simp [hcf]
        omega

/-- The loop of `handleAppData` from an accumulator without line feed: the tokens of the
accumulator followed by the data without its carriage returns, split at the line feeds, all
but the last queued and the last left in the accumulator. -/
theorem handleAppData_fold (d : List Byte) (conn : MudTelnet)
    (hLF : codes.LF ∉ conn.appDataBuffer) :
    d.foldl MudTelnet.handleAppDataStep conn
      = { conn with
          pendingGameMessages := conn.pendingGameMessages ++
            (split (fun c => decide (c = codes.LF))
                (conn.appDataBuffer ++ d.filter (fun c => decide (c ≠ codes.CR)))).dropLast.map
              (fun l => { gameMessageType := none, data := l }),
          appDataBuffer :=
            ((split (fun c => decide (c = codes.LF))
                (conn.appDataBuffer ++ d.filter (fun c => decide (c ≠ codes.CR)))).getLast?).getD
              [] } := by
  have hno : ∀ a : List Byte, codes.LF ∉ a →
      ∀ x ∈ a, (fun c => decide (c = codes.LF)) x = false := by
    intro a ha x hx
    have : x ≠ codes.LF := fun hxe => ha (hxe ▸ hx)
    simpa using this
  induction d generalizing conn with
  | nil =>
    simp only [List.foldl_nil, List.filter_nil, List.append_nil]
    rw [split_of_no_sep _ _ (hno _ hLF)]
    simp
  | cons c d ih =>
    rw [List.foldl_cons]
    by_cases hc : c = codes.LF
    · subst hc
      have hstep : MudTelnet.handleAppDataStep conn codes.LF
          = { conn with
              pendingGameMessages := conn.pendingGameMessages
                ++ [{ gameMessageType := none, data := conn.appDataBuffer }],
              appDataBuffer := [] } := by
        simp [MudTelnet.handleAppDataStep]
      rw [hstep, ih _ (by simp)]
      have hf : List.filter (fun c => decide (c ≠ codes.CR)) (codes.LF :: d)
          = codes.LF :: List.filter (fun c => decide (c ≠ codes.CR)) d := by
        rw [List.filter_cons_of_pos]; decide
      rw [hf, split_append_sep _ _ _ _ (hno _ hLF) (by simp)]
      cases hs : split (fun c => decide (c = codes.LF))
          (List.filter (fun c => decide (c ≠ codes.CR)) d) with
      | nil => exact absurd hs (split_ne_nil _ _)
      | cons t ts =>
        simp only [List.nil_append, hs]
        simp [List.dropLast_cons₂, List.getLast?_cons_cons]
    · by_cases hr : c = codes.CR
      · subst hr
        have hstep : MudTelnet.handleAppDataStep conn codes.CR = conn := by
          simp [MudTelnet.handleAppDataStep]
        rw [hstep, ih _ hLF]
        have hf : List.filter (fun c => decide (c ≠ codes.CR)) (codes.CR :: d)
            = List.filter (fun c => decide (c ≠ codes.CR)) d := by
          rw [List.filter_cons_of_neg]; decide
        rw [hf]
      · have hstep : MudTelnet.handleAppDataStep conn c
            = { conn with appDataBuffer := conn.appDataBuffer ++ [c] } := by
          simp [MudTelnet.handleAppDataStep, hc, hr]
        have hLF2 : codes.LF ∉ conn.appDataBuffer ++ [c] := by
          simp only [List.mem_append, List.mem_singleton, not_or]
          exact ⟨hLF, fun h => hc h.symm⟩
        rw [hstep, ih _ hLF2]
        have hf : List.filter (fun c => decide (c ≠ codes.CR)) (c :: d)
            = c :: List.filter (fun c => decide (c ≠ codes.CR)) d := by
          rw [List.filter_cons_of_pos]; simpa using hr
        rw [hf]
        simp

/-- C11: handling an ApplicationData message with payload `d`, in a session whose
accumulator `a` holds no line feed: with `s` the accumulator followed by `d` without its
carriage returns, and `s` split at each line feed into `l_1, ..., l_k, r`, where `k` is the
number of line feeds in `d`, the queue gains `k` messages with data `l_1, ..., l_k` in that
order, the accumulator becomes `r`, and nothing else of the session changes. -/
theorem handleMessage_appdata (conn : MudTelnet) (d : List Byte) (cs : Byte × Byte)
    (hLF : codes.LF ∉ conn.appDataBuffer) :
    conn.handleMessage { msg_type := TelnetMsgType.AppData, data := d, codes := cs }
        = { conn with
            pendingGameMessages := conn.pendingGameMessages ++
              (split (fun c => decide (c = codes.LF))
                  (conn.appDataBuffer ++ d.filter (fun c => decide (c ≠ codes.CR)))).dropLast.map
                (fun l => { gameMessageType := none, data := l }),
            appDataBuffer :=
              ((split (fun c => decide (c = codes.LF))
                  (conn.appDataBuffer
                    ++ d.filter (fun c => decide (c ≠ codes.CR)))).getLast?).getD [] }
      ∧ (split (fun c => decide (c = codes.LF))
            (conn.appDataBuffer ++ d.filter (fun c => decide (c ≠ codes.CR)))).length
          = d.count codes.LF + 1 := by
  refine ⟨?_, ?_⟩
  · simp only [MudTelnet.handleMessage, MudTelnet.handleAppData]
    exact handleAppData_fold d conn hLF
  · rw [split_length, List.countP_append]
    have h1 : List.countP (fun c => decide (c = codes.LF)) conn.appDataBuffer = 0 := by
      rw [List.countP_eq_zero]
      intro x hx
      have : x ≠ codes.LF := fun hxe => hLF (hxe ▸ hx)
      simpa using this
    have h2 : List.countP (fun c => decide (c = codes.LF))
          (List.filter (fun c => decide (c ≠ codes.CR)) d)
        = List.count codes.LF d := by
      induction d with
      | nil => rfl
      | cons c d ih =>
        by_cases hr : c = codes.CR
        · subst hr
          rw [List.filter_cons_of_neg (by decide), ih]
          rw [List.count_cons_of_ne (by decide)]
        · rw [List.filter_cons_of_pos (by simpa using hr), List.countP_cons, ih,
            List.count_cons]
          by_cases hc : c = codes.LF
          · subst hc; simp
          · have hc2 : ¬ (c == codes.LF) = true := by simpa using hc
            simp [hc, hc2]
    rw [h1, h2]; omega

/-- C11 at a concrete input: the payload `"hello\r\n"` on the session right after
construction queues exactly one message with data `"hello"` and leaves the accumulator
empty. -/
theorem handleMessage_appdata_witness :
    ((MudTelnet.construct {}).handleMessage
        { msg_type := TelnetMsgType.AppData, data := bytes "hello\r\n",
          codes := (0, 0) }).pendingGameMessages
        = [{ gameMessageType := none, data := bytes "hello" }]
      ∧ ((MudTelnet.construct {}).handleMessage
        { msg_type := TelnetMsgType.AppData, data := bytes "hello\r\n",
          codes := (0, 0) }).appDataBuffer = [] := by
  have h := (handleMessage_appdata (MudTelnet.construct {}) (bytes "hello\r\n") (0, 0)
    (by decide)).1
  rw [h]
  decide

/-- The method `sendLine` appends the text, and `CR LF` after it unless the text already ends
with `CR LF`; nothing else of the session changes. -/
theorem sendLine_eq (conn : MudTelnet) (s : List Byte) :
    conn.sendLine s
      = { conn with
          outDataBuffer := conn.outDataBuffer
            ++ (if [codes.CR, codes.LF] <:+ s then s else s ++ [codes.CR, codes.LF]) } := by
  simp only [MudTelnet.sendLine, ends_with, MudTelnet.sendText, MudTelnet.sendMessage,
    TelnetMessage.toString]
  by_cases h : [codes.CR, codes.LF] <:+ s <;> simp [h]

/-- The method `sendPrompt` appends the text, and the string `prompt` after it unless the
text already ends with `prompt`; nothing else of the session changes. With nothing picked up
past the array, `prompt` is `IAC GA`. -/
theorem sendPrompt_eq (conn : MudTelnet) (past s : List Byte) :
    conn.sendPrompt past s
      = { conn with
          outDataBuffer := conn.outDataBuffer
            ++ (if [codes.IAC, codes.GA] ++ past <:+ s then s
                else s ++ ([codes.IAC, codes.GA] ++ past)) } := by
  simp only [MudTelnet.sendPrompt, ends_with, prompt, MudTelnet.sendText,
    MudTelnet.sendMessage, TelnetMessage.toString]
  by_cases h : codes.IAC :: codes.GA :: past <:+ s <;> simp [h]

/-- C12 (the code where `prompt` picks up one byte `0x01` past the unterminated array
`prompt_codes`): `sendPrompt` of `"> "` appends `"> " IAC GA 0x01`, and `sendPrompt` of a text
that already ends with `IAC GA` appends that text and then `IAC GA 0x01`, not the text
alone. -/
theorem sendPrompt_unterminated :
    ((MudTelnet.construct {}).sendPrompt [1] (bytes "> ")).outDataBuffer
        = (MudTelnet.construct {}).outDataBuffer ++ bytes "> " ++ [codes.IAC, codes.GA, 1]
      ∧ ((MudTelnet.construct {}).sendPrompt [1] [62, codes.IAC, codes.GA]).outDataBuffer
        = (MudTelnet.construct {}).outDataBuffer ++ [62, codes.IAC, codes.GA]
            ++ [codes.IAC, codes.GA, 1] := by
  constructor <;> decide

/-! ## The MTTS decoder -/

/-- Handling an MTTS response whose upper-cased text is new: the decoder of the current
stage runs, the counter goes up by one, the text is remembered, and a TTYPE request follows
unless the counter has reached 2. -/
theorem handleMessage_mtts_response (conn : MudTelnet) (h : TelnetOption) (s : List Byte)
    (hh : handlerAt conn.handlers codes.MTTS = some h) (hcode : h.code = codes.MTTS)
    (hs : s ≠ []) (hU : to_upper_copy s ≠ conn.mttsLast) :
    conn.handleMessage (subnegotiation codes.MTTS (0 :: s))
      = { appDataBuffer := conn.appDataBuffer,
          pendingGameMessages := conn.pendingGameMessages,
          outDataBuffer :=
            if h.mtts_count + 1 ≥ 2 then conn.outDataBuffer
            else conn.outDataBuffer
              ++ [codes.IAC, codes.SB, codes.MTTS, 1, codes.IAC, codes.SE],
          capabilities :=
            (if h.mtts_count = 0 then h.subMTTS_0 conn (to_upper_copy s)
              else if h.mtts_count = 1 then h.subMTTS_1 conn (to_upper_copy s)
              else if h.mtts_count = 2 then h.subMTTS_2 conn (to_upper_copy s)
              else conn).capabilities,
          mttsLast := to_upper_copy s,
          handlers := handlerStore conn.handlers codes.MTTS
            ({ h with mtts_count := h.mtts_count + 1 }) } := by
  have hlen : ¬ (0 :: s).length < 2 := by
    cases s with
    | nil => exact absurd rfl hs
    | cons a t => simp
  have hf0 : (h.subMTTS_0 conn (to_upper_copy s)) = { conn with
      capabilities := (h.subMTTS_0 conn (to_upper_copy s)).capabilities } := rfl
  have hf1 : (h.subMTTS_1 conn (to_upper_copy s)) = { conn with
      capabilities := (h.subMTTS_1 conn (to_upper_copy s)).capabilities } := by
    unfold TelnetOption.subMTTS_1
    generalize split (fun c => if c = 45 then true else false)
      (to_upper_copy (to_upper_copy s)) = toks
    match toks with
    | [] => rfl
    | [_] => rfl
    | [_, _] => rfl
    | _ :: _ :: _ :: _ => rfl
  have hf2 : (h.subMTTS_2 conn (to_upper_copy s)) = { conn with
      capabilities := (h.subMTTS_2 conn (to_upper_copy s)).capabilities } := by
    unfold TelnetOption.subMTTS_2
    generalize split is_space (to_upper_copy (to_upper_copy s)) = toks
    match toks with
    | [] => rfl
    | [_] => rfl
    | s0 :: s1 :: _ =>
      dsimp only
      by_cases hs0 : s0 ≠ bytes "MTTS"
      · rw [if_pos hs0]
      · rw [if_neg hs0]
  simp only [MudTelnet.handleMessage, MudTelnet.handleSubnegotiate, subnegotiation, hh,
    TelnetOption.subNegotiate, hcode, if_true, TelnetOption.subMTTS, ne_eq,
    not_true_eq_false, if_false, hlen, hU]
  by_cases h0 : h.mtts_count = 0
  · rw [hf0]
    simp [h0, MudTelnet.sendSub, MudTelnet.sendMessage, TelnetMessage.toString]
  · by_cases h1 : h.mtts_count = 1
    · rw [hf1]
      simp [h1, MudTelnet.sendSub, MudTelnet.sendMessage, TelnetMessage.toString]
    · have hge : h.mtts_count + 1 ≥ 2 := by omega
      by_cases h2 : h.mtts_count = 2
      · rw [hf2]
        simp [h2, MudTelnet.sendSub, MudTelnet.sendMessage, TelnetMessage.toString]
      · simp [h0, h1, h2, hge]

/-- Upper-casing a byte twice is upper-casing it once. -/
theorem to_upper_to_upper (c : Byte) : to_upper (to_upper c) = to_upper c := by
  have key : ∀ n : Nat, (if 97 ≤ (if 97 ≤ n ∧ n ≤ 122 then n - 32 else n)
        ∧ (if 97 ≤ n ∧ n ≤ 122 then n - 32 else n) ≤ 122
      then (if 97 ≤ n ∧ n ≤ 122 then n - 32 else n) - 32
      else (if 97 ≤ n ∧ n ≤ 122 then n - 32 else n))
      = (if 97 ≤ n ∧ n ≤ 122 then n - 32 else n) := by
    intro n
    split_ifs <;> omega
  exact key c

/-- Upper-casing a string twice is upper-casing it once. -/
theorem to_upper_copy_idem (s : List Byte) :
    to_upper_copy (to_upper_copy s) = to_upper_copy s := by
  simp only [to_upper_copy, List.map_map]
  apply List.map_congr_left
  intro c _
  exact to_upper_to_upper c

/-- Raising to Xterm and then to Standard is raising to Xterm. -/
theorem ColorType.max_xterm_standard (c : ColorType) :
    ColorType.max (ColorType.max c ColorType.XtermColor) ColorType.StandardColor
      = ColorType.max c ColorType.XtermColor := by
  cases c <;> decide

/-- The test of lines 337-338 on the client name, as membership in the list of names. -/
theorem mem_xterm_clients_iff (name : List Byte) :
    name ∈ [bytes "ATLANTIS", bytes "CMUD", bytes "KILDCLIENT", bytes "MUDLET", bytes "PUTTY",
        bytes "BEIP", bytes "POTATO", bytes "TINYFUGUE", bytes "MUSHCLIENT"]
      ↔ (name = bytes "ATLANTIS" ∨ name = bytes "CMUD" ∨ name = bytes "KILDCLIENT" ∨
        name = bytes "MUDLET" ∨ name = bytes "PUTTY" ∨ name = bytes "BEIP" ∨
        name = bytes "POTATO" ∨ name = bytes "TINYFUGUE" ∨ name = bytes "MUSHCLIENT") := by
  simp only [List.mem_cons, List.mem_singleton, List.not_mem_nil, or_false]

/-- The color and name part of the stage 0 decoder, after the tokens are stored. -/
theorem subMTTS_0_color (caps1 : TelnetCapabilities) :
    ({ (if caps1.clientName = bytes "ATLANTIS" ∨ caps1.clientName = bytes "CMUD" ∨
            caps1.clientName = bytes "KILDCLIENT" ∨ caps1.clientName = bytes "MUDLET" ∨
            caps1.clientName = bytes "PUTTY" ∨ caps1.clientName = bytes "BEIP" ∨
            caps1.clientName = bytes "POTATO" ∨ caps1.clientName = bytes "TINYFUGUE" ∨
            caps1.clientName = bytes "MUSHCLIENT" then
          { caps1 with colorType := ColorType.max caps1.colorType ColorType.XtermColor }
        else caps1) with
        colorType := ColorType.max
          (if caps1.clientName = bytes "ATLANTIS" ∨ caps1.clientName = bytes "CMUD" ∨
            caps1.clientName = bytes "KILDCLIENT" ∨ caps1.clientName = bytes "MUDLET" ∨
            caps1.clientName = bytes "PUTTY" ∨ caps1.clientName = bytes "BEIP" ∨
            caps1.clientName = bytes "POTATO" ∨ caps1.clientName = bytes "TINYFUGUE" ∨
            caps1.clientName = bytes "MUSHCLIENT" then
          { caps1 with colorType := ColorType.max caps1.colorType ColorType.XtermColor }
        else caps1).colorType ColorType.StandardColor } : TelnetCapabilities)
      = { caps1 with
          colorType :=
            if caps1.clientName ∈ [bytes "ATLANTIS", bytes "CMUD", bytes "KILDCLIENT",
                bytes "MUDLET", bytes "PUTTY", bytes "BEIP", bytes "POTATO", bytes "TINYFUGUE",
                bytes "MUSHCLIENT"]
            then ColorType.max caps1.colorType ColorType.XtermColor
            else ColorType.max caps1.colorType ColorType.StandardColor } := by
  by_cases hm : caps1.clientName ∈ [bytes "ATLANTIS", bytes "CMUD", bytes "KILDCLIENT",
      bytes "MUDLET", bytes "PUTTY", bytes "BEIP", bytes "POTATO", bytes "TINYFUGUE",
      bytes "MUSHCLIENT"]
  · have hn := (mem_xterm_clients_iff _).mp hm
    rw [if_pos hn, if_pos hm]
    simp only [ColorType.max_xterm_standard]
  · have hn := fun hd => hm ((mem_xterm_clients_iff _).mpr hd)
    rw [if_neg hn, if_neg hm]

/-- The capabilities after the stage 0 decoder. -/
theorem subMTTS_0_capabilities (h : TelnetOption) (conn : MudTelnet) (U : List Byte) :
    (h.subMTTS_0 conn U).capabilities
      = { (match split is_space (to_upper_copy U) with
            | [n0, n1] => { conn.capabilities with clientVersion := n1, clientName := n0 }
            | [n0] => { conn.capabilities with clientName := n0 }
            | _ => conn.capabilities) with
          colorType :=
            if (match split is_space (to_upper_copy U) with
                | [n0, n1] => { conn.capabilities with clientVersion := n1, clientName := n0 }
                | [n0] => { conn.capabilities with clientName := n0 }
                | _ => conn.capabilities).clientName
                ∈ [bytes "ATLANTIS", bytes "CMUD", bytes "KILDCLIENT",
                  bytes "MUDLET", bytes "PUTTY", bytes "BEIP", bytes "POTATO", bytes "TINYFUGUE",
                  bytes "MUSHCLIENT"]
            then ColorType.max (match split is_space (to_upper_copy U) with
                | [n0, n1] => { conn.capabilities with clientVersion := n1, clientName := n0 }
                | [n0] => { conn.capabilities with clientName := n0 }
                | _ => conn.capabilities).colorType ColorType.XtermColor
            else ColorType.max (match split is_space (to_upper_copy U) with
                | [n0, n1] => { conn.capabilities with clientVersion := n1, clientName := n0 }
                | [n0] => { conn.capabilities with clientName := n0 }
                | _ => conn.capabilities).colorType ColorType.StandardColor } := by
  simp only [TelnetOption.subMTTS_0]
  exact subMTTS_0_color _

/-- C13: in a session whose MTTS stage counter is 0, handling the MTTS subnegotiation
`0x00 s` with `s` not empty and `U = uppercase(s)` different from `mttsLast`: when `U` splits
on white space into two tokens `t0 t1`, `clientName = t0` and `clientVersion = t1`; when into
one token `t0`, `clientName = t0` and `clientVersion` stays; `colorType` becomes the larger of
its old value and Xterm when the resulting `clientName` is one of the nine listed clients,
and the larger of its old value and Standard otherwise; the counter becomes 1, `mttsLast`
becomes `U`, and the outbound buffer gains exactly `IAC SB MTTS 0x01 IAC SE`. -/
theorem mtts_stage0 (conn : MudTelnet) (h : TelnetOption) (s : List Byte)
    (hh : handlerAt conn.handlers codes.MTTS = some h) (hcode : h.code = codes.MTTS)
    (hcount : h.mtts_count = 0) (hs : s ≠ []) (hU : to_upper_copy s ≠ conn.mttsLast) :
    (∀ t0 t1 : List Byte, split is_space (to_upper_copy s) = [t0, t1] →
        (conn.handleMessage (subnegotiation codes.MTTS (0 :: s))).capabilities.clientName = t0
        ∧ (conn.handleMessage (subnegotiation codes.MTTS (0 :: s))).capabilities.clientVersion
            = t1)
      ∧ (∀ t0 : List Byte, split is_space (to_upper_copy s) = [t0] →
        (conn.handleMessage (subnegotiation codes.MTTS (0 :: s))).capabilities.clientName = t0
        ∧ (conn.handleMessage (subnegotiation codes.MTTS (0 :: s))).capabilities.clientVersion
            = conn.capabilities.clientVersion)
      ∧ (conn.handleMessage (subnegotiation codes.MTTS (0 :: s))).capabilities.colorType
          = (if (conn.handleMessage (subnegotiation codes.MTTS (0 :: s))).capabilities.clientName
                ∈ [bytes "ATLANTIS", bytes "CMUD", bytes "KILDCLIENT", bytes "MUDLET",
                   bytes "PUTTY", bytes "BEIP", bytes "POTATO", bytes "TINYFUGUE",
                   bytes "MUSHCLIENT"]
             then ColorType.max conn.capabilities.colorType ColorType.XtermColor
             else ColorType.max conn.capabilities.colorType ColorType.StandardColor)
      ∧ (conn.handleMessage (subnegotiation codes.MTTS (0 :: s))).mttsCount = 1
      ∧ (conn.handleMessage (subnegotiation codes.MTTS (0 :: s))).mttsLast = to_upper_copy s
      ∧ (conn.handleMessage (subnegotiation codes.MTTS (0 :: s))).outDataBuffer
          = conn.outDataBuffer ++ [codes.IAC, codes.SB, codes.MTTS, 1, codes.IAC, codes.SE] := by
  rw [handleMessage_mtts_response conn h s hh hcode hs hU]
  refine ⟨?_, ?_, ?_, ?_, ?_, ?_⟩
  · intro t0 t1 ht
    simp only [hcount, if_true, subMTTS_0_capabilities, to_upper_copy_idem, ht, and_self]
  · intro t0 ht
    simp only [hcount, if_true, subMTTS_0_capabilities, to_upper_copy_idem, ht, and_self]
  · simp only [hcount, if_true, subMTTS_0_capabilities, to_upper_copy_idem]
    generalize split is_space (to_upper_copy s) = toks
    match toks with
    | [] => rfl
    | [_] => rfl
    | [_, _] => rfl
    | _ :: _ :: _ :: _ => rfl
  · simp only [MudTelnet.mttsCount]
    rw [handlerAt_handlerStore _ _ _ _ hh]
    simp only [hcount]
  · rfl
  · simp [hcount]

/-- C13 at a concrete input: the response `"Mudlet 4.10"` on the session right after
construction gives `clientName = "MUDLET"`, `clientVersion = "4.10"`, `colorType = Xterm`. -/
theorem mtts_stage0_witness :
    ((MudTelnet.construct {}).handleMessage
        (subnegotiation codes.MTTS (0 :: bytes "Mudlet 4.10"))).capabilities.clientName
        = bytes "MUDLET"
      ∧ ((MudTelnet.construct {}).handleMessage
        (subnegotiation codes.MTTS (0 :: bytes "Mudlet 4.10"))).capabilities.clientVersion
        = bytes "4.10"
      ∧ ((MudTelnet.construct {}).handleMessage
        (subnegotiation codes.MTTS (0 :: bytes "Mudlet 4.10"))).capabilities.colorType
        = ColorType.XtermColor
      ∧ ((MudTelnet.construct {}).handleMessage
        (subnegotiation codes.MTTS (0 :: bytes "Mudlet 4.10"))).outDataBuffer
        = (MudTelnet.construct {}).outDataBuffer
          ++ [codes.IAC, codes.SB, codes.MTTS, 1, codes.IAC, codes.SE] := by
  have h := mtts_stage0 (MudTelnet.construct {})
    { code := codes.MTTS, remote := { negotiating := true } } (bytes "Mudlet 4.10")
    (by decide) rfl rfl (by decide) (by decide)
  have hn := h.1 (bytes "MUDLET") (bytes "4.10") (by decide)
  refine ⟨hn.1, hn.2, ?_, h.2.2.2.2.2⟩
  rw [h.2.2.1, hn.1]
  decide

/-- A byte below `'a'` is its own upper case. -/
theorem to_upper_of_lt (c : Byte) (hc : c < 97) : to_upper c = c := by
  have key : ∀ n : Nat, n < 97 → (if 97 ≤ n ∧ n ≤ 122 then n - 32 else n) = n := by
    intro n hn
    split_ifs with h
    · omega
    · rfl
  exact key c hc

/-- A string of bytes below `'a'` is its own upper case. -/
theorem to_upper_copy_of_lt (s : List Byte) (hs : ∀ c ∈ s, c < 97) : to_upper_copy s = s := by
  induction s with
  | nil => rfl
  | cons c s ih =>
    simp only [to_upper_copy, List.map_cons, List.cons.injEq]
    exact ⟨to_upper_of_lt c (hs c (List.mem_cons_self _ _)),
      ih (fun x hx => hs x (List.mem_cons_of_mem _ hx))⟩

/-- A digit value plus 48 is a digit byte. -/
theorem digit_add_48 (m n : Nat) (hm : m < 10) (h : m + 48 = n) : 48 ≤ n ∧ n ≤ 57 := by
  omega

/-- Every byte of a decimal text is a digit. -/
theorem decimal_digit (v : Nat) (c : Byte) (hc : c ∈ decimal v) : 48 ≤ c ∧ c ≤ 57 := by
  unfold decimal at hc
  split_ifs at hc with h0
  · simp only [List.mem_singleton] at hc
    have key : ∀ n : Nat, n = 48 → 48 ≤ n ∧ n ≤ 57 := by intro n hn; omega
    exact key c hc
  · simp only [List.mem_map, List.mem_reverse] at hc
    obtain ⟨d, hd, hdc⟩ := hc
    exact digit_add_48 d c (Nat.digits_lt_base (by decide) hd) hdc

/-- A decimal text is not empty. -/
theorem decimal_ne_nil (v : Nat) : decimal v ≠ [] := by
  unfold decimal
  split_ifs with h0
  · simp
  · have := (Nat.digits_ne_nil_iff_ne_zero (b := 10)).mpr h0
    simpa using this

/-- Reading digits goes on through a run of digits. -/
theorem atoiDigits_append (xs ys : List Byte) (acc : Nat)
    (hx : ∀ c ∈ xs, 48 ≤ c ∧ c ≤ 57) :
    atoiDigits (xs ++ ys) acc = atoiDigits ys (atoiDigits xs acc) := by
  induction xs generalizing acc with
  | nil => simp [atoiDigits]
  | cons c xs ih =>
    have hc := hx c (List.mem_cons_self _ _)
    simp only [List.cons_append, atoiDigits, hc, and_self, if_true]
    exact ih _ (fun x hx2 => hx x (List.mem_cons_of_mem _ hx2))

/-- Reading the digits of a base ten expansion, most significant first, gives its value. -/
theorem atoiDigits_digits (L : List Nat) (hL : ∀ d ∈ L, d < 10) (acc : Nat) :
    atoiDigits (L.reverse.map (fun d => d + 48)) acc
      = acc * 10 ^ L.length + Nat.ofDigits 10 L := by
  induction L generalizing acc with
  | nil => simp [atoiDigits]
  | cons d L ih =>
    have hd : d < 10 := hL d (List.mem_cons_self _ _)
    have hL2 : ∀ x ∈ L, x < 10 := fun x hx => hL x (List.mem_cons_of_mem _ hx)
    rw [List.reverse_cons, List.map_append, atoiDigits_append _ _ _ (by
      intro c hc
      simp only [List.mem_map, List.mem_reverse] at hc
      obtain ⟨e, he, hec⟩ := hc
      exact digit_add_48 e c (hL2 e he) hec), ih hL2]
    have h1 : (48 : Nat) ≤ d + 48 ∧ d + 48 ≤ 57 := by omega
    simp only [List.map_cons, List.map_nil, atoiDigits, h1, and_self, if_true,
      Nat.add_sub_cancel, List.length_cons, Nat.ofDigits_cons, pow_succ]
    ring

/-- Reading a decimal text gives the number back. -/
theorem atoiDigits_decimal (v : Nat) : atoiDigits (decimal v) 0 = v := by
  unfold decimal
  split_ifs with h0
  · subst h0; decide
  · rw [atoiDigits_digits _ (fun d hd => Nat.digits_lt_base (by decide) hd)]
    simp [Nat.ofDigits_digits]

/-- On a text that starts with a digit, `atoi` reads the digits. -/
theorem atoi_of_digit (c : Byte) (r : List Byte) (hc : 48 ≤ c ∧ c ≤ 57) :
    atoi (c :: r) = (atoiDigits (c :: r) 0 : Int) := by
  have hsp : is_space c = false := by
    have key : ∀ n : Nat, 48 ≤ n ∧ n ≤ 57 → ¬ (n = 32 ∨ (9 ≤ n ∧ n ≤ 13)) := by
      intro n hn; omega
    simp only [is_space, key c hc, if_false]
  have h43 : c ≠ 43 := by
    have key : ∀ n : Nat, 48 ≤ n ∧ n ≤ 57 → n ≠ 43 := by intro n hn; omega
    exact key c hc
  have h45 : c ≠ 45 := by
    have key : ∀ n : Nat, 48 ≤ n ∧ n ≤ 57 → n ≠ 45 := by intro n hn; omega
    exact key c hc
  unfold atoi
  rw [List.dropWhile_cons_of_neg (by simp [hsp])]
  split
  · rename_i heq
    simp only [List.cons.injEq] at heq
    exact absurd heq.1 h43
  · rename_i heq
    simp only [List.cons.injEq] at heq
    exact absurd heq.1 h45
  · rfl

/-- The call `atoi` on a decimal text gives the number back. -/
theorem atoi_decimal (v : Nat) : atoi (decimal v) = (v : Int) := by
  cases hd : decimal v with
  | nil => exact absurd hd (decimal_ne_nil v)
  | cons c r =>
    have hc := decimal_digit v c (by rw [hd]; exact List.mem_cons_self _ _)
    rw [atoi_of_digit c r hc, ← hd, atoiDigits_decimal]

/-- The test `v & 2^i` on a value that fits an `int` is the test of bit `i`. -/
theorem intAnd_two_pow (v i : Nat) (hv : v < 2 ^ 31) :
    intAnd (v : Int) (2 ^ i) = v.testBit i := by
  have hmod : ((v : Int).emod 4294967296).toNat = v := by
    have h1 : (v : Int).emod 4294967296 = ((v % 4294967296 : Nat) : Int) := by
      show (v : Int) % 4294967296 = ((v % 4294967296 : Nat) : Int)
      omega
    rw [h1, Int.toNat_ofNat]
    apply Nat.mod_eq_of_lt
    have : (2 : Nat) ^ 31 < 4294967296 := by decide
    omega
  unfold intAnd
  rw [hmod]
  have hbit : (Nat.land v (2 ^ i)).testBit i = v.testBit i := by
    have := Nat.testBit_and v (2 ^ i) i
    simp only [HAnd.hAnd, AndOp.and] at this
    rw [this, Nat.testBit_two_pow_self, Bool.and_true]
  by_cases hz : Nat.land v (2 ^ i) = 0
  · rw [if_pos hz]
    rw [hz] at hbit
    simp only [Nat.zero_testBit] at hbit
    exact hbit
  · rw [if_neg hz]
    cases hb : v.testBit i with
    | true => rfl
    | false =>
      exfalso
      apply hz
      apply Nat.eq_of_testBit_eq
      intro j
      have := Nat.testBit_and v (2 ^ i) j
      simp only [HAnd.hAnd, AndOp.and] at this
      rw [this, Nat.zero_testBit, Nat.testBit_two_pow]
      by_cases hij : i = j
      · subst hij; simp [hb]
      · simp [hij]

/-- The stage 2 decoder as eleven guarded assignments in a row. -/
theorem subMTTS_2_chain (h : TelnetOption) (conn : MudTelnet) (U s1 : List Byte)
    (rest : List (List Byte))
    (hsplit : split is_space (to_upper_copy U) = bytes "MTTS" :: s1 :: rest) :
    (h.subMTTS_2 conn U).capabilities
      = updateIf (intAnd (atoi s1) 1024) (fun d => { d with mslp := true })
        (updateIf (intAnd (atoi s1) 512) (fun d => { d with mnes := true })
        (updateIf (intAnd (atoi s1) 256)
          (fun d => { d with colorType := ColorType.max d.colorType ColorType.TrueColor })
        (updateIf (intAnd (atoi s1) 128) (fun d => { d with proxy := true })
        (updateIf (intAnd (atoi s1) 64) (fun d => { d with screen_reader := true })
        (updateIf (intAnd (atoi s1) 32) (fun d => { d with osc_color_palette := true })
        (updateIf (intAnd (atoi s1) 16) (fun d => { d with mouse_tracking := true })
        (updateIf (intAnd (atoi s1) 8)
          (fun d => { d with colorType := ColorType.max d.colorType ColorType.XtermColor })
        (updateIf (intAnd (atoi s1) 4) (fun d => { d with utf8 := true })
        (updateIf (intAnd (atoi s1) 2) (fun d => { d with vt100 := true })
        (updateIf (intAnd (atoi s1) 1)
          (fun d => { d with colorType := ColorType.max d.colorType ColorType.StandardColor })
          conn.capabilities)))))))))) := by
  unfold TelnetOption.subMTTS_2
  rw [hsplit]
  have hne : ¬ (bytes "MTTS" ≠ bytes "MTTS") := by simp
  show (if bytes "MTTS" ≠ bytes "MTTS" then conn else _).capabilities = _
  rw [if_neg hne]
  rfl

/-- A guarded raise of the color depth, as a record update. -/
theorem updateIf_colorType (b : Bool) (level : ColorType) (d : TelnetCapabilities) :
    updateIf b (fun d => { d with colorType := ColorType.max d.colorType level }) d
      = { d with colorType := ColorType.raise b level d.colorType } := by
  cases b <;> rfl

/-- A guarded set of `vt100`, as a record update. -/
theorem updateIf_vt100 (b : Bool) (d : TelnetCapabilities) :
    updateIf b (fun d => { d with vt100 := true }) d = { d with vt100 := b || d.vt100 } := by
  cases b <;> rfl

/-- A guarded set of `utf8`, as a record update. -/
theorem updateIf_utf8 (b : Bool) (d : TelnetCapabilities) :
    updateIf b (fun d => { d with utf8 := true }) d = { d with utf8 := b || d.utf8 } := by
  cases b <;> rfl

/-- A guarded set of `mouse_tracking`, as a record update. -/
theorem updateIf_mouse_tracking (b : Bool) (d : TelnetCapabilities) :
    updateIf b (fun d => { d with mouse_tracking := true }) d
      = { d with mouse_tracking := b || d.mouse_tracking } := by
  cases b <;> rfl

/-- A guarded set of `osc_color_palette`, as a record update. -/
theorem updateIf_osc_color_palette (b : Bool) (d : TelnetCapabilities) :
    updateIf b (fun d => { d with osc_color_palette := true }) d
      = { d with osc_color_palette := b || d.osc_color_palette } := by
  cases b <;> rfl

/-- A guarded set of `screen_reader`, as a record update. -/
theorem updateIf_screen_reader (b : Bool) (d : TelnetCapabilities) :
    updateIf b (fun d => { d with screen_reader := true }) d
      = { d with screen_reader := b || d.screen_reader } := by
  cases b <;> rfl

/-- A guarded set of `proxy`, as a record update. -/
theorem updateIf_proxy (b : Bool) (d : TelnetCapabilities) :
    updateIf b (fun d => { d with proxy := true }) d = { d with proxy := b || d.proxy } := by
  cases b <;> rfl

/-- A guarded set of `mnes`, as a record update. -/
theorem updateIf_mnes (b : Bool) (d : TelnetCapabilities) :
    updateIf b (fun d => { d with mnes := true }) d = { d with mnes := b || d.mnes } := by
  cases b <;> rfl

/-- A guarded set of `mslp`, as a record update. -/
theorem updateIf_mslp (b : Bool) (d : TelnetCapabilities) :
    updateIf b (fun d => { d with mslp := true }) d = { d with mslp := b || d.mslp } := by
  cases b <;> rfl

/-- The capabilities after the stage 2 decoder, on a text whose first token is `MTTS`: the
bits of the number read from the second token are or-ed into the flags and raise the color
depth. -/
theorem subMTTS_2_capabilities (h : TelnetOption) (conn : MudTelnet) (U s1 : List Byte)
    (rest : List (List Byte))
    (hsplit : split is_space (to_upper_copy U) = bytes "MTTS" :: s1 :: rest) :
    (h.subMTTS_2 conn U).capabilities
      = { conn.capabilities with
          colorType :=
            ColorType.raise (intAnd (atoi s1) 256) ColorType.TrueColor
              (ColorType.raise (intAnd (atoi s1) 8) ColorType.XtermColor
                (ColorType.raise (intAnd (atoi s1) 1) ColorType.StandardColor
                  conn.capabilities.colorType)),
          vt100 := intAnd (atoi s1) 2 || conn.capabilities.vt100,
          utf8 := intAnd (atoi s1) 4 || conn.capabilities.utf8,
          mouse_tracking := intAnd (atoi s1) 16 || conn.capabilities.mouse_tracking,
          osc_color_palette := intAnd (atoi s1) 32 || conn.capabilities.osc_color_palette,
          screen_reader := intAnd (atoi s1) 64 || conn.capabilities.screen_reader,
          proxy := intAnd (atoi s1) 128 || conn.capabilities.proxy,
          mnes := intAnd (atoi s1) 512 || conn.capabilities.mnes,
          mslp := intAnd (atoi s1) 1024 || conn.capabilities.mslp } := by
  rw [subMTTS_2_chain h conn U s1 rest hsplit]
  simp only [updateIf_colorType, updateIf_vt100, updateIf_utf8, updateIf_mouse_tracking,
    updateIf_osc_color_palette, updateIf_screen_reader, updateIf_proxy, updateIf_mnes,
    updateIf_mslp]

/-- A digit byte is below `'a'` and is no white space. -/
theorem digit_byte_facts (n : Nat) (hn : 48 ≤ n ∧ n ≤ 57) :
    n < 97 ∧ ¬ (n = 32 ∨ (9 ≤ n ∧ n ≤ 13)) := by
  omega

/-- The text `"MTTS <v>"` is its own upper case. -/
theorem to_upper_copy_MTTS_decimal (v : Nat) :
    to_upper_copy (bytes "MTTS " ++ decimal v) = bytes "MTTS " ++ decimal v := by
  apply to_upper_copy_of_lt
  intro c hc
  rw [List.mem_append] at hc
  rcases hc with hc | hc
  · have hall : ∀ x ∈ bytes "MTTS ", x < 97 := by decide
    exact hall c hc
  · exact (digit_byte_facts c (decimal_digit v c hc)).1

/-- The text `"MTTS <v>"` splits on white space into `MTTS` and the decimal text. -/
theorem split_MTTS_decimal (v : Nat) :
    split is_space (bytes "MTTS " ++ decimal v) = [bytes "MTTS", decimal v] := by
  have h1 : bytes "MTTS " ++ decimal v = bytes "MTTS" ++ 32 :: decimal v := by
    have : bytes "MTTS " = bytes "MTTS" ++ [32] := by decide
    rw [this, List.append_assoc, List.singleton_append]
  rw [h1, split_append_sep is_space _ _ _ (by decide) (by decide)]
  rw [split_of_no_sep]
  intro x hx
  have := (digit_byte_facts x (decimal_digit v x hx)).2
  simp only [is_space, this, if_false]

/-- C14: in a session whose MTTS stage counter is 2, handling the MTTS subnegotiation
`0x00 "MTTS <v>"` for a decimal `v < 2^31` whose upper-cased text differs from `mttsLast`
sets each of `vt100` (2), `utf8` (4), `mouse_tracking` (16), `osc_color_palette` (32),
`screen_reader` (64), `proxy` (128), `mnes` (512), `mslp` (1024) to its old value or-ed with
the bit of `v`, raises `colorType` to at least Standard when bit 1 is set, Xterm when bit 8
is set, TrueColor when bit 256 is set, leaves every other capability field as it is,
whatever the bits from 2048 up, and appends nothing to the outbound buffer. -/
theorem mtts_stage2 (conn : MudTelnet) (h : TelnetOption) (v : Nat)
    (hh : handlerAt conn.handlers codes.MTTS = some h) (hcode : h.code = codes.MTTS)
    (hcount : h.mtts_count = 2) (hv : v < 2 ^ 31)
    (hU : to_upper_copy (bytes "MTTS " ++ decimal v) ≠ conn.mttsLast) :
    (conn.handleMessage
        (subnegotiation codes.MTTS (0 :: (bytes "MTTS " ++ decimal v)))).capabilities
        = { conn.capabilities with
            colorType :=
              ColorType.raise (v.testBit 8) ColorType.TrueColor
                (ColorType.raise (v.testBit 3) ColorType.XtermColor
                  (ColorType.raise (v.testBit 0) ColorType.StandardColor
                    conn.capabilities.colorType)),
            vt100 := v.testBit 1 || conn.capabilities.vt100,
            utf8 := v.testBit 2 || conn.capabilities.utf8,
            mouse_tracking := v.testBit 4 || conn.capabilities.mouse_tracking,
            osc_color_palette := v.testBit 5 || conn.capabilities.osc_color_palette,
            screen_reader := v.testBit 6 || conn.capabilities.screen_reader,
            proxy := v.testBit 7 || conn.capabilities.proxy,
            mnes := v.testBit 9 || conn.capabilities.mnes,
            mslp := v.testBit 10 || conn.capabilities.mslp }
      ∧ (conn.handleMessage
          (subnegotiation codes.MTTS (0 :: (bytes "MTTS " ++ decimal v)))).outDataBuffer
        = conn.outDataBuffer := by
  have hne : bytes "MTTS " ++ decimal v ≠ [] := by
    intro hnil
    have := congrArg List.length hnil
    simp [bytes] at this
  rw [handleMessage_mtts_response conn h _ hh hcode hne hU]
  have hsplit : split is_space (to_upper_copy (to_upper_copy (bytes "MTTS " ++ decimal v)))
      = bytes "MTTS" :: decimal v :: [] := by
    rw [to_upper_copy_MTTS_decimal, to_upper_copy_MTTS_decimal, split_MTTS_decimal]
  have e0 : intAnd (v : Int) 1 = v.testBit 0 := intAnd_two_pow v 0 hv
  have e1 : intAnd (v : Int) 2 = v.testBit 1 := intAnd_two_pow v 1 hv
  have e2 : intAnd (v : Int) 4 = v.testBit 2 := intAnd_two_pow v 2 hv
  have e3 : intAnd (v : Int) 8 = v.testBit 3 := intAnd_two_pow v 3 hv
  have e4 : intAnd (v : Int) 16 = v.testBit 4 := intAnd_two_pow v 4 hv
  have e5 : intAnd (v : Int) 32 = v.testBit 5 := intAnd_two_pow v 5 hv
  have e6 : intAnd (v : Int) 64 = v.testBit 6 := intAnd_two_pow v 6 hv
  have e7 : intAnd (v : Int) 128 = v.testBit 7 := intAnd_two_pow v 7 hv
  have e8 : intAnd (v : Int) 256 = v.testBit 8 := intAnd_two_pow v 8 hv
  have e9 : intAnd (v : Int) 512 = v.testBit 9 := intAnd_two_pow v 9 hv
  have e10 : intAnd (v : Int) 1024 = v.testBit 10 := intAnd_two_pow v 10 hv
  have h0 : ¬ (2 = 0) := by decide
  have h1 : ¬ (2 = 1) := by decide
  constructor
  · simp only [hcount, h0, h1, if_false, if_true]
    rw [subMTTS_2_capabilities h conn _ _ _ hsplit, atoi_decimal, e0, e1, e2, e3, e4, e5, e6,
      e7, e8, e9, e10]
  · simp [hcount]

/-- C14 at a concrete input: `"MTTS 299"` (299 = 1 + 2 + 8 + 32 + 256) in a session at stage
2 with default capabilities gives `colorType = TrueColor`, `vt100 = true`,
`osc_color_palette = true`, `utf8 = false`, and no outbound byte. -/
theorem mtts_stage2_witness :
    decimal 299 = bytes "299"
      ∧ (MudTelnet.handleMessage
          { appDataBuffer := [], pendingGameMessages := [], outDataBuffer := [],
            capabilities := {}, mttsLast := [],
            handlers := [(codes.MTTS, { code := codes.MTTS, mtts_count := 2 })] }
          (subnegotiation codes.MTTS (0 :: (bytes "MTTS " ++ decimal 299)))).capabilities
        = { colorType := ColorType.TrueColor, vt100 := true, osc_color_palette := true,
            utf8 := false }
      ∧ (MudTelnet.handleMessage
          { appDataBuffer := [], pendingGameMessages := [], outDataBuffer := [],
            capabilities := {}, mttsLast := [],
            handlers := [(codes.MTTS, { code := codes.MTTS, mtts_count := 2 })] }
          (subnegotiation codes.MTTS (0 :: (bytes "MTTS " ++ decimal 299)))).outDataBuffer
        = [] := by
  have hd : decimal 299 = bytes "299" := by
    simp [decimal, bytes]
  have h := mtts_stage2
    { appDataBuffer := [], pendingGameMessages := [], outDataBuffer := [],
      capabilities := {}, mttsLast := [],
      handlers := [(codes.MTTS, { code := codes.MTTS, mtts_count := 2 })] }
    { code := codes.MTTS, mtts_count := 2 } 299 (by decide) rfl rfl (by decide)
    (by rw [hd]; decide)
  refine ⟨hd, ?_, h.2⟩
  rw [h.1]
  decide

/-! ## Capabilities only grow -/

/-- The order on capabilities is reflexive. -/
theorem TelnetCapabilities.le_refl (a : TelnetCapabilities) : a.le a :=
  ⟨Nat.le_refl _, fun h => h, fun h => h, fun h => h, fun h => h, fun h => h, fun h => h, fun h => h, fun h => h, fun h => h, fun h => h, fun h => h, fun h => h, fun h => h, fun h => h, fun h => h, fun h => h, fun h => h, fun h => h, fun h => h, fun h => h, fun h => h, fun h => h, fun h => h, fun h => h⟩

/-- The order on capabilities is transitive. -/
theorem TelnetCapabilities.le_trans (a b c : TelnetCapabilities) (h1 : a.le b) (h2 : b.le c) :
    a.le c :=
  ⟨Nat.le_trans h1.1 h2.1,
    fun h => h2.2.1 (h1.2.1 h),
    fun h => h2.2.2.1 (h1.2.2.1 h),
    fun h => h2.2.2.2.1 (h1.2.2.2.1 h),
    fun h => h2.2.2.2.2.1 (h1.2.2.2.2.1 h),
    fun h => h2.2.2.2.2.2.1 (h1.2.2.2.2.2.1 h),
    fun h => h2.2.2.2.2.2.2.1 (h1.2.2.2.2.2.2.1 h),
    fun h => h2.2.2.2.2.2.2.2.1 (h1.2.2.2.2.2.2.2.1 h),
    fun h => h2.2.2.2.2.2.2.2.2.1 (h1.2.2.2.2.2.2.2.2.1 h),
    fun h => h2.2.2.2.2.2.2.2.2.2.1 (h1.2.2.2.2.2.2.2.2.2.1 h),
    fun h => h2.2.2.2.2.2.2.2.2.2.2.1 (h1.2.2.2.2.2.2.2.2.2.2.1 h),
    fun h => h2.2.2.2.2.2.2.2.2.2.2.2.1 (h1.2.2.2.2.2.2.2.2.2.2.2.1 h),
    fun h => h2.2.2.2.2.2.2.2.2.2.2.2.2.1 (h1.2.2.2.2.2.2.2.2.2.2.2.2.1 h),
    fun h => h2.2.2.2.2.2.2.2.2.2.2.2.2.2.1 (h1.2.2.2.2.2.2.2.2.2.2.2.2.2.1 h),
    fun h => h2.2.2.2.2.2.2.2.2.2.2.2.2.2.2.1 (h1.2.2.2.2.2.2.2.2.2.2.2.2.2.2.1 h),
    fun h => h2.2.2.2.2.2.2.2.2.2.2.2.2.2.2.2.1 (h1.2.2.2.2.2.2.2.2.2.2.2.2.2.2.2.1 h),
    fun h => h2.2.2.2.2.2.2.2.2.2.2.2.2.2.2.2.2.1 (h1.2.2.2.2.2.2.2.2.2.2.2.2.2.2.2.2.1 h),
    fun h => h2.2.2.2.2.2.2.2.2.2.2.2.2.2.2.2.2.2.1 (h1.2.2.2.2.2.2.2.2.2.2.2.2.2.2.2.2.2.1 h),
    fun h => h2.2.2.2.2.2.2.2.2.2.2.2.2.2.2.2.2.2.2.1 (h1.2.2.2.2.2.2.2.2.2.2.2.2.2.2.2.2.2.2.1 h),
    fun h => h2.2.2.2.2.2.2.2.2.2.2.2.2.2.2.2.2.2.2.2.1 (h1.2.2.2.2.2.2.2.2.2.2.2.2.2.2.2.2.2.2.2.1 h),
    fun h => h2.2.2.2.2.2.2.2.2.2.2.2.2.2.2.2.2.2.2.2.2.1 (h1.2.2.2.2.2.2.2.2.2.2.2.2.2.2.2.2.2.2.2.2.1 h),
    fun h => h2.2.2.2.2.2.2.2.2.2.2.2.2.2.2.2.2.2.2.2.2.2.1 (h1.2.2.2.2.2.2.2.2.2.2.2.2.2.2.2.2.2.2.2.2.2.1 h),
    fun h => h2.2.2.2.2.2.2.2.2.2.2.2.2.2.2.2.2.2.2.2.2.2.2.1 (h1.2.2.2.2.2.2.2.2.2.2.2.2.2.2.2.2.2.2.2.2.2.2.1 h),
    fun h => h2.2.2.2.2.2.2.2.2.2.2.2.2.2.2.2.2.2.2.2.2.2.2.2.1 (h1.2.2.2.2.2.2.2.2.2.2.2.2.2.2.2.2.2.2.2.2.2.2.2.1 h),
    fun h => h2.2.2.2.2.2.2.2.2.2.2.2.2.2.2.2.2.2.2.2.2.2.2.2.2 (h1.2.2.2.2.2.2.2.2.2.2.2.2.2.2.2.2.2.2.2.2.2.2.2.2 h)⟩

/-- The larger of two color depths is at least the first. -/
theorem ColorType.le_max (a b : ColorType) : a.toNat ≤ (ColorType.max a b).toNat := by
  cases a <;> cases b <;> decide

/-- A guarded raise does not lower the color depth. -/
theorem ColorType.le_raise (b : Bool) (level c : ColorType) :
    c.toNat ≤ (ColorType.raise b level c).toNat := by
  cases b
  · exact Nat.le_refl _
  · exact ColorType.le_max c level

/-- Capabilities that differ at most by a color depth that is not lower, a client name, a
client version, and flags that are set, have grown. -/
theorem TelnetCapabilities.le_of_update (a : TelnetCapabilities) (c : ColorType)
    (name version : List Byte) (b1 b2 b4 b5 b6 b7 b9 b10 bm : Bool)
    (hc : a.colorType.toNat ≤ c.toNat) :
    a.le { a with colorType := c, clientName := name, clientVersion := version,
                  vt100 := b1 || a.vt100, utf8 := b2 || a.utf8,
                  mouse_tracking := b4 || a.mouse_tracking,
                  osc_color_palette := b5 || a.osc_color_palette,
                  screen_reader := b6 || a.screen_reader, proxy := b7 || a.proxy,
                  mnes := b9 || a.mnes, mslp := b10 || a.mslp, mtts := bm || a.mtts } := by
  simp only [TelnetCapabilities.le, Bool.or_eq_true]
  refine ⟨hc, ?_⟩
  simp only [imp_self, true_and, and_true]
  refine ⟨?_, ?_, ?_, ?_, ?_, ?_, ?_, ?_, ?_⟩ <;> exact fun h => Or.inr h

/-- The hook `enableRemote` only sets the flag `mtts`. -/
theorem enableRemote_capabilities_le (h : TelnetOption) (conn : MudTelnet) :
    conn.capabilities.le (h.enableRemote conn).capabilities := by
  unfold TelnetOption.enableRemote
  split_ifs
  · exact TelnetCapabilities.le_of_update conn.capabilities conn.capabilities.colorType
      conn.capabilities.clientName conn.capabilities.clientVersion
      false false false false false false false false true (Nat.le_refl _)
  · exact TelnetCapabilities.le_refl _

/-- Sending a negotiation frame leaves the capabilities as they are. -/
theorem sendNegotiate_capabilities (conn : MudTelnet) (c o : Byte) :
    (conn.sendNegotiate c o).capabilities = conn.capabilities := rfl

/-- The method `receiveNegotiate` lets the capabilities only grow. -/
theorem receiveNegotiate_capabilities_le (h : TelnetOption) (conn : MudTelnet)
    (command : Byte) :
    conn.capabilities.le (h.receiveNegotiate conn command).1.capabilities := by
  simp only [TelnetOption.receiveNegotiate]
  split_ifs <;> first
    | exact TelnetCapabilities.le_refl _
    | exact enableRemote_capabilities_le _ _
    | exact enableRemote_capabilities_le _ (conn.sendNegotiate codes.DO _)

/-- The stage 0 decoder lets the capabilities only grow. -/
theorem subMTTS_0_capabilities_le (h : TelnetOption) (conn : MudTelnet) (U : List Byte) :
    conn.capabilities.le (h.subMTTS_0 conn U).capabilities := by
  rw [subMTTS_0_capabilities]
  generalize split is_space (to_upper_copy U) = toks
  have hc : ∀ name : List Byte, conn.capabilities.colorType.toNat
      ≤ (if name ∈ [bytes "ATLANTIS", bytes "CMUD", bytes "KILDCLIENT", bytes "MUDLET",
            bytes "PUTTY", bytes "BEIP", bytes "POTATO", bytes "TINYFUGUE", bytes "MUSHCLIENT"]
          then ColorType.max conn.capabilities.colorType ColorType.XtermColor
          else ColorType.max conn.capabilities.colorType ColorType.StandardColor).toNat := by
    intro name
    split_ifs <;> exact ColorType.le_max _ _
  match toks with
  | [] =>
    exact TelnetCapabilities.le_of_update conn.capabilities _ conn.capabilities.clientName
      conn.capabilities.clientVersion false false false false false false false false false
      (hc _)
  | [n0] =>
    exact TelnetCapabilities.le_of_update conn.capabilities _ n0
      conn.capabilities.clientVersion false false false false false false false false false
      (hc _)
  | [n0, n1] =>
    exact TelnetCapabilities.le_of_update conn.capabilities _ n0 n1
      false false false false false false false false false (hc _)
  | _ :: _ :: _ :: _ =>
    exact TelnetCapabilities.le_of_update conn.capabilities _ conn.capabilities.clientName
      conn.capabilities.clientVersion false false false false false false false false false
      (hc _)

/-- The `case 1` arm of the stage 1 decoder lets the capabilities only grow. -/
theorem subMTTS_1_case1_le (caps : TelnetCapabilities) (s0 : List Byte) :
    caps.le (subMTTS_1_case1 caps s0) := by
  unfold subMTTS_1_case1
  split_ifs
  · exact TelnetCapabilities.le_of_update caps _ caps.clientName caps.clientVersion
      false false false false false false false false false (ColorType.le_max _ _)
  · exact TelnetCapabilities.le_of_update caps _ caps.clientName caps.clientVersion
      true false false false false false false false false (ColorType.le_max _ _)
  · exact TelnetCapabilities.le_of_update caps _ caps.clientName caps.clientVersion
      true false false false false false false false false (ColorType.le_max _ _)
  · exact TelnetCapabilities.le_refl _

/-- The stage 1 decoder lets the capabilities only grow. -/
theorem subMTTS_1_capabilities_le (h : TelnetOption) (conn : MudTelnet) (U : List Byte) :
    conn.capabilities.le (h.subMTTS_1 conn U).capabilities := by
  unfold TelnetOption.subMTTS_1
  generalize split (fun c => if c = 45 then true else false) (to_upper_copy U) = toks
  match toks with
  | [] => exact TelnetCapabilities.le_refl _
  | [s0] => exact subMTTS_1_case1_le _ _
  | [s0, s1] =>
    refine TelnetCapabilities.le_trans _ _ _ ?_ (subMTTS_1_case1_le _ s0)
    split_ifs
    · exact TelnetCapabilities.le_of_update conn.capabilities _ conn.capabilities.clientName
        conn.capabilities.clientVersion false false false false false false false false false
        (ColorType.le_max _ _)
    · exact TelnetCapabilities.le_of_update conn.capabilities _ conn.capabilities.clientName
        conn.capabilities.clientVersion false false false false false false false false false
        (ColorType.le_max _ _)
    · exact TelnetCapabilities.le_refl _
  | _ :: _ :: _ :: _ => exact TelnetCapabilities.le_refl _

/-- The stage 2 decoder does nothing on a text whose first token is not `MTTS`. -/
theorem subMTTS_2_of_ne (h : TelnetOption) (conn : MudTelnet) (U s0 s1 : List Byte)
    (rest : List (List Byte)) (hsplit : split is_space (to_upper_copy U) = s0 :: s1 :: rest)
    (hs0 : s0 ≠ bytes "MTTS") : h.subMTTS_2 conn U = conn := by
  unfold TelnetOption.subMTTS_2
  rw [hsplit]
  show (if s0 ≠ bytes "MTTS" then conn else _) = _
  rw [if_pos hs0]

/-- The stage 2 decoder does nothing on a text of fewer than two tokens. -/
theorem subMTTS_2_of_short (h : TelnetOption) (conn : MudTelnet) (U : List Byte)
    (hsplit : (split is_space (to_upper_copy U)).length < 2) : h.subMTTS_2 conn U = conn := by
  unfold TelnetOption.subMTTS_2
  generalize split is_space (to_upper_copy U) = toks at hsplit
  match toks, hsplit with
  | [], _ => rfl
  | [_], _ => rfl
  | _ :: _ :: _, hl => exact absurd hl (by simp)

/-- The stage 2 decoder lets the capabilities only grow. -/
theorem subMTTS_2_capabilities_le (h : TelnetOption) (conn : MudTelnet) (U : List Byte) :
    conn.capabilities.le (h.subMTTS_2 conn U).capabilities := by
  cases hs : split is_space (to_upper_copy U) with
  | nil => rw [subMTTS_2_of_short h conn U (by rw [hs]; simp)]; exact TelnetCapabilities.le_refl _
  | cons s0 t =>
    cases t with
    | nil =>
      rw [subMTTS_2_of_short h conn U (by rw [hs]; simp)]
      exact TelnetCapabilities.le_refl _
    | cons s1 rest =>
      by_cases hs0 : s0 = bytes "MTTS"
      · subst hs0
        rw [subMTTS_2_capabilities h conn U s1 rest hs]
        exact TelnetCapabilities.le_of_update conn.capabilities _
          conn.capabilities.clientName conn.capabilities.clientVersion _ _ _ _ _ _ _ _ false
          (Nat.le_trans (ColorType.le_raise _ _ _) (Nat.le_trans (ColorType.le_raise _ _ _)
            (ColorType.le_raise _ _ _)))
      · rw [subMTTS_2_of_ne h conn U s0 s1 rest hs hs0]
        exact TelnetCapabilities.le_refl _

/-- The loop of `handleAppData` touches only the accumulator and the queue. -/
theorem handleAppData_frame (conn : MudTelnet) (msg : TelnetMessage) :
    (conn.handleAppData msg).outDataBuffer = conn.outDataBuffer
      ∧ (conn.handleAppData msg).capabilities = conn.capabilities
      ∧ (conn.handleAppData msg).mttsLast = conn.mttsLast := by
  simp only [MudTelnet.handleAppData]
  generalize msg.data = l
  induction l generalizing conn with
  | nil => exact ⟨rfl, rfl, rfl⟩
  | cons c l ih =>
    rw [List.foldl_cons]
    obtain ⟨h1, h2, h3⟩ := ih (conn.handleAppDataStep c)
    rw [h1, h2, h3]
    simp only [MudTelnet.handleAppDataStep]
    split_ifs <;> exact ⟨rfl, rfl, rfl⟩

/-- The method `subMTTS` lets the capabilities only grow. -/
theorem subMTTS_capabilities_le (h : TelnetOption) (conn : MudTelnet) (msg : TelnetMessage) :
    conn.capabilities.le (h.subMTTS conn msg).1.capabilities := by
  unfold TelnetOption.subMTTS
  match msg.data with
  | [] => exact TelnetCapabilities.le_refl _
  | d0 :: rest =>
    dsimp only
    split_ifs <;> first
      | exact TelnetCapabilities.le_refl _
      | exact subMTTS_0_capabilities_le h conn _
      | exact subMTTS_1_capabilities_le h conn _
      | exact subMTTS_2_capabilities_le h conn _

/-- C15: whatever the session state and whatever the message handled, of any kind, the
color depth afterwards is at least the one before in the order None, Standard, Xterm,
TrueColor, and every boolean capability flag that was true before is still true; the same
holds over any sequence of handled messages. -/
theorem capabilities_grow (conn : MudTelnet) (msg : TelnetMessage)
    (msgs : List TelnetMessage) :
    conn.capabilities.le (conn.handleMessage msg).capabilities
      ∧ conn.capabilities.le (msgs.foldl MudTelnet.handleMessage conn).capabilities := by
  have step : ∀ (c : MudTelnet) (m : TelnetMessage),
      c.capabilities.le (c.handleMessage m).capabilities := by
    intro c m
    simp only [MudTelnet.handleMessage]
    split
    · rw [(handleAppData_frame c m).2.1]
      exact TelnetCapabilities.le_refl _
    · exact TelnetCapabilities.le_refl _
    · simp only [MudTelnet.handleNegotiate]
      split
      · split_ifs <;> exact TelnetCapabilities.le_refl _
      · exact receiveNegotiate_capabilities_le _ _ _
    · simp only [MudTelnet.handleSubnegotiate]
      split
      · exact TelnetCapabilities.le_refl _
      · simp only [TelnetOption.subNegotiate]
        split_ifs
        · exact subMTTS_capabilities_le _ _ _
        · exact TelnetCapabilities.le_refl _
  refine ⟨step conn msg, ?_⟩
  induction msgs generalizing conn with
  | nil => exact TelnetCapabilities.le_refl _
  | cons m ms ih =>
    rw [List.foldl_cons]
    exact TelnetCapabilities.le_trans _ _ _ (step conn m) (ih _)

/-! ## Dropped subnegotiations and the end of the MTTS dialogue -/

/-- C17: in a session whose `handlers` map satisfies its invariant, handling a
Subnegotiation message leaves the whole session state as it is whenever its option byte is
not MTTS (handler or not), or its payload is empty, or its first payload byte is not 0, or
its payload is shorter than 2, or the upper-cased payload after the first byte equals
`mttsLast`. -/
theorem subnegotiation_dropped (conn : MudTelnet) (msg : TelnetMessage)
    (hwf : conn.WellFormed) (hk : msg.msg_type = TelnetMsgType.Subnegotiation)
    (hdrop : msg.codes.1 ≠ codes.MTTS ∨ msg.data = []
      ∨ (∃ d0 rest, msg.data = d0 :: rest ∧ d0 ≠ 0) ∨ msg.data.length < 2
      ∨ to_upper_copy (msg.data.drop 1) = conn.mttsLast) :
    conn.handleMessage msg = conn := by
  obtain ⟨hnd, hcodes⟩ := hwf
  simp only [MudTelnet.handleMessage, hk, MudTelnet.handleSubnegotiate]
  cases hh : handlerAt conn.handlers msg.codes.1 with
  | none => rfl
  | some hand =>
    have hcode : hand.code = msg.codes.1 := hcodes _ (handlerAt_mem _ _ _ hh)
    have hr : hand.subNegotiate conn msg = (conn, hand) := by
      simp only [TelnetOption.subNegotiate, hcode]
      by_cases hm : msg.codes.1 = codes.MTTS
      · rw [if_pos hm]
        unfold TelnetOption.subMTTS
        rcases hdrop with h1 | h2 | h3 | h4 | h5
        · exact absurd hm h1
        · rw [h2]
        · obtain ⟨d0, rest, hd, hd0⟩ := h3
          rw [hd]
          simp only [ne_eq, hd0, not_false_eq_true, if_true]
        · match hdata : msg.data, h4 with
          | [], _ => rfl
          | d0 :: rest, h4 =>
            simp only [h4, if_true, ite_self]
        · match hdata : msg.data, h5 with
          | [], _ => rfl
          | d0 :: rest, h5 =>
            simp only [List.drop_succ_cons, List.drop_zero] at h5
            simp only [h5, if_true, ite_self]
      · rw [if_neg hm]
    simp only [hr]
    rw [handlerStore_self _ _ _ hnd hh]

/-- C17 at a concrete input: on the session right after construction, a GMCP subnegotiation,
and an MTTS subnegotiation whose first payload byte is 1. -/
theorem subnegotiation_dropped_witness :
    (MudTelnet.construct {}).handleMessage (subnegotiation codes.GMCP (bytes "Core.Hello"))
        = MudTelnet.construct {}
      ∧ (MudTelnet.construct {}).handleMessage (subnegotiation codes.MTTS (1 :: bytes "ANSI"))
        = MudTelnet.construct {} :=
  ⟨subnegotiation_dropped _ _ (wellFormed_construct {}) rfl (Or.inl (by decide)),
   subnegotiation_dropped _ _ (wellFormed_construct {}) rfl
    (Or.inr (Or.inr (Or.inl ⟨1, bytes "ANSI", rfl, by decide⟩)))⟩

/-- The stage 1 decoder changes the capabilities only. -/
theorem subMTTS_1_eq (h : TelnetOption) (conn : MudTelnet) (U : List Byte) :
    h.subMTTS_1 conn U = { conn with capabilities := (h.subMTTS_1 conn U).capabilities } := by
  unfold TelnetOption.subMTTS_1
  generalize split (fun c => if c = 45 then true else false) (to_upper_copy U) = toks
  match toks with
  | [] => rfl
  | [_] => rfl
  | [_, _] => rfl
  | _ :: _ :: _ :: _ => rfl

/-- The stage 2 decoder changes the capabilities only. -/
theorem subMTTS_2_eq (h : TelnetOption) (conn : MudTelnet) (U : List Byte) :
    h.subMTTS_2 conn U = { conn with capabilities := (h.subMTTS_2 conn U).capabilities } := by
  unfold TelnetOption.subMTTS_2
  generalize split is_space (to_upper_copy U) = toks
  match toks with
  | [] => rfl
  | [_] => rfl
  | s0 :: s1 :: _ =>
    dsimp only
    by_cases hs0 : s0 ≠ bytes "MTTS"
    · rw [if_pos hs0]
    · rw [if_neg hs0]

/-- The decoder of the current stage changes the capabilities only. -/
theorem subMTTS_stage_frame (h : TelnetOption) (conn : MudTelnet) (U : List Byte) :
    (if h.mtts_count = 0 then h.subMTTS_0 conn U
      else if h.mtts_count = 1 then h.subMTTS_1 conn U
      else if h.mtts_count = 2 then h.subMTTS_2 conn U
      else conn).outDataBuffer = conn.outDataBuffer := by
  split_ifs
  · rfl
  · rw [subMTTS_1_eq]
  · rw [subMTTS_2_eq]
  · rfl

/-- What `subMTTS` does to the counter, to `mttsLast` and to the outbound buffer: the counter
never goes down; from a counter of 1 or more nothing is appended; while the counter stays 0,
`mttsLast` stays; and a response `0x00 r` with `r` not empty and new after upper-casing moves
the counter up by one. -/
theorem subMTTS_facts (h : TelnetOption) (conn : MudTelnet) (msg : TelnetMessage) :
    h.mtts_count ≤ (h.subMTTS conn msg).2.mtts_count
      ∧ (1 ≤ h.mtts_count → (h.subMTTS conn msg).1.outDataBuffer = conn.outDataBuffer)
      ∧ ((h.subMTTS conn msg).2.mtts_count = 0 →
          (h.subMTTS conn msg).1.mttsLast = conn.mttsLast)
      ∧ (∀ r, msg.data = 0 :: r → r ≠ [] → to_upper_copy r ≠ conn.mttsLast →
          (h.subMTTS conn msg).2.mtts_count = h.mtts_count + 1) := by
  unfold TelnetOption.subMTTS
  match hd : msg.data with
  | [] =>
    refine ⟨Nat.le_refl _, fun _ => rfl, fun _ => rfl, ?_⟩
    intro r hr
    exact absurd hr (by simp)
  | d0 :: rest =>
    dsimp only
    by_cases h0 : d0 ≠ 0
    · rw [if_pos h0]
      refine ⟨Nat.le_refl _, fun _ => rfl, fun _ => rfl, ?_⟩
      intro r hr
      simp only [List.cons.injEq] at hr
      exact absurd hr.1 h0
    · rw [if_neg h0]
      by_cases hl : (d0 :: rest).length < 2
      · rw [if_pos hl]
        refine ⟨Nat.le_refl _, fun _ => rfl, fun _ => rfl, ?_⟩
        intro r hr hne
        simp only [List.cons.injEq] at hr
        rw [hr.2] at hl
        cases r with
        | nil => exact absurd rfl hne
        | cons a t => exact absurd hl (by simp)
      · rw [if_neg hl]
        by_cases hU : to_upper_copy rest = conn.mttsLast
        · rw [if_pos hU]
          refine ⟨Nat.le_refl _, fun _ => rfl, fun _ => rfl, ?_⟩
          intro r hr _ hne
          simp only [List.cons.injEq] at hr
          rw [hr.2] at hU
          exact absurd hU hne
        · rw [if_neg hU]
          by_cases hc : h.mtts_count + 1 ≥ 2
          · rw [if_pos hc]
            refine ⟨Nat.le_succ _, fun _ => subMTTS_stage_frame h conn _, ?_, fun _ _ _ _ => rfl⟩
            intro hz
            simp at hz
          · rw [if_neg hc]
            refine ⟨Nat.le_succ _, fun h1 => absurd h1 (by omega), ?_, fun _ _ _ _ => rfl⟩
            intro hz
            simp at hz

/-- Handling an MTTS subnegotiation in a session with an MTTS handler: the session that
`subMTTS` gives, with the handler it gives stored back. -/
theorem handleMessage_sub_mtts (conn : MudTelnet) (h : TelnetOption) (d : List Byte)
    (hh : handlerAt conn.handlers codes.MTTS = some h) (hcode : h.code = codes.MTTS) :
    conn.handleMessage (subnegotiation codes.MTTS d)
      = { (h.subMTTS conn (subnegotiation codes.MTTS d)).1 with
          handlers := handlerStore conn.handlers codes.MTTS
            (h.subMTTS conn (subnegotiation codes.MTTS d)).2 } := by
  have hk := subNegotiate_handlers_code h conn (subnegotiation codes.MTTS d)
  simp only [TelnetOption.subNegotiate, hcode, if_true] at hk
  simp only [MudTelnet.handleMessage, MudTelnet.handleSubnegotiate, subnegotiation, hh,
    TelnetOption.subNegotiate, hcode, if_true]
  simp only [subnegotiation] at hk
  rw [hk.1]

/-- Once a response has been handled, a further MTTS subnegotiation appends nothing, and a
response has still been handled afterwards. -/
theorem mttsStarted_step (conn : MudTelnet) (d : List Byte) (hs : conn.MttsStarted) :
    (conn.handleMessage (subnegotiation codes.MTTS d)).outDataBuffer = conn.outDataBuffer
      ∧ (conn.handleMessage (subnegotiation codes.MTTS d)).MttsStarted := by
  obtain ⟨h, hh, hcode, h1⟩ := hs
  have hf := subMTTS_facts h conn (subnegotiation codes.MTTS d)
  have hk := subNegotiate_handlers_code h conn (subnegotiation codes.MTTS d)
  simp only [TelnetOption.subNegotiate, hcode, if_true] at hk
  rw [handleMessage_sub_mtts conn h d hh hcode]
  refine ⟨hf.2.1 h1, _, handlerAt_handlerStore _ _ _ _ hh, hk.2, ?_⟩
  exact Nat.le_trans h1 hf.1

/-- From a fresh session, an MTTS subnegotiation leaves a fresh session, and a response
`0x00 r` with `r` not empty leaves one in which a response has been handled. -/
theorem mttsFresh_step (conn : MudTelnet) (d : List Byte) (hs : conn.MttsFresh) :
    (conn.handleMessage (subnegotiation codes.MTTS d)).MttsFresh
      ∧ ((∃ r, d = 0 :: r ∧ r ≠ []) →
          (conn.handleMessage (subnegotiation codes.MTTS d)).MttsStarted) := by
  obtain ⟨h, hh, hcode, hI⟩ := hs
  have hf := subMTTS_facts h conn (subnegotiation codes.MTTS d)
  have hk := subNegotiate_handlers_code h conn (subnegotiation codes.MTTS d)
  simp only [TelnetOption.subNegotiate, hcode, if_true] at hk
  rw [handleMessage_sub_mtts conn h d hh hcode]
  refine ⟨⟨_, handlerAt_handlerStore _ _ _ _ hh, hk.2, ?_⟩, ?_⟩
  · intro hz
    have h0 : h.mtts_count = 0 := by omega
    show (h.subMTTS conn (subnegotiation codes.MTTS d)).1.mttsLast = []
    rw [hf.2.2.1 hz]
    exact hI h0
  · rintro ⟨r, hd, hr⟩
    refine ⟨_, handlerAt_handlerStore _ _ _ _ hh, hk.2, ?_⟩
    by_cases h0 : h.mtts_count = 0
    · have hne : to_upper_copy r ≠ conn.mttsLast := by
        rw [hI h0]
        intro hnil
        apply hr
        simpa [to_upper_copy] using hnil
      have := hf.2.2.2 r (by simp [subnegotiation, hd]) hr hne
      omega
    · have := hf.1
      omega

/-- The session right after construction is fresh. -/
theorem mttsFresh_construct (cap : TelnetCapabilities) : (MudTelnet.construct cap).MttsFresh := by
  rw [construct_eq]
  exact ⟨{ code := codes.MTTS, remote := { negotiating := true } }, by dsimp only; decide,
    rfl, fun _ => rfl⟩

/-- Freshness is kept along any sequence of MTTS subnegotiations. -/
theorem mttsFresh_foldl (l : List (List Byte)) (conn : MudTelnet) (hs : conn.MttsFresh) :
    ((l.map (subnegotiation codes.MTTS)).foldl MudTelnet.handleMessage conn).MttsFresh := by
  induction l generalizing conn with
  | nil => exact hs
  | cons d l ih => exact ih _ (mttsFresh_step conn d hs).1

/-- Having handled a response is kept along any sequence of MTTS subnegotiations. -/
theorem mttsStarted_foldl (l : List (List Byte)) (conn : MudTelnet) (hs : conn.MttsStarted) :
    ((l.map (subnegotiation codes.MTTS)).foldl MudTelnet.handleMessage conn).MttsStarted := by
  induction l generalizing conn with
  | nil => exact hs
  | cons d l ih => exact ih _ (mttsStarted_step conn d hs).2

/-- C16: from the session right after construction, along any sequence of MTTS
subnegotiations: once the stage counter is 2 or more, or once a response `0x00 r` with `r`
not empty has come in that equals, after upper-casing, the MTTS subnegotiation right before
it, whatever MTTS subnegotiations follow, handling one more appends no byte to the outbound
buffer. -/
theorem mtts_termination (cap : TelnetCapabilities) (q more : List (List Byte))
    (d : List Byte)
    (hcond : 2 ≤ ((q.map (subnegotiation codes.MTTS)).foldl MudTelnet.handleMessage
          (MudTelnet.construct cap)).mttsCount
      ∨ ∃ p1 x y p2, q = p1 ++ x :: y :: p2 ∧ (∃ r, y = 0 :: r ∧ r ≠ [])
          ∧ to_upper_copy x = to_upper_copy y) :
    ((((q ++ more).map (subnegotiation codes.MTTS)).foldl MudTelnet.handleMessage
        (MudTelnet.construct cap)).handleMessage (subnegotiation codes.MTTS d)).outDataBuffer
      = (((q ++ more).map (subnegotiation codes.MTTS)).foldl MudTelnet.handleMessage
        (MudTelnet.construct cap)).outDataBuffer := by
  have hq : ((q.map (subnegotiation codes.MTTS)).foldl MudTelnet.handleMessage
      (MudTelnet.construct cap)).MttsStarted := by
    rcases hcond with h2 | ⟨p1, x, y, p2, hqe, hy, _⟩
    · obtain ⟨h, hh, hcode, _⟩ := mttsFresh_foldl q _ (mttsFresh_construct cap)
      refine ⟨h, hh, hcode, ?_⟩
      simp only [MudTelnet.mttsCount, hh] at h2
      omega
    · subst hqe
      have hx := mttsFresh_foldl (p1 ++ [x]) _ (mttsFresh_construct cap)
      have hy2 := (mttsFresh_step _ y hx).2 hy
      have := mttsStarted_foldl p2 _ hy2
      simpa [List.foldl_append] using this
  have hall := mttsStarted_foldl more _ hq
  rw [List.map_append, List.foldl_append]
  exact (mttsStarted_step _ d hall).1

/-- C16 at a concrete input: after the responses `"Mudlet"` and `"mudlet"`, and whatever
two more, the response `"XTERM"` appends nothing. -/
theorem mtts_termination_witness :
    (((([0 :: bytes "Mudlet", 0 :: bytes "mudlet"]
          ++ [0 :: bytes "ANSI", bytes "x"]).map (subnegotiation codes.MTTS)).foldl
        MudTelnet.handleMessage (MudTelnet.construct {})).handleMessage
        (subnegotiation codes.MTTS (0 :: bytes "XTERM"))).outDataBuffer
      = ((([0 :: bytes "Mudlet", 0 :: bytes "mudlet"]
          ++ [0 :: bytes "ANSI", bytes "x"]).map (subnegotiation codes.MTTS)).foldl
        MudTelnet.handleMessage (MudTelnet.construct {})).outDataBuffer :=
  mtts_termination {} [0 :: bytes "Mudlet", 0 :: bytes "mudlet"]
    [0 :: bytes "ANSI", bytes "x"] (0 :: bytes "XTERM")
    (Or.inr ⟨[], 0 :: bytes "Mudlet", 0 :: bytes "mudlet", [], rfl,
      ⟨bytes "mudlet", rfl, by decide⟩, by decide⟩)

/-! ## Defects of the parser and of the MTTS dialogue, at their failing inputs -/

/-- C18 (the code at the failing input): on the 6-byte buffer `IAC SB GMCP IAC IAC SE`, where
the `IAC` before `SE` is the second byte of the escape pair `IAC IAC`, parse does not return
0: it returns 6 and yields a Subnegotiation with option GMCP and the one-byte payload
`0xFF`. -/
theorem parse_escaped_IAC_SE_terminates :
    (TelnetMessage.fresh TelnetMsgType.AppData).parse
        [codes.IAC, codes.SB, codes.GMCP, codes.IAC, codes.IAC, codes.SE]
      = some (6, { msg_type := TelnetMsgType.Subnegotiation, data := [255],
                   codes := (codes.GMCP, 0) }) := by
  rw [parse_SB]
  decide

/-- In a session whose MTTS stage counter is 1, a response `0x00 s` with `s` not empty and
new after upper-casing moves the counter to 2 and appends nothing to the outbound buffer. -/
theorem mtts_stage1_no_request (conn : MudTelnet) (h : TelnetOption) (s : List Byte)
    (hh : handlerAt conn.handlers codes.MTTS = some h) (hcode : h.code = codes.MTTS)
    (hcount : h.mtts_count = 1) (hs : s ≠ []) (hU : to_upper_copy s ≠ conn.mttsLast) :
    (conn.handleMessage (subnegotiation codes.MTTS (0 :: s))).outDataBuffer
        = conn.outDataBuffer
      ∧ (conn.handleMessage (subnegotiation codes.MTTS (0 :: s))).mttsCount = 2 := by
  rw [handleMessage_mtts_response conn h s hh hcode hs hU]
  constructor
  · simp [hcount]
  · simp only [MudTelnet.mttsCount]
    rw [handlerAt_handlerStore _ _ _ _ hh]
    simp only [hcount]

/-- C19 (as stated, refuted): after construction, `IAC WILL MTTS` and the stage 0 response
`"Mudlet 4.10"`, the stage counter is 1 and a request has followed stage 0; handling the
stage 1 response `"XTERM-256COLOR"`, valid and new, moves the counter to 2 and appends no
request: the guard of line 316 returns before the `sendSub` of line 317. -/
theorem mtts_no_request_after_stage1 :
    (((MudTelnet.construct {}).handleMessage
        (negotiation codes.WILL codes.MTTS [])).handleMessage
        (subnegotiation codes.MTTS (0 :: bytes "Mudlet 4.10"))).mttsCount = 1
      ∧ (((MudTelnet.construct {}).handleMessage
        (negotiation codes.WILL codes.MTTS [])).handleMessage
        (subnegotiation codes.MTTS (0 :: bytes "Mudlet 4.10"))).outDataBuffer
        = ((MudTelnet.construct {}).handleMessage
            (negotiation codes.WILL codes.MTTS [])).outDataBuffer
          ++ [codes.IAC, codes.SB, codes.MTTS, 1, codes.IAC, codes.SE]
      ∧ ((((MudTelnet.construct {}).handleMessage
        (negotiation codes.WILL codes.MTTS [])).handleMessage
        (subnegotiation codes.MTTS (0 :: bytes "Mudlet 4.10"))).handleMessage
        (subnegotiation codes.MTTS (0 :: bytes "XTERM-256COLOR"))).outDataBuffer
        = (((MudTelnet.construct {}).handleMessage
            (negotiation codes.WILL codes.MTTS [])).handleMessage
            (subnegotiation codes.MTTS (0 :: bytes "Mudlet 4.10"))).outDataBuffer
      ∧ ((((MudTelnet.construct {}).handleMessage
        (negotiation codes.WILL codes.MTTS [])).handleMessage
        (subnegotiation codes.MTTS (0 :: bytes "Mudlet 4.10"))).handleMessage
        (subnegotiation codes.MTTS (0 :: bytes "XTERM-256COLOR"))).mttsCount = 2 := by
  refine ⟨?_, ?_, ?_, ?_⟩ <;> decide

/-- C19 (amended): handling a valid MTTS response whose upper-cased text differs from
`mttsLast` is followed by a request only at stage counter 0. In a session whose MTTS handler
has stage counter 1 (and likewise 2 or more) it appends nothing to the outbound buffer; at
stage counter 0 it appends exactly `IAC SB MTTS 1 IAC SE`. In each case the counter goes up
by one and `mttsLast` becomes the upper-cased text. -/
theorem mtts_request_after_stage0_only (conn : MudTelnet) (h : TelnetOption) (s : List Byte)
    (hh : handlerAt conn.handlers codes.MTTS = some h) (hcode : h.code = codes.MTTS)
    (hs : s ≠ []) (hU : to_upper_copy s ≠ conn.mttsLast) :
    (1 ≤ h.mtts_count →
        (conn.handleMessage (subnegotiation codes.MTTS (0 :: s))).outDataBuffer
          = conn.outDataBuffer)
      ∧ (h.mtts_count = 0 →
        (conn.handleMessage (subnegotiation codes.MTTS (0 :: s))).outDataBuffer
          = conn.outDataBuffer ++ [codes.IAC, codes.SB, codes.MTTS, 1, codes.IAC, codes.SE])
      ∧ (conn.handleMessage (subnegotiation codes.MTTS (0 :: s))).mttsCount
          = h.mtts_count + 1
      ∧ (conn.handleMessage (subnegotiation codes.MTTS (0 :: s))).mttsLast
          = to_upper_copy s := by
  rw [handleMessage_mtts_response conn h s hh hcode hs hU]
  refine ⟨?_, ?_, ?_, rfl⟩
  · intro hc
    have h2 : h.mtts_count + 1 ≥ 2 := Nat.succ_le_succ hc
    simp only [h2, if_true]
  · intro hc
    simp [hc]
  · simp only [MudTelnet.mttsCount]
    rw [handlerAt_handlerStore _ _ _ _ hh]

/-- C19 (amended) along a dialogue: from construction and `IAC WILL MTTS`, the stage 0
response `"Mudlet 4.10"` is followed by a request, the stage 1 response `"ANSI"` and the
stage 2 response `"MTTS 137"` by none. -/
theorem mtts_request_after_stage0_only_witness :
    (((MudTelnet.construct {}).handleMessage
        (negotiation codes.WILL codes.MTTS [])).handleMessage
        (subnegotiation codes.MTTS (0 :: bytes "Mudlet 4.10"))).outDataBuffer
        = ((MudTelnet.construct {}).handleMessage
            (negotiation codes.WILL codes.MTTS [])).outDataBuffer
          ++ [codes.IAC, codes.SB, codes.MTTS, 1, codes.IAC, codes.SE]
      ∧ ((((MudTelnet.construct {}).handleMessage
        (negotiation codes.WILL codes.MTTS [])).handleMessage
        (subnegotiation codes.MTTS (0 :: bytes "Mudlet 4.10"))).handleMessage
        (subnegotiation codes.MTTS (0 :: bytes "ANSI"))).outDataBuffer
        = (((MudTelnet.construct {}).handleMessage
            (negotiation codes.WILL codes.MTTS [])).handleMessage
            (subnegotiation codes.MTTS (0 :: bytes "Mudlet 4.10"))).outDataBuffer
      ∧ (((((MudTelnet.construct {}).handleMessage
        (negotiation codes.WILL codes.MTTS [])).handleMessage
        (subnegotiation codes.MTTS (0 :: bytes "Mudlet 4.10"))).handleMessage
        (subnegotiation codes.MTTS (0 :: bytes "ANSI"))).handleMessage
        (subnegotiation codes.MTTS (0 :: bytes "MTTS 137"))).outDataBuffer
        = ((((MudTelnet.construct {}).handleMessage
            (negotiation codes.WILL codes.MTTS [])).handleMessage
            (subnegotiation codes.MTTS (0 :: bytes "Mudlet 4.10"))).handleMessage
            (subnegotiation codes.MTTS (0 :: bytes "ANSI"))).outDataBuffer :=
  ⟨(mtts_request_after_stage0_only
      ((MudTelnet.construct {}).handleMessage (negotiation codes.WILL codes.MTTS []))
      { code := codes.MTTS,
        remote := { enabled := true, negotiating := false, answered := true } }
      (bytes "Mudlet 4.10") (by decide) rfl (by decide) (by decide)).2.1 rfl,
    (mtts_request_after_stage0_only
      (((MudTelnet.construct {}).handleMessage
        (negotiation codes.WILL codes.MTTS [])).handleMessage
        (subnegotiation codes.MTTS (0 :: bytes "Mudlet 4.10")))
      { code := codes.MTTS,
        remote := { enabled := true, negotiating := false, answered := true },
        mtts_count := 1 }
      (bytes "ANSI") (by decide) rfl (by decide) (by decide)).1 (by decide),
    (mtts_request_after_stage0_only
      ((((MudTelnet.construct {}).handleMessage
        (negotiation codes.WILL codes.MTTS [])).handleMessage
        (subnegotiation codes.MTTS (0 :: bytes "Mudlet 4.10"))).handleMessage
        (subnegotiation codes.MTTS (0 :: bytes "ANSI")))
      { code := codes.MTTS,
        remote := { enabled := true, negotiating := false, answered := true },
        mtts_count := 2 }
      (bytes "MTTS 137") (by decide) rfl (by decide) (by decide)).1 (by decide)⟩

/-! ## Negotiation convergence -/

/-- What `receiveNegotiate` does to the `negotiating` flags: it never sets one, a `DO` or
`DONT` on an option supported locally clears the local one, and a `WILL` or `WONT` on an
option supported remotely clears the remote one. -/
theorem receiveNegotiate_negotiating (h : TelnetOption) (conn : MudTelnet) (c : Byte) :
    ((h.local.negotiating = false → (h.receiveNegotiate conn c).2.local.negotiating = false)
      ∧ (h.remote.negotiating = false →
          (h.receiveNegotiate conn c).2.remote.negotiating = false))
      ∧ (h.supportLocal = true → (c = codes.DO ∨ c = codes.DONT) →
          (h.receiveNegotiate conn c).2.local.negotiating = false)
      ∧ (h.supportRemote = true → (c = codes.WILL ∨ c = codes.WONT) →
          (h.receiveNegotiate conn c).2.remote.negotiating = false) := by
  have e1 : ¬ codes.DO = codes.WILL := by decide
  have e2 : ¬ codes.DONT = codes.WILL := by decide
  have e3 : ¬ codes.DONT = codes.DO := by decide
  have e4 : ¬ codes.DONT = codes.WONT := by decide
  have e5 : ¬ codes.WONT = codes.WILL := by decide
  have e6 : ¬ codes.WONT = codes.DO := by decide
  refine ⟨⟨?_, ?_⟩, ?_, ?_⟩
  · intro hl
    simp only [TelnetOption.receiveNegotiate]
    split_ifs <;> simp_all
  · intro hr
    simp only [TelnetOption.receiveNegotiate]
    split_ifs <;> simp_all
  · intro hs hc
    rcases hc with hc | hc
    · subst hc
      simp only [TelnetOption.receiveNegotiate, e1, if_false, if_true, hs]
      split_ifs <;> simp_all
    · subst hc
      simp only [TelnetOption.receiveNegotiate, e2, e3, e4, if_false, if_true]
      split_ifs <;> simp_all
  · intro hs hc
    rcases hc with hc | hc
    · subst hc
      simp only [TelnetOption.receiveNegotiate, if_true, hs]
      split_ifs <;> simp_all
    · subst hc
      simp only [TelnetOption.receiveNegotiate, e5, e6, if_false, if_true]
      split_ifs <;> simp_all

/-- The method `subNegotiate` leaves both perspectives of the handler as they are. -/
theorem subNegotiate_perspectives (h : TelnetOption) (conn : MudTelnet) (msg : TelnetMessage) :
    (h.subNegotiate conn msg).2.local = h.local
      ∧ (h.subNegotiate conn msg).2.remote = h.remote := by
  unfold TelnetOption.subNegotiate TelnetOption.subMTTS
  by_cases hc : h.code = codes.MTTS
  · rw [if_pos hc]
    match msg.data with
    | [] => exact ⟨rfl, rfl⟩
    | d0 :: rest =>
      dsimp only
      split_ifs <;> exact ⟨rfl, rfl⟩
  · rw [if_neg hc]
    exact ⟨rfl, rfl⟩

/-- Handling any message keeps every handler under its key, with its option code, and sets
no `negotiating` flag; a `DO` or `DONT` for an option supported locally clears the local
flag of its handler, a `WILL` or `WONT` for an option supported remotely the remote one. -/
theorem handleMessage_handler (conn : MudTelnet) (msg : TelnetMessage) (k : Byte)
    (h : TelnetOption) (hh : handlerAt conn.handlers k = some h) :
    ∃ h2, handlerAt (conn.handleMessage msg).handlers k = some h2
      ∧ h2.code = h.code
      ∧ (h.local.negotiating = false → h2.local.negotiating = false)
      ∧ (h.remote.negotiating = false → h2.remote.negotiating = false)
      ∧ (msg.msg_type = TelnetMsgType.Negotiation → msg.codes.2 = k →
          h.supportLocal = true → (msg.codes.1 = codes.DO ∨ msg.codes.1 = codes.DONT) →
          h2.local.negotiating = false)
      ∧ (msg.msg_type = TelnetMsgType.Negotiation → msg.codes.2 = k →
          h.supportRemote = true → (msg.codes.1 = codes.WILL ∨ msg.codes.1 = codes.WONT) →
          h2.remote.negotiating = false) := by
  cases hk : msg.msg_type with
  | AppData =>
    refine ⟨h, ?_, rfl, id, id, fun hne => absurd hne (by simp), fun hne => absurd hne (by simp)⟩
    simp only [MudTelnet.handleMessage, hk, handleAppData_handlers, hh]
  | Command =>
    refine ⟨h, ?_, rfl, id, id, fun hne => absurd hne (by simp), fun hne => absurd hne (by simp)⟩
    simp only [MudTelnet.handleMessage, hk, MudTelnet.handleCommand, hh]
  | Negotiation =>
    simp only [MudTelnet.handleMessage, hk, MudTelnet.handleNegotiate]
    cases hk0 : handlerAt conn.handlers msg.codes.2 with
    | none =>
      have hne : msg.codes.2 ≠ k := by
        intro he
        rw [he, hh] at hk0
        exact absurd hk0 (by simp)
      refine ⟨h, ?_, rfl, id, id, fun _ he => absurd he hne, fun _ he => absurd he hne⟩
      dsimp only
      split_ifs <;> exact hh
    | some hand =>
      have hr := receiveNegotiate_handlers_code hand conn msg.codes.1
      have hn := receiveNegotiate_negotiating hand conn msg.codes.1
      dsimp only
      rw [hr.1]
      by_cases hkk : k = msg.codes.2
      · subst hkk
        rw [hh] at hk0
        simp only [Option.some.injEq] at hk0
        subst hk0
        exact ⟨_, handlerAt_handlerStore _ _ _ _ hh, hr.2, hn.1.1, hn.1.2,
          fun _ _ hs hc => hn.2.1 hs hc, fun _ _ hs hc => hn.2.2 hs hc⟩
      · refine ⟨h, ?_, rfl, id, id, fun _ he => absurd he.symm hkk,
          fun _ he => absurd he.symm hkk⟩
        rw [handlerAt_handlerStore_ne _ _ _ _ hkk]
        exact hh
  | Subnegotiation =>
    simp only [MudTelnet.handleMessage, hk, MudTelnet.handleSubnegotiate]
    cases hk0 : handlerAt conn.handlers msg.codes.1 with
    | none =>
      exact ⟨h, hh, rfl, id, id, fun hne => absurd hne (by simp),
        fun hne => absurd hne (by simp)⟩
    | some hand =>
      have hr := subNegotiate_handlers_code hand conn msg
      have hp := subNegotiate_perspectives hand conn msg
      dsimp only
      rw [hr.1]
      by_cases hkk : k = msg.codes.1
      · subst hkk
        rw [hh] at hk0
        simp only [Option.some.injEq] at hk0
        subst hk0
        refine ⟨_, handlerAt_handlerStore _ _ _ _ hh, hr.2, ?_, ?_,
          fun hne => absurd hne (by simp), fun hne => absurd hne (by simp)⟩
        · rw [hp.1]; exact id
        · rw [hp.2]; exact id
      · refine ⟨h, ?_, rfl, id, id, fun hne => absurd hne (by simp),
          fun hne => absurd hne (by simp)⟩
        rw [handlerAt_handlerStore_ne _ _ _ _ hkk]
        exact hh

set_option linter.unusedTactic false in
/-- What `receiveNegotiate` appends to the outbound buffer: at most one negotiation frame
for the option of the handler, then at most one TTYPE request. -/
theorem receiveNegotiate_out (h : TelnetOption) (conn : MudTelnet) (c : Byte) :
    ∃ neg sub : List Byte,
      (h.receiveNegotiate conn c).1.outDataBuffer = conn.outDataBuffer ++ neg ++ sub
      ∧ (neg = [] ∨ ∃ c2, (c2 = codes.WILL ∨ c2 = codes.WONT ∨ c2 = codes.DO ∨ c2 = codes.DONT)
          ∧ neg = [codes.IAC, c2, h.code])
      ∧ (sub = [] ∨ sub = [codes.IAC, codes.SB, codes.MTTS, 1, codes.IAC, codes.SE]) := by
  simp only [TelnetOption.receiveNegotiate, TelnetOption.enableRemote,
    TelnetOption.enableLocal, TelnetOption.disableLocal, TelnetOption.disableRemote,
    TelnetOption.opCode, MudTelnet.sendNegotiate, MudTelnet.sendSub, MudTelnet.sendMessage,
    TelnetMessage.toString]
  split_ifs <;> first
    | (refine ⟨[], [], ?_, Or.inl rfl, Or.inl rfl⟩; simp; done)
    | (refine ⟨[], [codes.IAC, codes.SB, codes.MTTS, 1, codes.IAC, codes.SE], ?_,
        Or.inl rfl, Or.inr rfl⟩; simp_all; done)
    | (refine ⟨[codes.IAC, codes.DO, h.code],
        [codes.IAC, codes.SB, codes.MTTS, 1, codes.IAC, codes.SE], ?_,
        Or.inr ⟨codes.DO, Or.inr (Or.inr (Or.inl rfl)), rfl⟩, Or.inr rfl⟩; simp_all; done)
    | (refine ⟨[codes.IAC, codes.DO, h.code], [], ?_,
        Or.inr ⟨codes.DO, Or.inr (Or.inr (Or.inl rfl)), rfl⟩, Or.inl rfl⟩; simp; done)
    | (refine ⟨[codes.IAC, codes.DONT, h.code], [], ?_,
        Or.inr ⟨codes.DONT, Or.inr (Or.inr (Or.inr rfl)), rfl⟩, Or.inl rfl⟩; simp; done)
    | (refine ⟨[codes.IAC, codes.WILL, h.code], [], ?_,
        Or.inr ⟨codes.WILL, Or.inl rfl, rfl⟩, Or.inl rfl⟩; simp; done)
    | (refine ⟨[codes.IAC, codes.WONT, h.code], [], ?_,
        Or.inr ⟨codes.WONT, Or.inr (Or.inl rfl), rfl⟩, Or.inl rfl⟩; simp; done)

/-- Each handled negotiation command appends at most one negotiation frame, for the option
of the command, and after it at most one TTYPE request. -/
theorem handleNegotiate_out (conn : MudTelnet) (c o : Byte) (d : List Byte)
    (hwf : conn.WellFormed) :
    ∃ neg sub : List Byte,
      (conn.handleMessage (negotiation c o d)).outDataBuffer
        = conn.outDataBuffer ++ neg ++ sub
      ∧ (neg = [] ∨ ∃ c2, (c2 = codes.WILL ∨ c2 = codes.WONT ∨ c2 = codes.DO ∨ c2 = codes.DONT)
          ∧ neg = [codes.IAC, c2, o])
      ∧ (sub = [] ∨ sub = [codes.IAC, codes.SB, codes.MTTS, 1, codes.IAC, codes.SE]) := by
  simp only [MudTelnet.handleMessage, negotiation, MudTelnet.handleNegotiate]
  cases hh : handlerAt conn.handlers o with
  | none =>
    dsimp only
    split_ifs
    · exact ⟨[codes.IAC, codes.DONT, o], [],
        by simp [MudTelnet.sendNegotiate, MudTelnet.sendMessage, TelnetMessage.toString],
        Or.inr ⟨codes.DONT, Or.inr (Or.inr (Or.inr rfl)), rfl⟩, Or.inl rfl⟩
    · exact ⟨[codes.IAC, codes.WONT, o], [],
        by simp [MudTelnet.sendNegotiate, MudTelnet.sendMessage, TelnetMessage.toString],
        Or.inr ⟨codes.WONT, Or.inr (Or.inl rfl), rfl⟩, Or.inl rfl⟩
    · exact ⟨[], [], by simp, Or.inl rfl, Or.inl rfl⟩
  | some hand =>
    have hcode : hand.code = o := hwf.2 _ (handlerAt_mem _ _ _ hh)
    obtain ⟨neg, sub, h1, h2, h3⟩ := receiveNegotiate_out hand conn c
    rw [hcode] at h2
    exact ⟨neg, sub, h1, h2, h3⟩

/-- Right after construction each of the six options has its handler under its code; the
perspective that the server did not initiate is not negotiating. -/
theorem construct_handler (cap : TelnetCapabilities) (o : Byte)
    (ho : o ∈ [codes.SGA, codes.MSSP, codes.MSDP, codes.GMCP, codes.NAWS, codes.MTTS]) :
    ∃ h, handlerAt (MudTelnet.construct cap).handlers o = some h ∧ h.code = o
      ∧ (o ∈ [codes.SGA, codes.MSSP, codes.MSDP, codes.GMCP] → h.remote.negotiating = false)
      ∧ (o ∈ [codes.NAWS, codes.MTTS] → h.local.negotiating = false) := by
  rw [construct_eq]
  dsimp only
  simp only [List.mem_cons, List.mem_singleton, List.not_mem_nil, or_false] at ho
  rcases ho with ho | ho | ho | ho | ho | ho <;> subst ho
  · exact ⟨{ code := codes.SGA, «local» := { negotiating := true } }, by decide, rfl,
      fun _ => rfl, fun hm => absurd hm (by decide)⟩
  · exact ⟨{ code := codes.MSSP, «local» := { negotiating := true } }, by decide, rfl,
      fun _ => rfl, fun hm => absurd hm (by decide)⟩
  · exact ⟨{ code := codes.MSDP, «local» := { negotiating := true } }, by decide, rfl,
      fun _ => rfl, fun hm => absurd hm (by decide)⟩
  · exact ⟨{ code := codes.GMCP, «local» := { negotiating := true } }, by decide, rfl,
      fun _ => rfl, fun hm => absurd hm (by decide)⟩
  · exact ⟨{ code := codes.NAWS, remote := { negotiating := true } }, by decide, rfl,
      fun hm => absurd hm (by decide), fun _ => rfl⟩
  · exact ⟨{ code := codes.MTTS, remote := { negotiating := true } }, by decide, rfl,
      fun hm => absurd hm (by decide), fun _ => rfl⟩

/-- C20: from the session right after construction, for each of the six options `o` and any
sequence of handled messages that holds at least one negotiation command on the perspective
the server initiated for `o` (`DO` or `DONT` for SGA, MSSP, MSDP, GMCP; `WILL` or `WONT` for
NAWS, MTTS), both perspectives of `o` end with `negotiating = false`; no handled message sets
a `negotiating` flag that was clear; and each negotiation command appends at most one
negotiation frame `IAC WILL/WONT/DO/DONT o`, with at most one TTYPE request after it. -/
theorem negotiation_convergence (cap : TelnetCapabilities) (o : Byte)
    (msgs : List TelnetMessage)
    (ho : o ∈ [codes.SGA, codes.MSSP, codes.MSDP, codes.GMCP, codes.NAWS, codes.MTTS])
    (hex : ∃ m ∈ msgs, m.msg_type = TelnetMsgType.Negotiation ∧ m.codes.2 = o
      ∧ ((o ∈ [codes.SGA, codes.MSSP, codes.MSDP, codes.GMCP]
            ∧ (m.codes.1 = codes.DO ∨ m.codes.1 = codes.DONT))
        ∨ (o ∈ [codes.NAWS, codes.MTTS]
            ∧ (m.codes.1 = codes.WILL ∨ m.codes.1 = codes.WONT)))) :
    (∃ h, handlerAt (msgs.foldl MudTelnet.handleMessage (MudTelnet.construct cap)).handlers o
          = some h
        ∧ h.local.negotiating = false ∧ h.remote.negotiating = false)
      ∧ (∀ (conn : MudTelnet) (msg : TelnetMessage) (k : Byte) (h : TelnetOption),
          handlerAt conn.handlers k = some h →
          ∃ h2, handlerAt (conn.handleMessage msg).handlers k = some h2
            ∧ (h.local.negotiating = false → h2.local.negotiating = false)
            ∧ (h.remote.negotiating = false → h2.remote.negotiating = false))
      ∧ (∀ (conn : MudTelnet) (c k : Byte) (d : List Byte), conn.WellFormed →
          ∃ neg sub : List Byte,
            (conn.handleMessage (negotiation c k d)).outDataBuffer
              = conn.outDataBuffer ++ neg ++ sub
            ∧ (neg = [] ∨ ∃ c2,
                (c2 = codes.WILL ∨ c2 = codes.WONT ∨ c2 = codes.DO ∨ c2 = codes.DONT)
                ∧ neg = [codes.IAC, c2, k])
            ∧ (sub = [] ∨ sub = [codes.IAC, codes.SB, codes.MTTS, 1, codes.IAC, codes.SE])) := by
  refine ⟨?_, ?_, fun conn c k d hwf => handleNegotiate_out conn c k d hwf⟩
  · -- both flags clear once they are, whatever follows
    have hB : ∀ (l : List TelnetMessage) (s : MudTelnet),
        (∃ h, handlerAt s.handlers o = some h ∧ h.code = o
          ∧ h.local.negotiating = false ∧ h.remote.negotiating = false) →
        ∃ h, handlerAt (l.foldl MudTelnet.handleMessage s).handlers o = some h ∧ h.code = o
          ∧ h.local.negotiating = false ∧ h.remote.negotiating = false := by
      intro l
      induction l with
      | nil => exact fun s hs => hs
      | cons m l ih =>
        intro s hs
        obtain ⟨h, hh, hcode, hl, hr⟩ := hs
        obtain ⟨h2, hh2, hc2, hl2, hr2, _, _⟩ := handleMessage_handler s m o h hh
        exact ih _ ⟨h2, hh2, hc2.trans hcode, hl2 hl, hr2 hr⟩
    have hA : ∀ (l : List TelnetMessage) (s : MudTelnet),
        (∃ h, handlerAt s.handlers o = some h ∧ h.code = o
          ∧ (o ∈ [codes.SGA, codes.MSSP, codes.MSDP, codes.GMCP] →
              h.remote.negotiating = false)
          ∧ (o ∈ [codes.NAWS, codes.MTTS] → h.local.negotiating = false)) →
        (∃ m ∈ l, m.msg_type = TelnetMsgType.Negotiation ∧ m.codes.2 = o
          ∧ ((o ∈ [codes.SGA, codes.MSSP, codes.MSDP, codes.GMCP]
                ∧ (m.codes.1 = codes.DO ∨ m.codes.1 = codes.DONT))
            ∨ (o ∈ [codes.NAWS, codes.MTTS]
                ∧ (m.codes.1 = codes.WILL ∨ m.codes.1 = codes.WONT)))) →
        ∃ h, handlerAt (l.foldl MudTelnet.handleMessage s).handlers o = some h ∧ h.code = o
          ∧ h.local.negotiating = false ∧ h.remote.negotiating = false := by
      intro l
      induction l with
      | nil =>
        intro s _ hm
        obtain ⟨m, hmem, _⟩ := hm
        exact absurd hmem (List.not_mem_nil m)
      | cons m l ih =>
        intro s hs hm
        obtain ⟨h, hh, hcode, hrem, hloc⟩ := hs
        obtain ⟨h2, hh2, hc2, hl2, hr2, hdo, hwill⟩ := handleMessage_handler s m o h hh
        obtain ⟨m2, hmem, hkind, hopt, hcmd⟩ := hm
        rw [List.foldl_cons]
        rcases List.mem_cons.mp hmem with hm2 | hm2
        · subst hm2
          apply hB
          rcases hcmd with ⟨hset, hc⟩ | ⟨hset, hc⟩
          · have hsup : h.supportLocal = true := by
              simp only [TelnetOption.supportLocal, hcode]
              simp only [List.mem_cons, List.mem_singleton, List.not_mem_nil, or_false] at hset
              rcases hset with e | e | e | e <;> subst e <;> decide
            exact ⟨h2, hh2, hc2.trans hcode, hdo hkind hopt hsup hc, hr2 (hrem hset)⟩
          · have hsup : h.supportRemote = true := by
              simp only [TelnetOption.supportRemote, hcode]
              simp only [List.mem_cons, List.mem_singleton, List.not_mem_nil, or_false] at hset
              rcases hset with e | e <;> subst e <;> decide
            exact ⟨h2, hh2, hc2.trans hcode, hl2 (hloc hset), hwill hkind hopt hsup hc⟩
        · exact ih _ ⟨h2, hh2, hc2.trans hcode, fun hset => hr2 (hrem hset),
            fun hset => hl2 (hloc hset)⟩ ⟨m2, hm2, hkind, hopt, hcmd⟩
    obtain ⟨h, hh, _, hl, hr⟩ := hA msgs _ (construct_handler cap o ho) hex
    exact ⟨h, hh, hl, hr⟩
  · intro conn msg k h hh
    obtain ⟨h2, hh2, _, hl2, hr2, _, _⟩ := handleMessage_handler conn msg k h hh
    exact ⟨h2, hh2, hl2, hr2⟩

/-- C20 at a concrete input: after construction, the commands `IAC WILL 99`, `IAC DO SGA`,
`IAC DO SGA` leave both perspectives of SGA with `negotiating = false`. -/
theorem negotiation_convergence_witness :
    ∃ h, handlerAt ([negotiation codes.WILL 99 [], negotiation codes.DO codes.SGA [],
            negotiation codes.DO codes.SGA []].foldl MudTelnet.handleMessage
          (MudTelnet.construct {})).handlers codes.SGA = some h
      ∧ h.local.negotiating = false ∧ h.remote.negotiating = false :=
  (negotiation_convergence {} codes.SGA
    [negotiation codes.WILL 99 [], negotiation codes.DO codes.SGA [],
      negotiation codes.DO codes.SGA []]
    (by decide)
    ⟨negotiation codes.DO codes.SGA [], by decide, rfl, rfl,
      Or.inl ⟨by decide, Or.inl rfl⟩⟩).1

/-! ## The accumulator never holds a line feed -/

/-- The method `receiveNegotiate` leaves the accumulator as it is. -/
theorem receiveNegotiate_appDataBuffer (h : TelnetOption) (conn : MudTelnet) (c : Byte) :
    (h.receiveNegotiate conn c).1.appDataBuffer = conn.appDataBuffer := by
  simp only [TelnetOption.receiveNegotiate, TelnetOption.enableRemote,
    TelnetOption.enableLocal, TelnetOption.disableLocal, TelnetOption.disableRemote,
    MudTelnet.sendNegotiate, MudTelnet.sendSub, MudTelnet.sendMessage]
  split_ifs <;> rfl

/-- The method `subNegotiate` leaves the accumulator as it is. -/
theorem subNegotiate_appDataBuffer (h : TelnetOption) (conn : MudTelnet)
    (msg : TelnetMessage) :
    (h.subNegotiate conn msg).1.appDataBuffer = conn.appDataBuffer := by
  unfold TelnetOption.subNegotiate TelnetOption.subMTTS
  by_cases hc : h.code = codes.MTTS
  · rw [if_pos hc]
    match msg.data with
    | [] => rfl
    | d0 :: rest =>
      dsimp only
      split_ifs <;> first
        | rfl
        | (simp only [MudTelnet.sendSub, MudTelnet.sendMessage]; rw [subMTTS_1_eq])
        | (simp only [MudTelnet.sendSub, MudTelnet.sendMessage]; rw [subMTTS_2_eq])
  · rw [if_neg hc]

/-- The accumulator of the session right after construction is empty, and handling a
message keeps the accumulator free of line feeds. -/
theorem appDataBuffer_no_LF (cap : TelnetCapabilities) (conn : MudTelnet)
    (msg : TelnetMessage) :
    codes.LF ∉ (MudTelnet.construct cap).appDataBuffer
      ∧ (codes.LF ∉ conn.appDataBuffer → codes.LF ∉ (conn.handleMessage msg).appDataBuffer) := by
  constructor
  · rw [construct_eq]
    exact List.not_mem_nil _
  · intro hLF
    simp only [MudTelnet.handleMessage]
    split
    · simp only [MudTelnet.handleAppData]
      generalize msg.data = l
      induction l generalizing conn with
      | nil => exact hLF
      | cons c l ih =>
        rw [List.foldl_cons]
        apply ih
        simp only [MudTelnet.handleAppDataStep]
        split_ifs with h1 h2
        · exact List.not_mem_nil _
        · exact hLF
        · simp only [List.mem_append, List.mem_singleton, not_or]
          exact ⟨hLF, fun he => h1 he.symm⟩
    · exact hLF
    · simp only [MudTelnet.handleNegotiate]
      split
      · split_ifs <;> exact hLF
      · dsimp only
        rw [receiveNegotiate_appDataBuffer]
        exact hLF
    · simp only [MudTelnet.handleSubnegotiate]
      split
      · exact hLF
      · dsimp only
        rw [subNegotiate_appDataBuffer]
        exact hLF

/-! ## The `enabled` flags after a refusal -/

/-- On `WONT` and on `DONT` the method `receiveNegotiate` leaves both `enabled` flags as they
are: the hooks `disableRemote` and `disableLocal` are empty and nothing clears the flags. -/
theorem receiveNegotiate_refusal_enabled (h : TelnetOption) (conn : MudTelnet) (c : Byte)
    (hc : c = codes.WONT ∨ c = codes.DONT) :
    (h.receiveNegotiate conn c).2.remote.enabled = h.remote.enabled
      ∧ (h.receiveNegotiate conn c).2.local.enabled = h.local.enabled := by
  have e1 : ¬ codes.WONT = codes.WILL := by decide
  have e2 : ¬ codes.WONT = codes.DO := by decide
  have e3 : ¬ codes.DONT = codes.WILL := by decide
  have e4 : ¬ codes.DONT = codes.DO := by decide
  have e5 : ¬ codes.DONT = codes.WONT := by decide
  rcases hc with hc | hc
  · subst hc
    simp only [TelnetOption.receiveNegotiate, e1, e2, if_false, if_true]
    split_ifs <;> exact ⟨rfl, rfl⟩
  · subst hc
    simp only [TelnetOption.receiveNegotiate, e3, e4, e5, if_false, if_true]
    split_ifs <;> exact ⟨rfl, rfl⟩

/-- Handling `IAC WONT o` or `IAC DONT o` for an option with a handler leaves both `enabled`
flags of that handler as they were. -/
theorem handleMessage_refusal_enabled (conn : MudTelnet) (o c : Byte) (d : List Byte)
    (h : TelnetOption) (hh : handlerAt conn.handlers o = some h)
    (hc : c = codes.WONT ∨ c = codes.DONT) :
    ∃ h2, handlerAt (conn.handleMessage (negotiation c o d)).handlers o = some h2
      ∧ h2.remote.enabled = h.remote.enabled ∧ h2.local.enabled = h.local.enabled := by
  have hr := receiveNegotiate_handlers_code h conn c
  have he := receiveNegotiate_refusal_enabled h conn c hc
  simp only [MudTelnet.handleMessage, negotiation, MudTelnet.handleNegotiate, hh]
  rw [hr.1]
  exact ⟨_, handlerAt_handlerStore _ _ _ _ hh, he.1, he.2⟩

/-- C21 (the code at the failing input): after construction, `IAC WILL NAWS` and then
`IAC WONT NAWS`, the remote perspective of NAWS still has `enabled = true`; after
construction, `IAC DO SGA` and then `IAC DONT SGA`, the local perspective of SGA still has
`enabled = true`. -/
theorem refusal_leaves_enabled :
    (∃ h, handlerAt (((MudTelnet.construct {}).handleMessage
            (negotiation codes.WILL codes.NAWS [])).handleMessage
            (negotiation codes.WONT codes.NAWS [])).handlers codes.NAWS = some h
          ∧ h.remote.enabled = true)
      ∧ (∃ h, handlerAt (((MudTelnet.construct {}).handleMessage
            (negotiation codes.DO codes.SGA [])).handleMessage
            (negotiation codes.DONT codes.SGA [])).handlers codes.SGA = some h
          ∧ h.local.enabled = true) := by
  constructor
  · exact ⟨{ code := codes.NAWS,
             remote := { enabled := true, negotiating := false, answered := true } },
      by decide, rfl⟩
  · exact ⟨{ code := codes.SGA,
             «local» := { enabled := true, negotiating := false, answered := true } },
      by decide, rfl⟩

/-! ## MTTS stage 1: the terminal dialect -/

/-- The larger of two color depths is at least the second. -/
theorem ColorType.le_max_right (a b : ColorType) : b.toNat ≤ (ColorType.max a b).toNat := by
  cases a <;> cases b <;> decide

/-- A color depth of at least `TrueColor` is `TrueColor`. -/
theorem ColorType.eq_trueColor_of_le (c : ColorType)
    (h : ColorType.TrueColor.toNat ≤ c.toNat) : c = ColorType.TrueColor := by
  cases c
  · exact absurd h (by decide)
  · exact absurd h (by decide)
  · exact absurd h (by decide)
  · rfl

/-- What the `case 1` arm guarantees for each of the three known first tokens. -/
theorem subMTTS_1_case1_first (caps : TelnetCapabilities) (t0 : List Byte) :
    (t0 = bytes "ANSI" →
        ColorType.StandardColor.toNat ≤ (subMTTS_1_case1 caps t0).colorType.toNat)
      ∧ (t0 = bytes "VT100" →
        ColorType.StandardColor.toNat ≤ (subMTTS_1_case1 caps t0).colorType.toNat
          ∧ (subMTTS_1_case1 caps t0).vt100 = true)
      ∧ (t0 = bytes "XTERM" →
        ColorType.XtermColor.toNat ≤ (subMTTS_1_case1 caps t0).colorType.toNat
          ∧ (subMTTS_1_case1 caps t0).vt100 = true) := by
  have e1 : ¬ bytes "VT100" = bytes "ANSI" := by decide
  have e2 : ¬ bytes "XTERM" = bytes "ANSI" := by decide
  have e3 : ¬ bytes "XTERM" = bytes "VT100" := by decide
  refine ⟨?_, ?_, ?_⟩
  · intro ht
    subst ht
    simp only [subMTTS_1_case1, if_true]
    exact ColorType.le_max_right _ _
  · intro ht
    subst ht
    simp only [subMTTS_1_case1, e1, if_false, if_true]
    exact ⟨ColorType.le_max_right _ _, trivial⟩
  · intro ht
    subst ht
    simp only [subMTTS_1_case1, e2, e3, if_false, if_true]
    exact ⟨ColorType.le_max_right _ _, trivial⟩

/-- Stage 1 on a text of exactly one token runs the `case 1` arm on it. -/
theorem subMTTS_1_one (h : TelnetOption) (conn : MudTelnet) (U t0 : List Byte)
    (hsplit : split (fun c => if c = 45 then true else false) (to_upper_copy U) = [t0]) :
    (h.subMTTS_1 conn U).capabilities = subMTTS_1_case1 conn.capabilities t0 := by
  unfold TelnetOption.subMTTS_1
  rw [hsplit]

/-- Stage 1 on a text of exactly two tokens runs the `case 2` arm on the second token and
then the `case 1` arm on the first. -/
theorem subMTTS_1_two (h : TelnetOption) (conn : MudTelnet) (U t0 t1 : List Byte)
    (hsplit : split (fun c => if c = 45 then true else false) (to_upper_copy U) = [t0, t1]) :
    (h.subMTTS_1 conn U).capabilities
      = subMTTS_1_case1
          (if t1 = bytes "256COLOR" then
            { conn.capabilities with
              colorType := ColorType.max conn.capabilities.colorType ColorType.XtermColor }
          else if t1 = bytes "TRUECOLOR" then
            { conn.capabilities with
              colorType := ColorType.max conn.capabilities.colorType ColorType.TrueColor }
          else conn.capabilities) t0 := by
  unfold TelnetOption.subMTTS_1
  rw [hsplit]

/-- Stage 1 on a text of three or more tokens does nothing: the switch has no arm for it. -/
theorem subMTTS_1_many (h : TelnetOption) (conn : MudTelnet) (U : List Byte)
    (hlen : 3 ≤ (split (fun c => if c = 45 then true else false) (to_upper_copy U)).length) :
    h.subMTTS_1 conn U = conn := by
  unfold TelnetOption.subMTTS_1
  revert hlen
  generalize split (fun c => if c = 45 then true else false) (to_upper_copy U) = toks
  intro hlen
  match toks, hlen with
  | [], hl => exact absurd hl (by simp)
  | [_], hl => exact absurd hl (by simp)
  | [_, _], hl => exact absurd hl (by simp)
  | _ :: _ :: _ :: _, _ => rfl

/-- C22 (as stated, refuted): in the session reached from construction by the MTTS response
`"FOO"`, the stage counter is 1 and the color depth is `StandardColor`; the response
`"SCREEN-256COLOR-BCE"` splits on `'-'` into three tokens, the second of them `256COLOR`, and
handling it leaves the color depth at `StandardColor`, below `XtermColor`. -/
theorem mtts_stage1_three_tokens :
    ((MudTelnet.construct {}).handleMessage
        (subnegotiation codes.MTTS (0 :: bytes "FOO"))).mttsCount = 1
      ∧ to_upper_copy (bytes "SCREEN-256COLOR-BCE")
          ≠ ((MudTelnet.construct {}).handleMessage
              (subnegotiation codes.MTTS (0 :: bytes "FOO"))).mttsLast
      ∧ split (fun c => if c = 45 then true else false)
          (to_upper_copy (bytes "SCREEN-256COLOR-BCE"))
          = [bytes "SCREEN", bytes "256COLOR", bytes "BCE"]
      ∧ (((MudTelnet.construct {}).handleMessage
            (subnegotiation codes.MTTS (0 :: bytes "FOO"))).handleMessage
            (subnegotiation codes.MTTS (0 :: bytes "SCREEN-256COLOR-BCE"))).capabilities.colorType
          = ColorType.StandardColor
      ∧ ¬ (ColorType.XtermColor.toNat
            ≤ (((MudTelnet.construct {}).handleMessage
                (subnegotiation codes.MTTS (0 :: bytes "FOO"))).handleMessage
                (subnegotiation codes.MTTS
                  (0 :: bytes "SCREEN-256COLOR-BCE"))).capabilities.colorType.toNat) := by
  refine ⟨by decide, by decide, by decide, by decide, by decide⟩

/-- C22 (amended): in a session whose MTTS handler has stage counter 1, handling a valid MTTS
response whose upper-cased text differs from `mttsLast`: when the text splits on `'-'` into
exactly one or exactly two tokens, a first token `ANSI` gives a color depth of at least
`StandardColor`, `VT100` gives at least `StandardColor` and `vt100 = true`, `XTERM` gives at
least `XtermColor` and `vt100 = true`; with exactly two tokens, a second token `256COLOR`
gives at least `XtermColor` and `TRUECOLOR` gives exactly `TrueColor`; with three or more
tokens the capabilities are unchanged. -/
theorem mtts_stage1 (conn : MudTelnet) (h : TelnetOption) (s : List Byte)
    (hh : handlerAt conn.handlers codes.MTTS = some h) (hcode : h.code = codes.MTTS)
    (hcount : h.mtts_count = 1) (hs : s ≠ []) (hU : to_upper_copy s ≠ conn.mttsLast) :
    (∀ t0 : List Byte,
        (split (fun c => if c = 45 then true else false) (to_upper_copy s) = [t0]
          ∨ ∃ t1, split (fun c => if c = 45 then true else false) (to_upper_copy s)
              = [t0, t1]) →
        (t0 = bytes "ANSI" →
          ColorType.StandardColor.toNat
            ≤ (conn.handleMessage
                (subnegotiation codes.MTTS (0 :: s))).capabilities.colorType.toNat)
        ∧ (t0 = bytes "VT100" →
          ColorType.StandardColor.toNat
            ≤ (conn.handleMessage
                (subnegotiation codes.MTTS (0 :: s))).capabilities.colorType.toNat
          ∧ (conn.handleMessage (subnegotiation codes.MTTS (0 :: s))).capabilities.vt100
              = true)
        ∧ (t0 = bytes "XTERM" →
          ColorType.XtermColor.toNat
            ≤ (conn.handleMessage
                (subnegotiation codes.MTTS (0 :: s))).capabilities.colorType.toNat
          ∧ (conn.handleMessage (subnegotiation codes.MTTS (0 :: s))).capabilities.vt100
              = true))
      ∧ (∀ t0 t1 : List Byte,
        split (fun c => if c = 45 then true else false) (to_upper_copy s) = [t0, t1] →
        (t1 = bytes "256COLOR" →
          ColorType.XtermColor.toNat
            ≤ (conn.handleMessage
                (subnegotiation codes.MTTS (0 :: s))).capabilities.colorType.toNat)
        ∧ (t1 = bytes "TRUECOLOR" →
          (conn.handleMessage (subnegotiation codes.MTTS (0 :: s))).capabilities.colorType
            = ColorType.TrueColor))
      ∧ (3 ≤ (split (fun c => if c = 45 then true else false) (to_upper_copy s)).length →
        (conn.handleMessage (subnegotiation codes.MTTS (0 :: s))).capabilities
          = conn.capabilities) := by
  have hcaps : (conn.handleMessage (subnegotiation codes.MTTS (0 :: s))).capabilities
      = (h.subMTTS_1 conn (to_upper_copy s)).capabilities := by
    rw [handleMessage_mtts_response conn h s hh hcode hs hU, hcount]
    rfl
  rw [hcaps]
  have hidem : to_upper_copy (to_upper_copy s) = to_upper_copy s := to_upper_copy_idem s
  have e1 : ¬ bytes "TRUECOLOR" = bytes "256COLOR" := by decide
  refine ⟨?_, ?_, ?_⟩
  · intro t0 ht
    rcases ht with ht | ⟨t1, ht⟩
    · rw [subMTTS_1_one h conn (to_upper_copy s) t0 (by rw [hidem]; exact ht)]
      exact subMTTS_1_case1_first _ t0
    · rw [subMTTS_1_two h conn (to_upper_copy s) t0 t1 (by rw [hidem]; exact ht)]
      exact subMTTS_1_case1_first _ t0
  · intro t0 t1 ht
    rw [subMTTS_1_two h conn (to_upper_copy s) t0 t1 (by rw [hidem]; exact ht)]
    constructor
    · intro h1
      subst h1
      rw [if_pos rfl]
      refine Nat.le_trans ?_ (subMTTS_1_case1_le _ t0).1
      exact ColorType.le_max_right conn.capabilities.colorType _
    · intro h1
      subst h1
      rw [if_neg e1, if_pos rfl]
      apply ColorType.eq_trueColor_of_le
      refine Nat.le_trans ?_ (subMTTS_1_case1_le _ t0).1
      exact ColorType.le_max_right conn.capabilities.colorType _
  · intro hlen
    rw [subMTTS_1_many h conn (to_upper_copy s) (by rw [hidem]; exact hlen)]

/-- C22 (amended) at concrete inputs: in the session reached from construction by the MTTS
response `"FOO"`, the response `"XTERM-256COLOR"` ends with a color depth of at least
`XtermColor` and `vt100 = true`, and the response `"SCREEN-256COLOR-BCE"` leaves the
capabilities as they were. -/
theorem mtts_stage1_witness :
    (ColorType.XtermColor.toNat
        ≤ (((MudTelnet.construct {}).handleMessage
            (subnegotiation codes.MTTS (0 :: bytes "FOO"))).handleMessage
            (subnegotiation codes.MTTS (0 :: bytes "XTERM-256COLOR"))).capabilities.colorType.toNat
      ∧ (((MudTelnet.construct {}).handleMessage
            (subnegotiation codes.MTTS (0 :: bytes "FOO"))).handleMessage
            (subnegotiation codes.MTTS (0 :: bytes "XTERM-256COLOR"))).capabilities.vt100
          = true)
      ∧ (((MudTelnet.construct {}).handleMessage
            (subnegotiation codes.MTTS (0 :: bytes "FOO"))).handleMessage
            (subnegotiation codes.MTTS (0 :: bytes "SCREEN-256COLOR-BCE"))).capabilities
          = ((MudTelnet.construct {}).handleMessage
              (subnegotiation codes.MTTS (0 :: bytes "FOO"))).capabilities := by
  have h1 := mtts_stage1
    ((MudTelnet.construct {}).handleMessage (subnegotiation codes.MTTS (0 :: bytes "FOO")))
    { code := codes.MTTS, remote := { negotiating := true }, mtts_count := 1 }
    (bytes "XTERM-256COLOR") (by decide) rfl rfl (by decide) (by decide)
  have h2 := mtts_stage1
    ((MudTelnet.construct {}).handleMessage (subnegotiation codes.MTTS (0 :: bytes "FOO")))
    { code := codes.MTTS, remote := { negotiating := true }, mtts_count := 1 }
    (bytes "SCREEN-256COLOR-BCE") (by decide) rfl rfl (by decide) (by decide)
  exact ⟨(h1.1 (bytes "XTERM") (Or.inr ⟨bytes "256COLOR", by decide⟩)).2.2 rfl,
    h2.2.2 (by decide)⟩

/-! ## The consumed count stays inside the buffer -/

/-- The bytes before the first adjacent pair `IAC SE` contain no such pair. -/
theorem firstIacSe_take (l : List Byte) (i : Nat) (h : firstIacSe l = some i) :
    firstIacSe (l.take i) = none := by
  induction l using firstIacSe.induct generalizing i with
  | case1 => simp [firstIacSe] at h
  | case2 a => simp [firstIacSe] at h
  | case3 a b tl hab =>
    simp only [firstIacSe, hab, and_self, if_true, Option.some.injEq] at h
    subst h
    simp [firstIacSe]
  | case4 a b tl hab ih =>
    simp only [firstIacSe, hab, if_false, Option.map_eq_some'] at h
    obtain ⟨j, hj, hji⟩ := h
    subst hji
    have hi := ih j hj
    cases j with
    | zero => simp [firstIacSe]
    | succ k =>
      simp only [List.take_succ_cons] at hi ⊢
      simp only [firstIacSe, hab, if_false, hi, Option.map_none']

/-- The buffers on which parse has no defined result are exactly the two-byte buffers
`IAC c` with `c` none of WILL, WONT, DO, DONT, SB: there line 87 reads the byte after `c`,
which is past the end of the buffer. -/
theorem parse_eq_none_iff (m : TelnetMessage) (buf : List Byte) :
    m.parse buf = none
      ↔ ∃ c, buf = [codes.IAC, c] ∧ c ≠ codes.WILL ∧ c ≠ codes.WONT ∧ c ≠ codes.DO
          ∧ c ≠ codes.DONT ∧ c ≠ codes.SB := by
  match buf with
  | [] => simp [TelnetMessage.parse]
  | c0 :: rest =>
    by_cases h0 : c0 = codes.IAC
    · subst h0
      match rest with
      | [] => simp [TelnetMessage.parse]
      | c1 :: rest2 =>
        by_cases hneg : c1 = codes.WILL ∨ c1 = codes.WONT ∨ c1 = codes.DO ∨ c1 = codes.DONT
        · have hno : ¬ (c1 ≠ codes.WILL ∧ c1 ≠ codes.WONT ∧ c1 ≠ codes.DO ∧ c1 ≠ codes.DONT
              ∧ c1 ≠ codes.SB) := by
            rintro ⟨h1, h2, h3, h4, _⟩
            rcases hneg with h | h | h | h
            · exact h1 h
            · exact h2 h
            · exact h3 h
            · exact h4 h
          match rest2 with
          | [] =>
            simp only [TelnetMessage.parse, if_true, hneg]
            refine ⟨fun h => absurd h (Option.some_ne_none _), ?_⟩
            rintro ⟨c, hc, hcc⟩
            simp only [List.cons.injEq, and_true, true_and] at hc
            subst hc
            exact absurd hcc hno
          | c2 :: rest3 =>
            simp only [TelnetMessage.parse, if_true, hneg]
            refine ⟨fun h => absurd h (Option.some_ne_none _), ?_⟩
            rintro ⟨c, hc, _⟩
            simp at hc
        · by_cases hsb : c1 = codes.SB
          · subst hsb
            have hne : ∀ rest2 : List Byte,
                ¬ ∃ c, codes.IAC :: codes.SB :: rest2 = [codes.IAC, c] ∧ c ≠ codes.WILL
                  ∧ c ≠ codes.WONT ∧ c ≠ codes.DO ∧ c ≠ codes.DONT ∧ c ≠ codes.SB := by
              rintro rest2 ⟨c, hc, _, _, _, _, h5⟩
              simp only [List.cons.injEq, true_and] at hc
              exact h5 hc.1.symm
            match rest2 with
            | [] =>
              simp only [TelnetMessage.parse, if_true, ite_self]
              exact ⟨fun h => absurd h (Option.some_ne_none _), fun h => absurd h (hne [])⟩
            | op :: body =>
              rw [parse_SB]
              constructor
              · intro h
                exfalso
                by_cases hl : body.length < 2
                · simp [hl] at h
                · simp only [hl, if_false] at h
                  cases hf : firstIacSe body with
                  | none => simp [hf] at h
                  | some i => simp [hf] at h
              · intro h
                exact absurd h (hne _)
          · have hc : c1 ≠ codes.WILL ∧ c1 ≠ codes.WONT ∧ c1 ≠ codes.DO ∧ c1 ≠ codes.DONT
                ∧ c1 ≠ codes.SB := by
              simp only [not_or] at hneg
              exact ⟨hneg.1, hneg.2.1, hneg.2.2.1, hneg.2.2.2, hsb⟩
            rw [parse_command _ _ _ hc]
            match rest2 with
            | [] =>
              simp only [true_iff]
              exact ⟨c1, rfl, hc⟩
            | x :: rest3 =>
              refine ⟨fun h => absurd h (Option.some_ne_none _), ?_⟩
              rintro ⟨c, hcc, _⟩
              simp at hcc
    · simp only [TelnetMessage.parse, h0, if_false]
      refine ⟨fun h => absurd h (Option.some_ne_none _), ?_⟩
      rintro ⟨c, hc, _⟩
      simp only [List.cons.injEq] at hc
      exact absurd hc.1 h0

/-- Whenever parse on a fresh message returns, the count is at most the length of the
buffer; and when the count is positive and the kind is Subnegotiation, the count is 5 plus
the payload length, the payload holds no pair `IAC SE`, and the first `n` bytes of the buffer
are `IAC SB option`, the payload, and `IAC SE`. -/
theorem parse_fresh_bounds (t : TelnetMsgType) (buf : List Byte) (n : Nat)
    (m : TelnetMessage) (h : (TelnetMessage.fresh t).parse buf = some (n, m)) :
    n ≤ buf.length
      ∧ (0 < n → m.msg_type = TelnetMsgType.Subnegotiation →
          n = 5 + m.data.length
          ∧ ¬ [codes.IAC, codes.SE] <:+: m.data
          ∧ buf.take n
              = [codes.IAC, codes.SB, m.codes.1] ++ m.data ++ [codes.IAC, codes.SE]) := by
  match buf with
  | [] =>
    simp only [TelnetMessage.parse, Option.some.injEq, Prod.mk.injEq] at h
    obtain ⟨h3, _⟩ := h
    subst h3
    exact ⟨Nat.le_refl _, fun hn => absurd hn (by decide)⟩
  | c0 :: rest =>
    by_cases h0 : c0 = codes.IAC
    · subst h0
      match rest with
      | [] =>
        simp only [TelnetMessage.parse, if_true, Option.some.injEq, Prod.mk.injEq] at h
        obtain ⟨h3, _⟩ := h
        subst h3
        exact ⟨Nat.zero_le _, fun hn => absurd hn (by decide)⟩
      | c1 :: rest2 =>
        by_cases hneg : c1 = codes.WILL ∨ c1 = codes.WONT ∨ c1 = codes.DO ∨ c1 = codes.DONT
        · match rest2 with
          | [] =>
            simp only [TelnetMessage.parse, if_true, hneg, Option.some.injEq,
              Prod.mk.injEq] at h
            obtain ⟨h3, _⟩ := h
            subst h3
            exact ⟨Nat.zero_le _, fun hn => absurd hn (by decide)⟩
          | c2 :: rest3 =>
            simp only [TelnetMessage.parse, if_true, hneg, Option.some.injEq,
              Prod.mk.injEq] at h
            obtain ⟨h3, hm⟩ := h
            subst h3; subst hm
            refine ⟨by simp, fun _ hk => ?_⟩
            simp at hk
        · by_cases hsb : c1 = codes.SB
          · subst hsb
            match rest2 with
            | [] =>
              simp only [TelnetMessage.parse, if_true, ite_self, Option.some.injEq,
                Prod.mk.injEq] at h
              obtain ⟨h3, _⟩ := h
              subst h3
              exact ⟨Nat.zero_le _, fun hn => absurd hn (by decide)⟩
            | op :: body =>
              have hts : ∀ hn : 0 < n, ∀ hk : m.msg_type = TelnetMsgType.Subnegotiation,
                  m.toString = (codes.IAC :: codes.SB :: op :: body).take n :=
                fun hn hk => parse_toString_of_ne_command t _ n m h hn
                  (by rw [hk]; decide)
              rw [parse_SB] at h
              by_cases hl : body.length < 2
              · simp only [hl, if_true, Option.some.injEq, Prod.mk.injEq] at h
                obtain ⟨h3, _⟩ := h
                subst h3
                exact ⟨Nat.zero_le _, fun hn => absurd hn (by decide)⟩
              · simp only [hl, if_false] at h
                cases hf : firstIacSe body with
                | none =>
                  simp only [hf, Option.some.injEq, Prod.mk.injEq] at h
                  obtain ⟨h3, _⟩ := h
                  subst h3
                  exact ⟨Nat.zero_le _, fun hn => absurd hn (by decide)⟩
                | some i =>
                  obtain ⟨r, hr, hlen⟩ := firstIacSe_some body i hf
                  have hnone := firstIacSe_take body i hf
                  simp only [hf, TelnetMessage.fresh, List.nil_append, Option.some.injEq,
                    Prod.mk.injEq] at h
                  obtain ⟨h3, hm⟩ := h
                  have hbody : body.length = i + 2 + r.length := by
                    have := congrArg List.length hr
                    simp only [List.length_append, List.length_cons, hlen] at this
                    omega
                  have hts2 := hts
                  subst h3; subst hm
                  refine ⟨?_, fun hn hk => ⟨rfl, ?_, ?_⟩⟩
                  · simp only [List.length_cons, hlen, hbody]
                    omega
                  · exact (firstIacSe_eq_none_iff _).mp hnone
                  · rw [← hts2 hn hk]
                    rfl
          · have hc : c1 ≠ codes.WILL ∧ c1 ≠ codes.WONT ∧ c1 ≠ codes.DO ∧ c1 ≠ codes.DONT
                ∧ c1 ≠ codes.SB := by
              simp only [not_or] at hneg
              exact ⟨hneg.1, hneg.2.1, hneg.2.2.1, hneg.2.2.2, hsb⟩
            rw [parse_command _ _ _ hc] at h
            match rest2 with
            | [] => simp at h
            | x :: rest3 =>
              simp only [Option.some.injEq, Prod.mk.injEq] at h
              obtain ⟨h3, hm⟩ := h
              subst h3; subst hm
              refine ⟨by simp, fun _ hk => ?_⟩
              simp at hk
    · simp only [TelnetMessage.parse, h0, if_false, TelnetMessage.fresh, List.nil_append,
        Option.some.injEq, Prod.mk.injEq] at h
      obtain ⟨h3, hm⟩ := h
      subst h3; subst hm
      refine ⟨by simp only [List.length_take]; exact Nat.min_le_right _ _, fun _ hk => ?_⟩
      simp at hk

/-- C23: for every buffer and a fresh message, whenever parse returns a count `n` and a
message, `n` is at most the length of the buffer; for a Subnegotiation result, `n` is 5 plus
the payload length, the payload holds no pair `IAC SE`, and the first `n` bytes of the
buffer are `IAC SB option`, the payload, and `IAC SE`, so `n` is the index just past the
terminating `SE`. Parse returns on every buffer other than the two-byte buffers `IAC c` with
`c` none of WILL, WONT, DO, DONT, SB, where the read of line 87 is past the end. -/
theorem parse_consumed_in_bounds (t : TelnetMsgType) (buf : List Byte) :
    (∀ (n : Nat) (m : TelnetMessage), (TelnetMessage.fresh t).parse buf = some (n, m) →
        n ≤ buf.length
        ∧ (0 < n → m.msg_type = TelnetMsgType.Subnegotiation →
            n = 5 + m.data.length
            ∧ ¬ [codes.IAC, codes.SE] <:+: m.data
            ∧ buf.take n
                = [codes.IAC, codes.SB, m.codes.1] ++ m.data ++ [codes.IAC, codes.SE]))
      ∧ ((TelnetMessage.fresh t).parse buf = none
          ↔ ∃ c, buf = [codes.IAC, c] ∧ c ≠ codes.WILL ∧ c ≠ codes.WONT ∧ c ≠ codes.DO
              ∧ c ≠ codes.DONT ∧ c ≠ codes.SB) :=
  ⟨fun n m h => parse_fresh_bounds t buf n m h, parse_eq_none_iff _ buf⟩

/-- C23 at a concrete input: on the eight-byte buffer `IAC SB GMCP 'x' 'y' IAC SE 'A'` parse
returns 7 and a Subnegotiation with payload `"xy"`; 7 is at most 8, 7 = 5 + 2, and the first
seven bytes end with the terminating `IAC SE`. -/
theorem parse_consumed_in_bounds_witness :
    (TelnetMessage.fresh TelnetMsgType.AppData).parse
        [codes.IAC, codes.SB, codes.GMCP, 120, 121, codes.IAC, codes.SE, 65]
        = some (7, { msg_type := TelnetMsgType.Subnegotiation, data := [120, 121],
                     codes := (codes.GMCP, 0) })
      ∧ 7 ≤ [codes.IAC, codes.SB, codes.GMCP, 120, 121, codes.IAC, codes.SE, 65].length
      ∧ 7 = 5 + ([120, 121] : List Byte).length
      ∧ [codes.IAC, codes.SB, codes.GMCP, 120, 121, codes.IAC, codes.SE, 65].take 7
          = [codes.IAC, codes.SB, codes.GMCP] ++ [120, 121] ++ [codes.IAC, codes.SE] :=
  have h : (TelnetMessage.fresh TelnetMsgType.AppData).parse
        [codes.IAC, codes.SB, codes.GMCP, 120, 121, codes.IAC, codes.SE, 65]
        = some (7, { msg_type := TelnetMsgType.Subnegotiation, data := [120, 121],
                     codes := (codes.GMCP, 0) }) := by
    rw [parse_SB]
    decide
  ⟨h,
    ((parse_consumed_in_bounds TelnetMsgType.AppData
        [codes.IAC, codes.SB, codes.GMCP, 120, 121, codes.IAC, codes.SE, 65]).1 7 _ h).1,
    (((parse_consumed_in_bounds TelnetMsgType.AppData
        [codes.IAC, codes.SB, codes.GMCP, 120, 121, codes.IAC, codes.SE, 65]).1 7 _ h).2
        (by decide) rfl).1,
    (((parse_consumed_in_bounds TelnetMsgType.AppData
        [codes.IAC, codes.SB, codes.GMCP, 120, 121, codes.IAC, codes.SE, 65]).1 7 _ h).2
        (by decide) rfl).2.2⟩

end mudtelnet
